import Mathlib

/-!
# Sidecar scope of pilot/pkg/model/sidecar.go

A shallow embedding of `SidecarScope`, its construction
(`ConvertToSidecarScope`, `DefaultSidecarScopeForNamespace`,
`convertIstioListenerToWrapper`, `selectServices`, `selectVirtualServices`,
`matchingServices`) and its query operations (`ServiceForHostname`,
`Services`, `DestinationRule`, `GetEgressListenerForRDS`,
`DependsOnNamespace`).

Conventions of the embedding.

* A Go pointer that may be nil is an `Option`; a nil slice and an empty slice
  are both the empty list (the code only ranges over them and takes `len`).
* A Go `map[string]V` is an association list (`GoMap V`): `mapLookup` reads a
  key, `mapStore` is the assignment `m[k] = v`.  Ranging over a map visits the
  entries in the order of the list, which stands for the unspecified
  iteration order of Go.
* A run-time panic (indexing past the end of a slice) is the result `none`.
* Services are handled by value.  In the source `out.services` and
  `servicesAdded` hold the same `*Service` pointers, so the write
  `os.Ports = append(os.Ports, p)` is visible through both; the embedding
  performs that write on both copies (`mergeInto`).  A service offered to
  `addService` is read as it was when its listener wrapper was built: the
  only services written during the fold are the elements of `out.services`,
  and offering such an element again finds every one of its ports already
  present, so the union is the same either way.  The `services` of a wrapper
  are its selection, as `selectServices` returned it.  What the writes do to
  the objects that the listeners hold and that the collaborator supplied is
  stated on a second, pointer-level embedding of the same functions
  (namespace `Pointer`), where a `*Service` is an address in a store.
* Functions of other files of the package (`host.Name.Matches`,
  `protocol.Parse`, `virtualServiceDestinations`) are parameters (`Deps`), and
  so is what the code reads of `PushContext`.
-/

set_option linter.dupNamespace false

namespace Model

/-! ## Go maps -/

/-- A Go map with string keys, as an association list. -/
abbrev GoMap (V : Type) := List (String × V)

/-- The comma-ok read `v, ok := m[k]`: `none` when the key is missing. -/
def mapLookup {V : Type} : GoMap V → String → Option V
  | [], _ => none
  | (k, v) :: rest, key => if k = key then some v else mapLookup rest key

/-- The assignment `m[k] = v`: overwrite the entry when the key is present,
add one otherwise. -/
def mapStore {V : Type} : GoMap V → String → V → GoMap V
  | [], key, val => [(key, val)]
  | (k, v) :: rest, key, val =>
    if k = key then (k, val) :: rest else (k, v) :: mapStore rest key val

/-- The keys collected by `for k := range m`. -/
def mapKeys {V : Type} (m : GoMap V) : List String := m.map Prod.fst

/-! ## Data model -/

/-- Modelled from the spec: a port of a `Service` (type `model.Port`, declared
in service.go): name, numeric port, protocol. -/
structure Port where
  Name : String
  Port : Int
  Protocol : String
deriving DecidableEq, Repr

/-- Modelled from the spec: `Service.Attributes`, of which the code reads
`Namespace`. -/
structure ServiceAttributes where
  Name : String
  Namespace : String
deriving DecidableEq, Repr

/-- Modelled from the spec: a mesh-visible destination (type `model.Service`,
declared in service.go): hostname, ordered ports, attributes. `Address`
stands for the fields the code never reads. -/
structure Service where
  Hostname : String
  Address : String
  Ports : List Port
  Attributes : ServiceAttributes
deriving DecidableEq, Repr

/-- The `networking.Port` of an egress listener; `Number` is a `uint32`. -/
structure ListenerPort where
  Number : Nat
  Protocol : String
  Name : String
deriving DecidableEq, Repr

/-- The API object `networking.IstioEgressListener`. -/
structure IstioEgressListener where
  Port : Option ListenerPort
  Bind : String
  Hosts : List String
deriving DecidableEq, Repr

/-- The API object `networking.OutboundTrafficPolicy`. -/
structure OutboundTrafficPolicy where
  Mode : Nat
deriving DecidableEq, Repr

/-- The API object `networking.Sidecar`; of an ingress entry only its presence
is read. -/
structure Sidecar where
  Egress : List IstioEgressListener
  Ingress : List String
  OutboundTrafficPolicy : Option OutboundTrafficPolicy
deriving DecidableEq, Repr

/-- A `Config` whose `Spec` is a `*networking.Sidecar`. -/
structure SidecarConfig where
  Namespace : String
  Name : String
  Spec : Sidecar
deriving DecidableEq, Repr

/-- A `Config` whose `Spec` is a `*networking.VirtualService`: `Hosts` is
`rule.Hosts`; `Routes` stands for the route part of the rule, which the code
reads only through `virtualServiceDestinations`. -/
structure VirtualServiceConfig where
  Namespace : String
  Name : String
  Hosts : List String
  Routes : List String
deriving DecidableEq, Repr

/-- A `Config` holding a destination rule, as returned by
`PushContext.DestinationRule`. -/
structure DestinationRuleConfig where
  Namespace : String
  Name : String
deriving DecidableEq, Repr

/-- The wrapper `IstioEgressListenerWrapper`. -/
structure IstioEgressListenerWrapper where
  IstioListener : Option IstioEgressListener
  listenerHosts : GoMap (List String)
  services : List Service
  virtualServices : List VirtualServiceConfig
deriving DecidableEq, Repr

/-- The scope object `SidecarScope`. -/
structure SidecarScope where
  Config : Option SidecarConfig
  EgressListeners : List IstioEgressListenerWrapper
  HasCustomIngressListeners : Bool
  services : List Service
  destinationRules : GoMap (Option DestinationRuleConfig)
  OutboundTrafficPolicy : Option OutboundTrafficPolicy
  namespaceDependencies : GoMap Unit
deriving DecidableEq, Repr

/-- What the code reads of the collaborator `PushContext`, for a proxy that
only carries its `ConfigNamespace`: the visible services, the visible virtual
services for a set of gateways, the destination rule of a service, the index
`ServiceByHostnameAndNamespace` and `Mesh.OutboundTrafficPolicy` (its mode). -/
structure PushContext where
  Services : String → List Service
  VirtualServices : String → GoMap Bool → List VirtualServiceConfig
  DestinationRule : String → Service → Option DestinationRuleConfig
  ServiceByHostnameAndNamespace : GoMap (GoMap Service)
  MeshOutboundTrafficPolicy : Option Nat

/-- Functions the code calls that are declared in other files: the receiver
of `host.Name.Matches` is the imported pattern and its argument the
candidate; `IsHTTPProxy p` is `protocol.Parse(p) == protocol.HTTP_PROXY`;
`virtualServiceDestinations` lists the destination hosts of a rule. -/
structure Deps where
  Matches : String → String → Bool
  IsHTTPProxy : String → Bool
  virtualServiceDestinations : VirtualServiceConfig → List String

def wildcardNamespace : String := "*"
def currentNamespace : String := "."
def wildcardService : String := "*"
/-- The constant `constants.IstioMeshGateway`. -/
def IstioMeshGateway : String := "mesh"

/-! ## Query operations -/

/-- The method `(*SidecarScope).Services`. -/
def Services : Option SidecarScope → List Service
  | none => []
  | some sc => sc.services

/-- The method `(*IstioEgressListenerWrapper).Services`. -/
def ListenerServices : Option IstioEgressListenerWrapper → List Service
  | none => []
  | some ilw => ilw.services

/-- The method `(*IstioEgressListenerWrapper).VirtualServices`. -/
def ListenerVirtualServices :
    Option IstioEgressListenerWrapper → List VirtualServiceConfig
  | none => []
  | some ilw => ilw.virtualServices

/-- The method `(*SidecarScope).DestinationRule`; a missing key reads as the
nil pointer. -/
def DestinationRule (sc : Option SidecarScope) (hostname : String) :
    Option DestinationRuleConfig :=
  match sc with
  | none => none
  | some s => (mapLookup s.destinationRules hostname).join

/-- The method `(*SidecarScope).DependsOnNamespace`. -/
def DependsOnNamespace (sc : Option SidecarScope) (ns : String) : Bool :=
  match sc with
  | none => true
  | some s =>
    match mapLookup s.namespaceDependencies ns with
    | some _ => true
    | none => false

/-- The loop of `GetEgressListenerForRDS` over `sc.EgressListeners`. -/
def egressListenerLoop (port : Int) (bind : String) :
    List IstioEgressListenerWrapper → Option IstioEgressListenerWrapper
  | [] => none
  | e :: rest =>
    match e.IstioListener with
    | none => some e
    | some l =>
      match l.Port with
      | none => some e
      | some p =>
        if (p.Number : Int) = port then
          if port = 0 then
            if l.Bind = bind then some e else egressListenerLoop port bind rest
          else some e
        else egressListenerLoop port bind rest

/-- The method `(*SidecarScope).GetEgressListenerForRDS`. -/
def GetEgressListenerForRDS (sc : Option SidecarScope) (port : Int)
    (bind : String) : Option IstioEgressListenerWrapper :=
  match sc with
  | none => none
  | some s => egressListenerLoop port bind s.EgressListeners

/-- The second loop of `ServiceForHostname`: the first service whose hostname
is equal to the one asked for. -/
def scanServices (hostname : String) : List Service → Option Service
  | [] => none
  | s :: rest => if s.Hostname = hostname then some s else scanServices hostname rest

/-- The first loop of `ServiceForHostname`, run when the scope is nil: return
the first entry the range over `serviceByHostname[hostname]` yields. -/
def firstRanged (byNamespace : GoMap Service) : Option Service :=
  match byNamespace with
  | [] => none
  | (_, service) :: _ => some service

/-- The method `(*SidecarScope).ServiceForHostname`. -/
def ServiceForHostname (sc : Option SidecarScope) (hostname : String)
    (serviceByHostname : GoMap (GoMap Service)) : Option Service :=
  let early :=
    if sc.isNone then firstRanged ((mapLookup serviceByHostname hostname).getD [])
    else none
  match early with
  | some service => some service
  | none => scanServices hostname (Services sc)

/-! ## Construction of the egress listener wrappers -/

/-- Split a string at its first slash: the text before it and the text after
it, or `none` when it has no slash. -/
def splitAtSlash : List Char → Option (List Char × List Char)
  | [] => none
  | c :: cs =>
    if c = '/' then some ([], cs)
    else
      match splitAtSlash cs with
      | none => none
      | some (a, b) => some (c :: a, b)

/-- The call `strings.SplitN(h, "/", 2)`. -/
def SplitN2 (h : String) : List String :=
  match splitAtSlash h.data with
  | none => [h]
  | some (a, b) => [String.mk a, String.mk b]

/-- The loop of `convertIstioListenerToWrapper` over `istioListener.Hosts`,
filling `out.listenerHosts`; `none` when `parts[1]` is out of range. -/
def parseListenerHosts (configNamespace : String) :
    List String → GoMap (List String) → Option (GoMap (List String))
  | [], m => some m
  | h :: rest, m =>
    match SplitN2 h with
    | [] => none
    | p0 :: tail =>
      let ns := if p0 = currentNamespace then configNamespace else p0
      let m1 :=
        match mapLookup m ns with
        | some _ => m
        | none => mapStore m ns []
      match tail with
      | [] => none
      | p1 :: _ =>
        parseListenerHosts configNamespace rest
          (mapStore m1 ns ((mapLookup m1 ns).getD [] ++ [p1]))

/-- The two nested loops of `selectVirtualServices` for one group of imported
hosts: the config is appended (once) as soon as an imported host matches one
of the hosts of the rule. -/
def importsVirtualService (d : Deps) (importedHosts : List String)
    (c : VirtualServiceConfig) : Bool :=
  importedHosts.any (fun importedHost => c.Hosts.any (fun h => d.Matches importedHost h))

/-- What one iteration of the loop of `selectVirtualServices` appends for the
config `c`: first the block of the hosts imported from the namespace of `c`,
then the block of the hosts imported from the wildcard namespace. -/
def selectVirtualServiceStep (d : Deps) (listenerHosts : GoMap (List String))
    (c : VirtualServiceConfig) : List VirtualServiceConfig :=
  (match mapLookup listenerHosts c.Namespace with
    | some importedHosts => if importsVirtualService d importedHosts c then [c] else []
    | none => []) ++
  (match mapLookup listenerHosts wildcardNamespace with
    | some importedHosts => if importsVirtualService d importedHosts c then [c] else []
    | none => [])

/-- The method `selectVirtualServices`, as a function of `ilw.listenerHosts`. -/
def selectVirtualServices (d : Deps) (listenerHosts : GoMap (List String)) :
    List VirtualServiceConfig → List VirtualServiceConfig
  | [] => []
  | c :: rest =>
    selectVirtualServiceStep d listenerHosts c ++ selectVirtualServices d listenerHosts rest

/-- The nil-safe getter `(*networking.Port).GetNumber`. -/
def GetNumber : Option ListenerPort → Nat
  | none => 0
  | some p => p.Number

/-- The flag `needsPortMatch` of `matchingServices`; `none` stands for reading
`Protocol` through a nil `Port`. -/
def needsPortMatch (d : Deps) (istioListener : Option IstioEgressListener) :
    Option Bool :=
  match istioListener with
  | none => some false
  | some l =>
    if GetNumber l.Port ≠ 0 then
      match l.Port with
      | none => none
      | some p => some (!d.IsHTTPProxy p.Protocol)
    else some false

/-- The value `int(ilw.IstioListener.Port.GetNumber())`, read only when
`needsPortMatch` holds (so that `IstioListener` is not nil). -/
def listenerPortNumber (istioListener : Option IstioEgressListener) : Int :=
  match istioListener with
  | none => 0
  | some l => (GetNumber l.Port : Int)

/-- The loop of `matchingServices` over `importedHosts`. With a port match
needed, every matching imported host appends a copy of the service trimmed to
the first port with the number of the listener, if there is one; otherwise
the first matching imported host appends the service itself and ends the
loop. -/
def matchingLoop (d : Deps) (needs : Bool) (number : Int) (service : Service) :
    List String → List Service
  | [] => []
  | importedHost :: rest =>
    if d.Matches importedHost service.Hostname then
      if needs then
        let portMatched := service.Ports.any (fun port => port.Port = number)
        if portMatched then
          match service.Ports.find? (fun port => port.Port = number) with
          | some port =>
            { service with Ports := [port] } :: matchingLoop d needs number service rest
          | none => matchingLoop d needs number service rest
        else matchingLoop d needs number service rest
      else [service]
    else matchingLoop d needs number service rest

/-- The function `matchingServices`. -/
def matchingServices (d : Deps) (importedHosts : List String) (service : Service)
    (istioListener : Option IstioEgressListener) : Option (List Service) :=
  match needsPortMatch d istioListener with
  | none => none
  | some needs =>
    some (matchingLoop d needs (listenerPortNumber istioListener) service importedHosts)

/-- The first loop of `selectServices`: for every service, what the imports
from its own namespace select, then what the wildcard imports select. -/
def importServices (d : Deps) (istioListener : Option IstioEgressListener)
    (listenerHosts : GoMap (List String)) : List Service → Option (List Service)
  | [] => some []
  | s :: rest =>
    let own :=
      match mapLookup listenerHosts s.Attributes.Namespace with
      | some importedHosts => matchingServices d importedHosts s istioListener
      | none => some []
    let wild :=
      match mapLookup listenerHosts wildcardNamespace with
      | some wildcardHosts => matchingServices d wildcardHosts s istioListener
      | none => some []
    match own, wild, importServices d istioListener listenerHosts rest with
    | some a, some b, some c => some (a ++ b ++ c)
    | _, _, _ => none

/-- The second loop of `selectServices`, filling `validServices`. -/
def validServicesLoop (configNamespace : String) :
    List Service → GoMap String → GoMap String
  | [], valid => valid
  | svc :: rest, valid =>
    let f := (mapLookup valid svc.Hostname).isSome
    if !f || svc.Attributes.Namespace = configNamespace then
      validServicesLoop configNamespace rest
        (mapStore valid svc.Hostname svc.Attributes.Namespace)
    else validServicesLoop configNamespace rest valid

/-- The method `selectServices`, as a function of `ilw.IstioListener` and
`ilw.listenerHosts`. A missing key of `validServices` reads as `""`. -/
def selectServices (d : Deps) (istioListener : Option IstioEgressListener)
    (listenerHosts : GoMap (List String)) (services : List Service)
    (configNamespace : String) : Option (List Service) :=
  match importServices d istioListener listenerHosts services with
  | none => none
  | some importedServices =>
    let validServices := validServicesLoop configNamespace importedServices []
    some (importedServices.filter (fun i =>
      (mapLookup validServices i.Hostname).getD "" = i.Attributes.Namespace))

/-- The function `convertIstioListenerToWrapper`. -/
def convertIstioListenerToWrapper (d : Deps) (ps : PushContext)
    (configNamespace : String) (istioListener : IstioEgressListener) :
    Option IstioEgressListenerWrapper :=
  match parseListenerHosts configNamespace istioListener.Hosts [] with
  | none => none
  | some listenerHosts =>
    let meshGateway : GoMap Bool := [(IstioMeshGateway, true)]
    let virtualServices :=
      selectVirtualServices d listenerHosts (ps.VirtualServices configNamespace meshGateway)
    match selectServices d (some istioListener) listenerHosts
        (ps.Services configNamespace) configNamespace with
    | none => none
    | some services =>
      some { IstioListener := some istioListener
             listenerHosts := listenerHosts
             services := services
             virtualServices := virtualServices }

/-! ## Construction of the scope -/

/-- Comparison of two strings byte by byte, as Go compares strings (on the
characters of the embedding: UTF-8 keeps the order of the code points). -/
def charsLe : List Char → List Char → Bool
  | [], _ => true
  | _ :: _, [] => false
  | a :: as, b :: bs =>
    if a.toNat < b.toNat then true
    else if b.toNat < a.toNat then false
    else charsLe as bs

/-- The order `a <= b` of Go strings. -/
def stringLe (a b : String) : Bool := charsLe a.data b.data

/-- Insertion of a string into a sorted list. -/
def insertString (x : String) : List String → List String
  | [] => [x]
  | y :: ys => if stringLe x y then x :: y :: ys else y :: insertString x ys

/-- The call `sort.Strings(ns)`: the strings in increasing order. -/
def sortStrings : List String → List String
  | [] => []
  | x :: xs => insertString x (sortStrings xs)

/-- The local state of `ConvertToSidecarScope` that `addService` writes:
`out.services`, `servicesAdded` and `out.namespaceDependencies`. -/
structure UnionState where
  services : List Service
  servicesAdded : GoMap Service
  namespaceDependencies : GoMap Unit
deriving DecidableEq, Repr

/-- The port-merging loop of `addService`: every port of the service being
added whose number is not among the ports held so far is appended. -/
def mergePorts (osPorts : List Port) : List Port → List Port
  | [] => osPorts
  | p :: rest =>
    if osPorts.any (fun osp => p.Port = osp.Port) then mergePorts osPorts rest
    else mergePorts (osPorts ++ [p]) rest

/-- The write of a merged port list through the pointer `os`, which is the
element of `out.services` stored under its hostname in `servicesAdded`. -/
def mergeInto (st : UnionState) (hostname : String) (os : Service)
    (ports : List Port) : UnionState :=
  { st with
    services := st.services.map (fun x =>
      if x.Hostname = hostname then { x with Ports := ports } else x)
    servicesAdded := mapStore st.servicesAdded hostname { os with Ports := ports } }

/-- The closure `addService` of `ConvertToSidecarScope`. -/
def addService (st : UnionState) (svc : Option Service) : UnionState :=
  match svc with
  | none => st
  | some s =>
    match mapLookup st.servicesAdded s.Hostname with
    | none =>
      { services := st.services ++ [s]
        servicesAdded := mapStore st.servicesAdded s.Hostname s
        namespaceDependencies := mapStore st.namespaceDependencies s.Attributes.Namespace () }
    | some foundSvc =>
      if foundSvc.Attributes.Namespace = s.Attributes.Namespace ∧ s.Ports.length > 0 then
        mergeInto st s.Hostname foundSvc (mergePorts foundSvc.Ports s.Ports)
      else st

/-- The body of the loop over `virtualServiceDestinations(v)` for the
destination host `dHost`: the service of that hostname in the config
namespace, else the one of the first namespace in alphabetical order, else
nothing. -/
def addDestination (ps : PushContext) (configNamespace : String)
    (st : UnionState) (dHost : String) : UnionState :=
  let byNamespace := (mapLookup ps.ServiceByHostnameAndNamespace dHost).getD []
  match mapLookup byNamespace configNamespace with
  | some s => addService st (some s)
  | none =>
    if byNamespace.length = 0 then st
    else
      let ns := sortStrings (mapKeys byNamespace)
      addService st (mapLookup byNamespace (ns.headD ""))

/-- The body of the loop over `out.EgressListeners`: the services of the
listener, then the destinations of its virtual services. -/
def addListener (d : Deps) (ps : PushContext) (configNamespace : String)
    (st : UnionState) (listener : IstioEgressListenerWrapper) : UnionState :=
  let st1 := listener.services.foldl (fun acc s => addService acc (some s)) st
  listener.virtualServices.foldl
    (fun acc vs =>
      (d.virtualServiceDestinations vs).foldl (addDestination ps configNamespace) acc)
    st1

/-- The loop over `r.Egress` building `out.EgressListeners`. -/
def convertListeners (d : Deps) (ps : PushContext) (configNamespace : String) :
    List IstioEgressListener → Option (List IstioEgressListenerWrapper)
  | [] => some []
  | e :: rest =>
    match convertIstioListenerToWrapper d ps configNamespace e,
        convertListeners d ps configNamespace rest with
    | some w, some ws => some (w :: ws)
    | _, _ => none

/-- The loop filling `out.destinationRules` from `out.services`. -/
def destinationRulesOf (ps : PushContext) (configNamespace : String)
    (services : List Service) : GoMap (Option DestinationRuleConfig) :=
  services.foldl
    (fun m s => mapStore m s.Hostname (ps.DestinationRule configNamespace s)) []

/-- The outbound traffic policy inherited from the mesh configuration. -/
def meshOutboundTrafficPolicy (ps : PushContext) : Option OutboundTrafficPolicy :=
  match ps.MeshOutboundTrafficPolicy with
  | some mode => some { Mode := mode }
  | none => none

/-- The function `DefaultSidecarScopeForNamespace`. -/
def DefaultSidecarScopeForNamespace (ps : PushContext) (configNamespace : String) :
    SidecarScope :=
  let meshGateway : GoMap Bool := [(IstioMeshGateway, true)]
  let defaultEgressListener : IstioEgressListenerWrapper :=
    { IstioListener := none
      listenerHosts := [(wildcardNamespace, [wildcardService])]
      services := ps.Services configNamespace
      virtualServices := ps.VirtualServices configNamespace meshGateway }
  { Config := none
    EgressListeners := [defaultEgressListener]
    HasCustomIngressListeners := false
    services := defaultEgressListener.services
    destinationRules := destinationRulesOf ps configNamespace defaultEgressListener.services
    OutboundTrafficPolicy := meshOutboundTrafficPolicy ps
    namespaceDependencies :=
      defaultEgressListener.services.foldl
        (fun m s => mapStore m s.Attributes.Namespace ()) [] }

/-- The function `ConvertToSidecarScope`; `none` when building a listener
wrapper fails. Services are handled by value: `services`, `destinationRules`
and `namespaceDependencies` are those of the source, and `EgressListeners`
holds the services of each listener as they are when its wrapper is built.
In the source a listener and the union share `*Service` pointers, and the
ports that `addService` appends through such a pointer are seen through the
listener as well; `Pointer.ConvertToSidecarScope` follows these writes. -/
def ConvertToSidecarScope (d : Deps) (ps : PushContext)
    (sidecarConfig : Option SidecarConfig) (configNamespace : String) :
    Option SidecarScope :=
  match sidecarConfig with
  | none => some (DefaultSidecarScopeForNamespace ps configNamespace)
  | some cfg =>
    let r := cfg.Spec
    match convertListeners d ps configNamespace r.Egress with
    | none => none
    | some listeners =>
      let st := listeners.foldl (addListener d ps configNamespace)
        { services := [], servicesAdded := [], namespaceDependencies := [] }
      some { Config := some cfg
             EgressListeners := listeners
             HasCustomIngressListeners := decide (r.Ingress.length > 0)
             services := st.services
             destinationRules := destinationRulesOf ps configNamespace st.services
             OutboundTrafficPolicy :=
               match r.OutboundTrafficPolicy with
               | none => meshOutboundTrafficPolicy ps
               | some p => some p
             namespaceDependencies := st.namespaceDependencies }


/-! ## Examples -/

/-- Modelled from the spec: the matcher `host.Name.Matches` (declared in
package host): exact equality matches, the pattern `*` matches everything,
and a pattern `*.suffix` matches every candidate ending with `.suffix`. -/
def hostMatches (pattern candidate : String) : Bool :=
  pattern = candidate || pattern = "*" ||
    (match pattern.data with
      | '*' :: '.' :: suffix => ('.' :: suffix).isSuffixOf candidate.data
      | _ => false)

/-- The dependencies used in the examples: the matcher of the spec, the
protocol name `HTTP_PROXY`, and the routes of a rule as its destinations. -/
def exampleDeps : Deps :=
  { Matches := hostMatches
    IsHTTPProxy := fun p => p = "HTTP_PROXY"
    virtualServiceDestinations := fun c => c.Routes }

/-- The port of a listener bound to a unix domain socket: number 0. -/
def udsPort : ListenerPort := { Number := 0, Protocol := "HTTP", Name := "uds" }

/-- A listener bound to a unix domain socket. -/
def udsListener : IstioEgressListener :=
  { Port := some udsPort, Bind := "unix:///var/run/app.sock", Hosts := [] }

/-- A listener wrapper bound to a unix domain socket: port number 0. -/
def udsWrapper : IstioEgressListenerWrapper :=
  { IstioListener := some udsListener
    listenerHosts := []
    services := []
    virtualServices := [] }

/-- A listener wrapper on port 9080. -/
def portWrapper : IstioEgressListenerWrapper :=
  { IstioListener := some { Port := some { Number := 9080, Protocol := "HTTP", Name := "http" }
                            Bind := "127.0.0.1"
                            Hosts := [] }
    listenerHosts := []
    services := []
    virtualServices := [] }

/-- A catch-all listener wrapper: no port. -/
def catchAllWrapper : IstioEgressListenerWrapper :=
  { IstioListener := some { Port := none, Bind := "", Hosts := [] }
    listenerHosts := []
    services := []
    virtualServices := [] }

/-- A scope that only carries the given egress listeners. -/
def scopeOfListeners (ls : List IstioEgressListenerWrapper) : SidecarScope :=
  { Config := none
    EgressListeners := ls
    HasCustomIngressListeners := false
    services := []
    destinationRules := []
    OutboundTrafficPolicy := none
    namespaceDependencies := [] }

/-! ## Predicates used to state the properties -/

/-- A catch-all listener: nil `IstioListener` or nil `Port`. -/
def isCatchAll (e : IstioEgressListenerWrapper) : Bool :=
  match e.IstioListener with
  | none => true
  | some l => l.Port.isNone

/-- The listener has a port, and its number is `port`. -/
def hasPortNumber (e : IstioEgressListenerWrapper) (port : Int) : Bool :=
  match e.IstioListener with
  | none => false
  | some l =>
    match l.Port with
    | none => false
    | some p => (p.Number : Int) = port


/-- A service for the examples, with ports given by their numbers. -/
def exampleService (hostname ns : String) (ports : List Int) : Service :=
  { Hostname := hostname
    Address := ""
    Ports := ports.map (fun n => { Name := "", Port := n, Protocol := "HTTP" })
    Attributes := { Name := hostname, Namespace := ns } }

/-- A mesh with the hostname `a.com` in the namespaces `ns2` and `ns1`, no
virtual service and an empty index. -/
def twoNamespacePush : PushContext :=
  { Services := fun _ => [exampleService "a.com" "ns2" [80], exampleService "a.com" "ns1" [80, 443]]
    VirtualServices := fun _ _ => []
    DestinationRule := fun _ _ => none
    ServiceByHostnameAndNamespace := []
    MeshOutboundTrafficPolicy := none }

/-- A sidecar resource of namespace `ns1` with two egress listeners without
port: the first imports `a.com` from `ns2`, the second from its own
namespace. -/
def twoListenerConfig : SidecarConfig :=
  { Namespace := "ns1"
    Name := "sidecar"
    Spec :=
      { Egress := [{ Port := none, Bind := "", Hosts := ["ns2/a.com"] },
                   { Port := none, Bind := "", Hosts := ["./a.com"] }]
        Ingress := []
        OutboundTrafficPolicy := none } }

/-- A sidecar resource of namespace `ns1` with one egress listener without
port that imports `a.com` from every namespace. -/
def wildcardConfig : SidecarConfig :=
  { Namespace := "ns1"
    Name := "sidecar"
    Spec :=
      { Egress := [{ Port := none, Bind := "", Hosts := ["*/a.com"] }]
        Ingress := []
        OutboundTrafficPolicy := none } }

/-- The scope built for `twoListenerConfig` on `twoNamespacePush`. -/
def twoListenerScope : SidecarScope :=
  { Config := some twoListenerConfig
    EgressListeners :=
      [{ IstioListener := some { Port := none, Bind := "", Hosts := ["ns2/a.com"] }
         listenerHosts := [("ns2", ["a.com"])]
         services := [exampleService "a.com" "ns2" [80]]
         virtualServices := [] },
       { IstioListener := some { Port := none, Bind := "", Hosts := ["./a.com"] }
         listenerHosts := [("ns1", ["a.com"])]
         services := [exampleService "a.com" "ns1" [80, 443]]
         virtualServices := [] }]
    HasCustomIngressListeners := false
    services := [exampleService "a.com" "ns2" [80]]
    destinationRules := [("a.com", none)]
    OutboundTrafficPolicy := none
    namespaceDependencies := [("ns2", ())] }

/-- The scope built for `wildcardConfig` on `twoNamespacePush`. -/
def wildcardScope : SidecarScope :=
  { Config := some wildcardConfig
    EgressListeners :=
      [{ IstioListener := some { Port := none, Bind := "", Hosts := ["*/a.com"] }
         listenerHosts := [("*", ["a.com"])]
         services := [exampleService "a.com" "ns1" [80, 443]]
         virtualServices := [] }]
    HasCustomIngressListeners := false
    services := [exampleService "a.com" "ns1" [80, 443]]
    destinationRules := [("a.com", none)]
    OutboundTrafficPolicy := none
    namespaceDependencies := [("ns1", ())] }

/-- A mesh where `a.com` of `ns2` is visible together with a virtual service
of `ns2` for `a.com` that routes to `b.com`, a hostname indexed in the
namespaces `ns3` and `ns2`. -/
def routedPush : PushContext :=
  { Services := fun _ => [exampleService "a.com" "ns2" [80]]
    VirtualServices := fun _ _ =>
      [{ Namespace := "ns2", Name := "route", Hosts := ["a.com"], Routes := ["b.com"] }]
    DestinationRule := fun _ _ => none
    ServiceByHostnameAndNamespace :=
      [("b.com", [("ns3", exampleService "b.com" "ns3" [9090]),
                  ("ns2", exampleService "b.com" "ns2" [8080])])]
    MeshOutboundTrafficPolicy := none }

/-- A sidecar resource of namespace `ns1` with one egress listener without
port that imports `a.com` from `ns2`. -/
def routedConfig : SidecarConfig :=
  { Namespace := "ns1"
    Name := "sidecar"
    Spec :=
      { Egress := [{ Port := none, Bind := "", Hosts := ["ns2/a.com"] }]
        Ingress := []
        OutboundTrafficPolicy := none } }

/-- The scope built for `routedConfig` on `routedPush`. -/
def routedScope : SidecarScope :=
  { Config := some routedConfig
    EgressListeners :=
      [{ IstioListener := some { Port := none, Bind := "", Hosts := ["ns2/a.com"] }
         listenerHosts := [("ns2", ["a.com"])]
         services := [exampleService "a.com" "ns2" [80]]
         virtualServices :=
           [{ Namespace := "ns2", Name := "route", Hosts := ["a.com"], Routes := ["b.com"] }] }]
    HasCustomIngressListeners := false
    services := [exampleService "a.com" "ns2" [80], exampleService "b.com" "ns2" [8080]]
    destinationRules := [("a.com", none), ("b.com", none)]
    OutboundTrafficPolicy := none
    namespaceDependencies := [("ns2", ())] }

/-- The only egress listener of `wildcardConfig`. -/
def wildcardListener : IstioEgressListener :=
  { Port := none, Bind := "", Hosts := ["*/a.com"] }

/-- The scope built for `wildcardConfig` on `routedPush`. -/
def routedWildcardScope : SidecarScope :=
  { Config := some wildcardConfig
    EgressListeners :=
      [{ IstioListener := some wildcardListener
         listenerHosts := [("*", ["a.com"])]
         services := [exampleService "a.com" "ns2" [80]]
         virtualServices :=
           [{ Namespace := "ns2", Name := "route", Hosts := ["a.com"], Routes := ["b.com"] }] }]
    HasCustomIngressListeners := false
    services := [exampleService "a.com" "ns2" [80], exampleService "b.com" "ns2" [8080]]
    destinationRules := [("a.com", none), ("b.com", none)]
    OutboundTrafficPolicy := none
    namespaceDependencies := [("ns2", ())] }


/-! ## Notions used to state the properties of the construction -/

/-- The step of the fold of `ConvertToSidecarScope`: `addService` on a service
that is not nil. -/
def addSome (st : UnionState) (s : Service) : UnionState := addService st (some s)

/-- The entry of the union for a hostname: the element of `out.services`
with that hostname. -/
def entryOf (st : UnionState) (hostname : String) : Option Service :=
  st.services.find? (fun s => s.Hostname = hostname)

/-- The state of `ConvertToSidecarScope` before the first listener. -/
def emptyUnion : UnionState :=
  { services := [], servicesAdded := [], namespaceDependencies := [] }

/-- The relation kept by `addService` between `out.services`, `servicesAdded`
and `out.namespaceDependencies`: `servicesAdded[h]` is the element of
`out.services` with hostname `h`, no two elements of `out.services` share a
hostname, and the recorded namespaces are those of the elements. -/
structure UnionInv (st : UnionState) : Prop where
  added : ∀ h, mapLookup st.servicesAdded h = entryOf st h
  nodup : (st.services.map (fun s => s.Hostname)).Nodup
  deps : ∀ ns, (mapLookup st.namespaceDependencies ns).isSome = true ↔
    ∃ s ∈ st.services, s.Attributes.Namespace = ns

/-- The service that the loop over the destinations of a virtual service
passes to `addService` for the destination host `dHost`, if any: the branches
of `addDestination` without the state. -/
def resolveDestination (ps : PushContext) (configNamespace : String) (dHost : String) :
    Option Service :=
  let byNamespace := (mapLookup ps.ServiceByHostnameAndNamespace dHost).getD []
  match mapLookup byNamespace configNamespace with
  | some s => some s
  | none =>
    if byNamespace.length = 0 then none
    else mapLookup byNamespace ((sortStrings (mapKeys byNamespace)).headD "")

/-- The services one listener offers to the union, in the order of the fold:
its selected services, then the services resolved from the destinations of
its virtual services. -/
def listenerCandidates (d : Deps) (ps : PushContext) (configNamespace : String)
    (listener : IstioEgressListenerWrapper) : List Service :=
  listener.services ++
    (listener.virtualServices.flatMap d.virtualServiceDestinations).filterMap
      (resolveDestination ps configNamespace)

/-- The services offered to the union, in the order of the fold: listeners in
the order of their declaration. -/
def unionCandidates (d : Deps) (ps : PushContext) (configNamespace : String)
    (listeners : List IstioEgressListenerWrapper) : List Service :=
  listeners.flatMap (listenerCandidates d ps configNamespace)

/-- The service `e` is the service `c` with further ports appended. -/
def extendsPorts (c e : Service) : Prop :=
  ∃ extra, e = { c with Ports := c.Ports ++ extra }


/-! ## Notions used to state the properties of the selection -/

/-- The flag `needsPortMatch` as a boolean (`needsPortMatch` never fails, see
`needsPortMatch_eq`). -/
def needsPortMatchFlag (d : Deps) (istioListener : Option IstioEgressListener) : Bool :=
  (needsPortMatch d istioListener).getD false

/-- What one iteration of the first loop of `selectServices` appends for the
service `s`: the result of `matchingServices` for the hosts imported from
the namespace of `s`, then for the hosts imported from the wildcard
namespace. -/
def importedFrom (d : Deps) (istioListener : Option IstioEgressListener)
    (listenerHosts : GoMap (List String)) (s : Service) : List Service :=
  (match mapLookup listenerHosts s.Attributes.Namespace with
    | some importedHosts =>
      matchingLoop d (needsPortMatchFlag d istioListener) (listenerPortNumber istioListener)
        s importedHosts
    | none => []) ++
  (match mapLookup listenerHosts wildcardNamespace with
    | some wildcardHosts =>
      matchingLoop d (needsPortMatchFlag d istioListener) (listenerPortNumber istioListener)
        s wildcardHosts
    | none => [])

/-- The value of `importedServices` after the first loop of `selectServices`:
the services that passed import matching, in the order of the input list. -/
def importedServicesOf (d : Deps) (istioListener : Option IstioEgressListener)
    (listenerHosts : GoMap (List String)) (services : List Service) : List Service :=
  services.flatMap (importedFrom d istioListener listenerHosts)

/-- Some pattern of the hosts imported from the namespace `ns` matches one of
the hosts of the rule. -/
def importedUnder (d : Deps) (listenerHosts : GoMap (List String)) (ns : String)
    (c : VirtualServiceConfig) : Bool :=
  match mapLookup listenerHosts ns with
  | some importedHosts => importsVirtualService d importedHosts c
  | none => false

/-- The rule is imported: by a pattern grouped under its own namespace or by a
pattern grouped under the wildcard namespace. -/
def importedRule (d : Deps) (listenerHosts : GoMap (List String))
    (c : VirtualServiceConfig) : Bool :=
  importedUnder d listenerHosts c.Namespace c || importedUnder d listenerHosts wildcardNamespace c

/-- The number of times `selectVirtualServices` appends the rule: once for each
of the two groups that imports it. -/
def importCount (d : Deps) (listenerHosts : GoMap (List String))
    (c : VirtualServiceConfig) : Nat :=
  (if importedUnder d listenerHosts c.Namespace c then 1 else 0) +
  (if importedUnder d listenerHosts wildcardNamespace c then 1 else 0)

/-- The namespace `selectServices` keeps for a hostname, given the services
that passed import matching: the config namespace if one of them with that
hostname is in it, otherwise the namespace of the first of them with that
hostname. -/
def chosenNamespace (configNamespace : String) (imported : List Service)
    (hostname : String) : String :=
  if imported.any (fun y => y.Hostname = hostname ∧ y.Attributes.Namespace = configNamespace)
  then configNamespace
  else
    match imported.find? (fun s => s.Hostname = hostname) with
    | some first => first.Attributes.Namespace
    | none => ""


/-! ## Pointer-level embedding of the construction

The definitions above handle services by value.  The definitions of this
section follow the same source functions with the `Service` objects kept in
a store and handled through their addresses, as the source handles them
through `*Service`: `service.DeepCopy()` allocates a new object, and the
write `os.Ports = append(os.Ports, p)` changes the object at the address
`os`, for every holder of that address.  They are used to state what the
construction does to the objects supplied by the collaborator.  Of the scope
only the parts that hold services are built. -/

namespace Pointer

/-- The memory holding the `Service` objects. -/
abbrev Store := List Service

/-- A non-nil `*Service`: the position of the object in the store. -/
abbrev ServicePtr := Nat

/-- The read `*p`; `none` for an address outside of the store. -/
def load (m : Store) (p : ServicePtr) : Option Service :=
  match m, p with
  | [], _ => none
  | s :: _, 0 => some s
  | _ :: rest, n + 1 => load rest n

/-- A new object: the store with it, and its address. -/
def allocate (m : Store) (s : Service) : Store × ServicePtr := (m ++ [s], m.length)

/-- The write `p.Ports = ports`. -/
def writePorts (m : Store) (p : ServicePtr) (ports : List Port) : Store :=
  match m, p with
  | [], _ => []
  | s :: rest, 0 => { s with Ports := ports } :: rest
  | s :: rest, n + 1 => s :: writePorts rest n ports

/-- What the code reads of the collaborator `PushContext` to select and
collect services, with the services given by their addresses. -/
structure PushContext where
  Services : String → List ServicePtr
  VirtualServices : String → GoMap Bool → List VirtualServiceConfig
  ServiceByHostnameAndNamespace : GoMap (GoMap ServicePtr)

/-- The wrapper `IstioEgressListenerWrapper`, with `services` of type
`[]*Service`. -/
structure IstioEgressListenerWrapper where
  IstioListener : Option IstioEgressListener
  listenerHosts : GoMap (List String)
  services : List ServicePtr
  virtualServices : List VirtualServiceConfig
deriving DecidableEq, Repr

/-- The loop of `matchingServices` over `importedHosts`: the trimmed copy is a
new object (`service.DeepCopy()`, then `sc.Ports = ports`); without a port
match the address of the service itself is appended. -/
def matchingLoop (d : Deps) (needs : Bool) (number : Int) (service : ServicePtr) :
    List String → Store → Option (Store × List ServicePtr)
  | [], m => some (m, [])
  | importedHost :: rest, m =>
    match load m service with
    | none => none
    | some sv =>
      if d.Matches importedHost sv.Hostname then
        if needs then
          let portMatched := sv.Ports.any (fun port => port.Port = number)
          if portMatched then
            match sv.Ports.find? (fun port => port.Port = number) with
            | some port =>
              match matchingLoop d needs number service rest
                  (allocate m { sv with Ports := [port] }).1 with
              | some (m2, more) => some (m2, (allocate m { sv with Ports := [port] }).2 :: more)
              | none => none
            | none => matchingLoop d needs number service rest m
          else matchingLoop d needs number service rest m
        else some (m, [service])
      else matchingLoop d needs number service rest m

/-- The function `matchingServices`. -/
def matchingServices (d : Deps) (importedHosts : List String) (service : ServicePtr)
    (istioListener : Option IstioEgressListener) (m : Store) :
    Option (Store × List ServicePtr) :=
  match needsPortMatch d istioListener with
  | none => none
  | some needs =>
    matchingLoop d needs (listenerPortNumber istioListener) service importedHosts m

/-- The first loop of `selectServices`. -/
def importServices (d : Deps) (istioListener : Option IstioEgressListener)
    (listenerHosts : GoMap (List String)) :
    List ServicePtr → Store → Option (Store × List ServicePtr)
  | [], m => some (m, [])
  | s :: rest, m =>
    match load m s with
    | none => none
    | some sv =>
      let own :=
        match mapLookup listenerHosts sv.Attributes.Namespace with
        | some importedHosts => matchingServices d importedHosts s istioListener m
        | none => some (m, [])
      match own with
      | none => none
      | some (m1, a) =>
        let wild :=
          match mapLookup listenerHosts wildcardNamespace with
          | some wildcardHosts => matchingServices d wildcardHosts s istioListener m1
          | none => some (m1, [])
        match wild with
        | none => none
        | some (m2, b) =>
          match importServices d istioListener listenerHosts rest m2 with
          | none => none
          | some (m3, c) => some (m3, a ++ b ++ c)

/-- The objects at a list of addresses. -/
def loadAll (m : Store) : List ServicePtr → Option (List Service)
  | [] => some []
  | p :: rest =>
    match load m p, loadAll m rest with
    | some s, some more => some (s :: more)
    | _, _ => none

/-- The method `selectServices`: the second and third loops only read the
hostname and the namespace of the imported services. -/
def selectServices (d : Deps) (istioListener : Option IstioEgressListener)
    (listenerHosts : GoMap (List String)) (services : List ServicePtr)
    (configNamespace : String) (m : Store) : Option (Store × List ServicePtr) :=
  match importServices d istioListener listenerHosts services m with
  | none => none
  | some (m1, importedServices) =>
    match loadAll m1 importedServices with
    | none => none
    | some imported =>
      let validServices := validServicesLoop configNamespace imported []
      some (m1, importedServices.filter (fun i =>
        match load m1 i with
        | some sv => (mapLookup validServices sv.Hostname).getD "" = sv.Attributes.Namespace
        | none => false))

/-- The function `convertIstioListenerToWrapper`. -/
def convertIstioListenerToWrapper (d : Deps) (ps : PushContext) (configNamespace : String)
    (istioListener : IstioEgressListener) (m : Store) :
    Option (Store × IstioEgressListenerWrapper) :=
  match parseListenerHosts configNamespace istioListener.Hosts [] with
  | none => none
  | some listenerHosts =>
    let meshGateway : GoMap Bool := [(IstioMeshGateway, true)]
    let virtualServices :=
      selectVirtualServices d listenerHosts (ps.VirtualServices configNamespace meshGateway)
    match selectServices d (some istioListener) listenerHosts
        (ps.Services configNamespace) configNamespace m with
    | none => none
    | some (m1, services) =>
      some (m1, { IstioListener := some istioListener
                  listenerHosts := listenerHosts
                  services := services
                  virtualServices := virtualServices })

/-- The loop over `r.Egress` building `out.EgressListeners`. -/
def convertListeners (d : Deps) (ps : PushContext) (configNamespace : String) :
    List IstioEgressListener → Store → Option (Store × List IstioEgressListenerWrapper)
  | [], m => some (m, [])
  | e :: rest, m =>
    match convertIstioListenerToWrapper d ps configNamespace e m with
    | none => none
    | some (m1, w) =>
      match convertListeners d ps configNamespace rest m1 with
      | none => none
      | some (m2, ws) => some (m2, w :: ws)

/-- The state that `addService` reads and writes: `out.services`,
`servicesAdded`, `out.namespaceDependencies`, and the store. -/
structure UnionState where
  services : List ServicePtr
  servicesAdded : GoMap ServicePtr
  namespaceDependencies : GoMap Unit
  store : Store
deriving DecidableEq, Repr

/-- The closure `addService` of `ConvertToSidecarScope`: the merged ports are
written to the object at the address `servicesAdded[s.Hostname]`. -/
def addService (st : UnionState) (svc : Option ServicePtr) : Option UnionState :=
  match svc with
  | none => some st
  | some s =>
    match load st.store s with
    | none => none
    | some sv =>
      match mapLookup st.servicesAdded sv.Hostname with
      | none =>
        some { st with
          services := st.services ++ [s]
          servicesAdded := mapStore st.servicesAdded sv.Hostname s
          namespaceDependencies :=
            mapStore st.namespaceDependencies sv.Attributes.Namespace () }
      | some foundSvc =>
        match load st.store foundSvc with
        | none => none
        | some fv =>
          if fv.Attributes.Namespace = sv.Attributes.Namespace ∧ sv.Ports.length > 0 then
            some { st with store := writePorts st.store foundSvc (mergePorts fv.Ports sv.Ports) }
          else some st

/-- The body of the loop over `virtualServiceDestinations(v)`. -/
def addDestination (ps : PushContext) (configNamespace : String)
    (st : UnionState) (dHost : String) : Option UnionState :=
  let byNamespace := (mapLookup ps.ServiceByHostnameAndNamespace dHost).getD []
  match mapLookup byNamespace configNamespace with
  | some s => addService st (some s)
  | none =>
    if byNamespace.length = 0 then some st
    else
      let ns := sortStrings (mapKeys byNamespace)
      addService st (mapLookup byNamespace (ns.headD ""))

/-- A loop whose body may fail. -/
def foldOption {S A : Type} (f : S → A → Option S) : List A → S → Option S
  | [], st => some st
  | a :: rest, st =>
    match f st a with
    | none => none
    | some st1 => foldOption f rest st1

/-- The body of the loop over `out.EgressListeners`. -/
def addListener (d : Deps) (ps : PushContext) (configNamespace : String)
    (st : UnionState) (listener : IstioEgressListenerWrapper) : Option UnionState :=
  match foldOption (fun acc s => addService acc (some s)) listener.services st with
  | none => none
  | some st1 =>
    foldOption
      (fun acc vs =>
        foldOption (addDestination ps configNamespace) (d.virtualServiceDestinations vs) acc)
      listener.virtualServices st1

/-- The part of `ConvertToSidecarScope` for an explicit resource that builds
the listeners and collects the services: the listeners, `out.services`,
`out.namespaceDependencies` and the store on return. -/
def ConvertToSidecarScope (d : Deps) (ps : PushContext) (sidecarConfig : SidecarConfig)
    (configNamespace : String) (m : Store) :
    Option (List IstioEgressListenerWrapper × UnionState) :=
  match convertListeners d ps configNamespace sidecarConfig.Spec.Egress m with
  | none => none
  | some (m1, listeners) =>
    match foldOption (addListener d ps configNamespace) listeners
        { services := [], servicesAdded := [], namespaceDependencies := [], store := m1 } with
    | none => none
    | some st => some (listeners, st)

end Pointer


/-! ## Examples for the selection -/

/-- A listener without port of namespace `ns1` that imports `a.com` from its
own namespace and from every namespace. -/
def bothGroupsListener : IstioEgressListener :=
  { Port := none, Bind := "", Hosts := ["./a.com", "*/a.com"] }

/-- The wrapper built for `wildcardListener` on `twoNamespacePush`. -/
def wildcardWrapper : IstioEgressListenerWrapper :=
  { IstioListener := some wildcardListener
    listenerHosts := [("*", ["a.com"])]
    services := [exampleService "a.com" "ns1" [80, 443]]
    virtualServices := [] }

/-- The mesh of `twoNamespacePush` where the destination rule of a service is
the rule named `dr` of the namespace of the service. -/
def policyPush : PushContext :=
  { Services := fun _ => [exampleService "a.com" "ns2" [80], exampleService "a.com" "ns1" [80, 443]]
    VirtualServices := fun _ _ => []
    DestinationRule := fun _ s => some { Namespace := s.Attributes.Namespace, Name := "dr" }
    ServiceByHostnameAndNamespace := []
    MeshOutboundTrafficPolicy := some 1 }

/-- The scope built for `wildcardConfig` on `policyPush`. -/
def policyScope : SidecarScope :=
  { wildcardScope with
    destinationRules := [("a.com", some { Namespace := "ns1", Name := "dr" })]
    OutboundTrafficPolicy := some { Mode := 1 } }

/-- A virtual service of namespace `ns1` for the host `a.com`. -/
def ownNamespaceRule : VirtualServiceConfig :=
  { Namespace := "ns1", Name := "route", Hosts := ["a.com"], Routes := [] }

/-- A mesh whose only virtual service is `ownNamespaceRule`. -/
def oneRulePush : PushContext :=
  { Services := fun _ => []
    VirtualServices := fun _ _ => [ownNamespaceRule]
    DestinationRule := fun _ _ => none
    ServiceByHostnameAndNamespace := []
    MeshOutboundTrafficPolicy := none }

/-- The port 80 of a listener, for HTTP. -/
def httpPort : ListenerPort := { Number := 80, Protocol := "HTTP", Name := "http" }

/-- A listener on port 80 of namespace `ns1` that imports `a.com` from every
namespace. -/
def httpListener : IstioEgressListener :=
  { Port := some httpPort, Bind := "", Hosts := ["*/a.com"] }

/-- The wrapper built for `httpListener` on `twoNamespacePush`: the copy of
`a.com` of `ns1` trimmed to port 80. -/
def httpWrapper : IstioEgressListenerWrapper :=
  { IstioListener := some httpListener
    listenerHosts := [("*", ["a.com"])]
    services := [exampleService "a.com" "ns1" [80]]
    virtualServices := [] }

/-! ## Examples for the pointer-level embedding -/

/-- A store with two `Service` objects for the hostname `a.com` in the
namespace `ns1` (as from two service entries for the same host): the first
exposes port 80, the second port 443. -/
def twoEntryStore : Pointer.Store :=
  [exampleService "a.com" "ns1" [80], exampleService "a.com" "ns1" [443]]

/-- A mesh where both objects of `twoEntryStore` are visible. -/
def twoEntryPush : Pointer.PushContext :=
  { Services := fun _ => [0, 1]
    VirtualServices := fun _ _ => []
    ServiceByHostnameAndNamespace := [("a.com", [("ns1", 1)])] }

/-- A store with one `Service` object: `a.com` of `ns1` with the ports 80 and
443. -/
def bothPortsStore : Pointer.Store := [exampleService "a.com" "ns1" [80, 443]]

/-- A mesh where the object of `bothPortsStore` is visible. -/
def bothPortsPush : Pointer.PushContext :=
  { Services := fun _ => [0]
    VirtualServices := fun _ _ => []
    ServiceByHostnameAndNamespace := [("a.com", [("ns1", 0)])] }

/-- A listener on port 443 of namespace `ns1` that imports `a.com` from every
namespace. -/
def httpsListener : IstioEgressListener :=
  { Port := some { Number := 443, Protocol := "HTTPS", Name := "https" }
    Bind := ""
    Hosts := ["*/a.com"] }

/-- A sidecar resource of namespace `ns1` with the egress listeners
`httpListener` (port 80) and `httpsListener` (port 443). -/
def twoPortsConfig : SidecarConfig :=
  { Namespace := "ns1"
    Name := "sidecar"
    Spec :=
      { Egress := [httpListener, httpsListener]
        Ingress := []
        OutboundTrafficPolicy := none } }

/-! ## Examples for the scenarios of the specification -/

/-- The listener of the scenario: no port, hosts `ns1/*`. -/
def namespaceImportListener : IstioEgressListener :=
  { Port := none, Bind := "", Hosts := ["ns1/*"] }

/-- A mesh with `a.com` of `ns1` (ports 80 and 443) and `a.com` of `ns2`
(port 8080). -/
def scenarioPush : PushContext :=
  { Services := fun _ =>
      [exampleService "a.com" "ns1" [80, 443], exampleService "a.com" "ns2" [8080]]
    VirtualServices := fun _ _ => []
    DestinationRule := fun _ _ => none
    ServiceByHostnameAndNamespace := []
    MeshOutboundTrafficPolicy := none }

/-- The wrapper built for `namespaceImportListener` on `scenarioPush`. -/
def namespaceImportWrapper : IstioEgressListenerWrapper :=
  { IstioListener := some namespaceImportListener
    listenerHosts := [("ns1", ["*"])]
    services := [exampleService "a.com" "ns1" [80, 443]]
    virtualServices := [] }

/-- The dependencies of the examples, with the destination `ghost.com` left
out of the destinations of every rule. -/
def ghostFreeDeps : Deps :=
  { exampleDeps with
    virtualServiceDestinations := fun c => c.Routes.filter (fun x => x ≠ "ghost.com") }

/-- The mesh of `routedPush` where the rule also routes to `ghost.com`, a
hostname that is not indexed. -/
def ghostPush : PushContext :=
  { routedPush with
    VirtualServices := fun _ _ =>
      [{ Namespace := "ns2", Name := "route", Hosts := ["a.com"],
         Routes := ["ghost.com", "b.com"] }] }

/-- The mesh of `routedPush` with the namespaces of `b.com` enumerated in the
other order. -/
def routedPushReordered : PushContext :=
  { routedPush with
    ServiceByHostnameAndNamespace :=
      [("b.com", [("ns2", exampleService "b.com" "ns2" [8080]),
                  ("ns3", exampleService "b.com" "ns3" [9090])])] }

/-- A mesh whose only visible service is `a.com` of `ns1`, with the ports 80
and 443. -/
def bothPortsMesh : PushContext :=
  { Services := fun _ => [exampleService "a.com" "ns1" [80, 443]]
    VirtualServices := fun _ _ => []
    DestinationRule := fun _ _ => none
    ServiceByHostnameAndNamespace := []
    MeshOutboundTrafficPolicy := none }

/-- The mesh of the scenario on inference: `api.svc` of `ns1` is visible and
indexed, and a virtual service of `ns2` for the host `other.svc` routes to
`api.svc`. -/
def inferencePush : PushContext :=
  { Services := fun _ => [exampleService "api.svc" "ns1" [80]]
    VirtualServices := fun _ _ =>
      [{ Namespace := "ns2", Name := "rule", Hosts := ["other.svc"], Routes := ["api.svc"] }]
    DestinationRule := fun _ _ => none
    ServiceByHostnameAndNamespace :=
      [("api.svc", [("ns1", exampleService "api.svc" "ns1" [80])])]
    MeshOutboundTrafficPolicy := none }

/-- A sidecar resource of namespace `ns1` with one egress listener without
port and the hosts `*/*.svc`. -/
def inferenceConfig : SidecarConfig :=
  { Namespace := "ns1"
    Name := "sidecar"
    Spec :=
      { Egress := [{ Port := none, Bind := "", Hosts := ["*/*.svc"] }]
        Ingress := []
        OutboundTrafficPolicy := none } }

/-- The wrapper built for the listener of `inferenceConfig` on
`inferencePush`. -/
def inferenceWrapper : IstioEgressListenerWrapper :=
  { IstioListener := some { Port := none, Bind := "", Hosts := ["*/*.svc"] }
    listenerHosts := [("*", ["*.svc"])]
    services := [exampleService "api.svc" "ns1" [80]]
    virtualServices :=
      [{ Namespace := "ns2", Name := "rule", Hosts := ["other.svc"], Routes := ["api.svc"] }] }


/-! ## Notions used to state the properties of host parsing and of the fold -/

/-- The import declared by a host string: the namespace selector, with the
selector `.` replaced by the config namespace, and the host pattern; `none`
for a host string without slash. -/
def hostImport (configNamespace : String) (h : String) : Option (String × String) :=
  match SplitN2 h with
  | p0 :: p1 :: _ => some (if p0 = currentNamespace then configNamespace else p0, p1)
  | _ => none

/-- The patterns that the host strings declare for the selector `ns`, in the
order of their declaration. -/
def patternsFor (configNamespace : String) (hosts : List String) (ns : String) :
    List String :=
  hosts.filterMap (fun h =>
    match hostImport configNamespace h with
    | some (selector, pattern) => if selector = ns then some pattern else none
    | none => none)

/-- The numbers of a list of ports. -/
def portNumbers (ports : List Port) : List Int := ports.map (fun p => p.Port)

/-! ## Theorems: query operations -/

theorem egressListenerLoop_nonzero (port : Int) (bind : String) (h : port ≠ 0)
    (ls : List IstioEgressListenerWrapper) :
    egressListenerLoop port bind ls =
      ls.find? (fun e => isCatchAll e || hasPortNumber e port) := by
  induction ls with
  | nil => rfl
  | cons e rest ih =>
    unfold egressListenerLoop
    rw [List.find?_cons]
    cases hl : e.IstioListener with
    | none => simp [isCatchAll, hl]
    | some l =>
      cases hp : l.Port with
      | none => simp [isCatchAll, hl, hp]
      | some p =>
        by_cases hn : (p.Number : Int) = port
        · simp [isCatchAll, hasPortNumber, hl, hp, hn, h]
        · simp [isCatchAll, hasPortNumber, hl, hp, hn, ih]

/-- C1. `GetEgressListenerForRDS`, first match wins: on a present scope and for
a non-zero port, the result is the first listener, in the order of
`EgressListeners`, that is a catch-all or has that port number; it is absent
exactly when no listener is of that kind; and when every listener before a
catch-all has a port with another number, the result is that catch-all. -/
theorem GetEgressListenerForRDS_first_match (sc : SidecarScope) (port : Int)
    (bind : String) (h : port ≠ 0) :
    GetEgressListenerForRDS (some sc) port bind =
        sc.EgressListeners.find? (fun e => isCatchAll e || hasPortNumber e port) ∧
    (GetEgressListenerForRDS (some sc) port bind = none ↔
        ∀ e ∈ sc.EgressListeners, isCatchAll e = false ∧ hasPortNumber e port = false) ∧
    (∀ pre c post, sc.EgressListeners = pre ++ c :: post → isCatchAll c = true →
        (∀ e ∈ pre, ∃ l p, e.IstioListener = some l ∧ l.Port = some p ∧
          (p.Number : Int) ≠ port) →
        GetEgressListenerForRDS (some sc) port bind = some c) := by
  have key := egressListenerLoop_nonzero port bind h sc.EgressListeners
  refine ⟨key, ?_, ?_⟩
  · show egressListenerLoop port bind sc.EgressListeners = none ↔ _
    rw [key, List.find?_eq_none]
    constructor
    · intro hall e he
      have := hall e he
      simpa using this
    · intro hall e he
      have := hall e he
      simp [this.1, this.2]
  · intro pre c post hsplit hc hpre
    show egressListenerLoop port bind sc.EgressListeners = some c
    rw [key, hsplit, List.find?_append]
    have hnone : pre.find? (fun e => isCatchAll e || hasPortNumber e port) = none := by
      rw [List.find?_eq_none]
      intro e he
      obtain ⟨l, p, hl, hp, hne⟩ := hpre e he
      simp [isCatchAll, hasPortNumber, hl, hp, hne]
    rw [hnone]
    simp [List.find?_cons, hc]

/-- Witness of C1: port 9080 on the listeners for a unix domain socket, for
port 9080 and the catch-all. -/
theorem GetEgressListenerForRDS_first_match_witness :
    (9080 : Int) ≠ 0 ∧
    GetEgressListenerForRDS (some (scopeOfListeners [udsWrapper, portWrapper, catchAllWrapper]))
        9080 "" = some portWrapper :=
  ⟨by decide,
   (GetEgressListenerForRDS_first_match
      (scopeOfListeners [udsWrapper, portWrapper, catchAllWrapper]) 9080 "" (by decide)).1.trans
      (by decide)⟩

/-- Counterexample to C2 as stated: the listener has port number 0 and its
`Bind` equals the bind of the query, but the query carries port 15001 and the
listener is not returned. -/
theorem GetEgressListenerForRDS_uds_needs_port_zero :
    udsWrapper.IstioListener = some udsListener ∧ udsListener.Port = some udsPort ∧
    udsPort.Number = 0 ∧ udsListener.Bind = "unix:///var/run/app.sock" ∧
    GetEgressListenerForRDS (some (scopeOfListeners [udsWrapper])) 15001
      "unix:///var/run/app.sock" = none := by
  decide

/-- C2, amended. In `GetEgressListenerForRDS`, a listener whose port is set to
number 0 is returned exactly when the port of the query is 0 and its `Bind`
equals the bind of the query, and a listener whose port is set to a non-zero
number exactly when that number equals the port of the query; otherwise the
search goes on with the listeners after it. -/
theorem GetEgressListenerForRDS_port_match (sc : SidecarScope)
    (e : IstioEgressListenerWrapper) (rest : List IstioEgressListenerWrapper)
    (l : IstioEgressListener) (p : ListenerPort) (port : Int) (bind : String)
    (hls : sc.EgressListeners = e :: rest) (hl : e.IstioListener = some l)
    (hp : l.Port = some p) :
    (p.Number = 0 →
      GetEgressListenerForRDS (some sc) port bind =
        if port = 0 ∧ l.Bind = bind then some e
        else GetEgressListenerForRDS (some { sc with EgressListeners := rest }) port bind) ∧
    (p.Number ≠ 0 →
      GetEgressListenerForRDS (some sc) port bind =
        if (p.Number : Int) = port then some e
        else GetEgressListenerForRDS (some { sc with EgressListeners := rest }) port bind) := by
  have step : egressListenerLoop port bind (e :: rest) =
      if (p.Number : Int) = port then
        if port = 0 then
          if l.Bind = bind then some e else egressListenerLoop port bind rest
        else some e
      else egressListenerLoop port bind rest := by
    rw [egressListenerLoop]
    simp only [hl, hp]
  constructor
  · intro hz
    show egressListenerLoop port bind sc.EgressListeners =
      if port = 0 ∧ l.Bind = bind then some e else egressListenerLoop port bind rest
    rw [hls, step, hz]
    by_cases h0 : port = 0
    · by_cases hb : l.Bind = bind
      · simp [h0, hb]
      · simp [h0, hb]
    · have hne : ¬ (0 : Int) = port := fun h => h0 h.symm
      simp [h0, hne]
  · intro hnz
    show egressListenerLoop port bind sc.EgressListeners =
      if (p.Number : Int) = port then some e else egressListenerLoop port bind rest
    rw [hls, step]
    by_cases hn : (p.Number : Int) = port
    · have h0 : port ≠ 0 := by
        intro h
        apply hnz
        rw [h] at hn
        exact_mod_cast hn
      simp [hn, h0]
    · simp [hn]

/-- Witness of C2, amended: the unix domain socket listener is returned for
port 0 and its own bind. -/
theorem GetEgressListenerForRDS_port_match_witness :
    (scopeOfListeners [udsWrapper, catchAllWrapper]).EgressListeners =
        udsWrapper :: [catchAllWrapper] ∧
    udsWrapper.IstioListener = some udsListener ∧ udsListener.Port = some udsPort ∧
    GetEgressListenerForRDS (some (scopeOfListeners [udsWrapper, catchAllWrapper])) 0
      "unix:///var/run/app.sock" = some udsWrapper :=
  ⟨rfl, rfl, rfl,
   ((GetEgressListenerForRDS_port_match (scopeOfListeners [udsWrapper, catchAllWrapper])
      udsWrapper [catchAllWrapper] udsListener udsPort 0 "unix:///var/run/app.sock"
      rfl rfl rfl).1 rfl).trans (by decide)⟩

/-- C4. On an absent scope `DependsOnNamespace` answers true, and
`DestinationRule`, `GetEgressListenerForRDS` and `Services` answer with
absence, for every argument. -/
theorem nil_scope_defaults (ns hostname bind : String) (port : Int) :
    DependsOnNamespace none ns = true ∧
    DestinationRule none hostname = none ∧
    GetEgressListenerForRDS none port bind = none ∧
    Services none = [] :=
  ⟨rfl, rfl, rfl, rfl⟩

theorem scanServices_eq_find (hostname : String) (l : List Service) :
    scanServices hostname l = l.find? (fun s => s.Hostname = hostname) := by
  induction l with
  | nil => rfl
  | cons s rest ih =>
    unfold scanServices
    rw [List.find?_cons]
    by_cases h : s.Hostname = hostname
    · simp [h]
    · simp [h, ih]

/-- C5. On a present scope `ServiceForHostname` returns the first service of
`Services()` whose hostname equals the one asked for, returns absence exactly
when no service of `Services()` has that hostname, and does not depend on the
argument `serviceByHostname`. -/
theorem ServiceForHostname_present (sc : SidecarScope) (hostname : String)
    (serviceByHostname : GoMap (GoMap Service)) :
    ServiceForHostname (some sc) hostname serviceByHostname =
        (Services (some sc)).find? (fun s => s.Hostname = hostname) ∧
    (ServiceForHostname (some sc) hostname serviceByHostname = none ↔
        ∀ s ∈ Services (some sc), s.Hostname ≠ hostname) ∧
    (∀ other : GoMap (GoMap Service),
        ServiceForHostname (some sc) hostname other =
          ServiceForHostname (some sc) hostname serviceByHostname) := by
  have key : ∀ m : GoMap (GoMap Service),
      ServiceForHostname (some sc) hostname m =
        (Services (some sc)).find? (fun s => s.Hostname = hostname) := by
    intro m
    rw [← scanServices_eq_find]
    rfl
  refine ⟨key _, ?_, fun other => by rw [key, key]⟩
  rw [key, List.find?_eq_none]
  constructor
  · intro h s hs
    simpa using h s hs
  · intro h s hs
    simpa using h s hs

/-- C6. On an absent scope `ServiceForHostname` returns one of the services
stored under `serviceByHostname[hostname]` when that map is not empty, and
absence when it is empty or missing. -/
theorem ServiceForHostname_absent (hostname : String)
    (serviceByHostname : GoMap (GoMap Service)) :
    (∀ byNamespace, mapLookup serviceByHostname hostname = some byNamespace →
        byNamespace ≠ [] →
        ∃ ns s, (ns, s) ∈ byNamespace ∧
          ServiceForHostname none hostname serviceByHostname = some s) ∧
    (mapLookup serviceByHostname hostname = none ∨
        mapLookup serviceByHostname hostname = some [] →
      ServiceForHostname none hostname serviceByHostname = none) := by
  constructor
  · intro byNamespace hm hne
    cases byNamespace with
    | nil => exact absurd rfl hne
    | cons entry rest =>
      refine ⟨entry.1, entry.2, List.mem_cons_self _ _, ?_⟩
      simp [ServiceForHostname, hm, firstRanged]
  · intro h
    rcases h with h | h
    · simp [ServiceForHostname, h, firstRanged, Services, scanServices]
    · simp [ServiceForHostname, h, firstRanged, Services, scanServices]

/-- C7. Without a sidecar resource `ConvertToSidecarScope` returns a scope with
exactly one egress listener, whose `IstioListener` is nil, whose services are
the services visible to the namespace and whose virtual services are the
visible ones for the mesh gateway; the services of the scope are those of
that listener. -/
theorem ConvertToSidecarScope_default (d : Deps) (ps : PushContext)
    (configNamespace : String) :
    ∃ sc l, ConvertToSidecarScope d ps none configNamespace = some sc ∧
      sc.EgressListeners = [l] ∧
      l.IstioListener = none ∧
      ListenerServices (some l) = ps.Services configNamespace ∧
      ListenerVirtualServices (some l) =
        ps.VirtualServices configNamespace [(IstioMeshGateway, true)] ∧
      Services (some sc) = ListenerServices (some l) :=
  ⟨_, _, rfl, rfl, rfl, rfl, rfl, rfl⟩


/-! ## Lemmas: Go maps and the union of services -/

theorem mapLookup_mapStore {V : Type} (m : GoMap V) (k : String) (v : V) (key : String) :
    mapLookup (mapStore m k v) key = if k = key then some v else mapLookup m key := by
  induction m with
  | nil => simp [mapStore, mapLookup]
  | cons entry rest ih =>
    obtain ⟨k0, v0⟩ := entry
    by_cases h0 : k0 = k
    · subst h0
      by_cases h1 : k0 = key
      · simp [mapStore, mapLookup, h1]
      · simp [mapStore, mapLookup, h1]
    · by_cases h1 : k0 = key
      · subst h1
        have hk : ¬ k = k0 := fun h => h0 h.symm
        simp [mapStore, mapLookup, h0, hk]
      · simp [mapStore, mapLookup, h0, h1, ih]

theorem mergePorts_extends (ports : List Port) (osPorts : List Port) :
    ∃ extra, mergePorts osPorts ports = osPorts ++ extra := by
  induction ports generalizing osPorts with
  | nil => exact ⟨[], by simp [mergePorts]⟩
  | cons p rest ih =>
    unfold mergePorts
    split
    · exact ih osPorts
    · obtain ⟨extra, he⟩ := ih (osPorts ++ [p])
      exact ⟨p :: extra, by rw [he]; simp⟩

theorem find_map_hostname (f : Service → Service) (hf : ∀ x, (f x).Hostname = x.Hostname)
    (h : String) (l : List Service) :
    (l.map f).find? (fun s => s.Hostname = h) =
      (l.find? (fun s => s.Hostname = h)).map f := by
  induction l with
  | nil => rfl
  | cons x rest ih =>
    simp only [List.map_cons, List.find?_cons, hf]
    by_cases hx : x.Hostname = h
    · simp [hx]
    · simp [hx, ih]

theorem find_append_hostname (h : String) (l : List Service) (s : Service) :
    (l ++ [s]).find? (fun x => x.Hostname = h) =
      match l.find? (fun x => x.Hostname = h) with
      | some e => some e
      | none => if s.Hostname = h then some s else none := by
  rw [List.find?_append]
  cases l.find? (fun x => x.Hostname = h) with
  | some e => rfl
  | none =>
    by_cases hs : s.Hostname = h
    · simp [List.find?_cons, hs]
    · simp [List.find?_cons, hs]

theorem entryOf_hostname {st : UnionState} {h : String} {e : Service}
    (he : entryOf st h = some e) : e.Hostname = h := by
  have := List.find?_some he
  simpa using this

theorem entryOf_mem {st : UnionState} {h : String} {e : Service}
    (he : entryOf st h = some e) : e ∈ st.services :=
  List.mem_of_find?_eq_some he

theorem entryOf_none_iff (st : UnionState) (h : String) :
    entryOf st h = none ↔ ∀ s ∈ st.services, s.Hostname ≠ h := by
  unfold entryOf
  rw [List.find?_eq_none]
  constructor
  · intro hall s hs
    simpa using hall s hs
  · intro hall s hs
    simpa using hall s hs

theorem UnionInv_empty : UnionInv emptyUnion :=
  { added := fun _ => rfl
    nodup := List.nodup_nil
    deps := fun ns => by simp [emptyUnion, mapLookup] }

/-- The three cases of `addService` on a service that is not nil. -/
theorem addSome_cases (st : UnionState) (s : Service) :
    (mapLookup st.servicesAdded s.Hostname = none ∧
      addSome st s =
        { services := st.services ++ [s]
          servicesAdded := mapStore st.servicesAdded s.Hostname s
          namespaceDependencies :=
            mapStore st.namespaceDependencies s.Attributes.Namespace () }) ∨
    (∃ foundSvc, mapLookup st.servicesAdded s.Hostname = some foundSvc ∧
      addSome st s =
        mergeInto st s.Hostname foundSvc (mergePorts foundSvc.Ports s.Ports)) ∨
    (∃ foundSvc, mapLookup st.servicesAdded s.Hostname = some foundSvc ∧
      addSome st s = st) := by
  simp only [addSome, addService]
  cases hl : mapLookup st.servicesAdded s.Hostname with
  | none => exact Or.inl ⟨rfl, rfl⟩
  | some foundSvc =>
    by_cases hc : foundSvc.Attributes.Namespace = s.Attributes.Namespace ∧ s.Ports.length > 0
    · exact Or.inr (Or.inl ⟨foundSvc, rfl, by simp only []; rw [if_pos hc]⟩)
    · exact Or.inr (Or.inr ⟨foundSvc, rfl, by simp only []; rw [if_neg hc]⟩)

theorem UnionInv_mergeInto (st : UnionState) (hinv : UnionInv st) (h : String)
    (os : Service) (hos : entryOf st h = some os) (ports : List Port) :
    UnionInv (mergeInto st h os ports) := by
  have hf : ∀ x : Service,
      (if x.Hostname = h then { x with Ports := ports } else x).Hostname = x.Hostname := by
    intro x
    split <;> rfl
  have hfn : ∀ x : Service,
      (if x.Hostname = h then { x with Ports := ports } else x).Attributes = x.Attributes := by
    intro x
    split <;> rfl
  refine { added := ?_, nodup := ?_, deps := ?_ }
  · intro key
    show mapLookup (mapStore st.servicesAdded h { os with Ports := ports }) key =
      (st.services.map _).find? _
    rw [mapLookup_mapStore, find_map_hostname _ hf]
    by_cases hk : h = key
    · subst hk
      have : st.services.find? (fun s => s.Hostname = h) = some os := hos
      rw [this]
      have hh := entryOf_hostname hos
      simp [hh]
    · rw [if_neg hk, hinv.added key]
      unfold entryOf
      cases hfind : st.services.find? (fun s => s.Hostname = key) with
      | none => rfl
      | some e =>
        have he : e.Hostname = key := by
          have := List.find?_some hfind
          simpa using this
        have : ¬ e.Hostname = h := fun hh => hk (hh.symm.trans he)
        simp [this]
  · show ((st.services.map _).map _).Nodup
    rw [List.map_map]
    have : ((fun s : Service => s.Hostname) ∘
        fun x : Service => if x.Hostname = h then { x with Ports := ports } else x) =
        fun s => s.Hostname := by
      funext x
      exact hf x
    rw [this]
    exact hinv.nodup
  · intro ns
    have hd : (mergeInto st h os ports).namespaceDependencies = st.namespaceDependencies := rfl
    have hs : (mergeInto st h os ports).services = st.services.map (fun x =>
        if x.Hostname = h then { x with Ports := ports } else x) := rfl
    rw [hd, hs, hinv.deps ns]
    constructor
    · rintro ⟨s, hs, hns⟩
      exact ⟨_, List.mem_map_of_mem _ hs, by rw [hfn]; exact hns⟩
    · rintro ⟨s, hs, hns⟩
      obtain ⟨x, hx, rfl⟩ := List.mem_map.mp hs
      exact ⟨x, hx, by rw [hfn] at hns; exact hns⟩

theorem UnionInv_addSome (st : UnionState) (hinv : UnionInv st) (s : Service) :
    UnionInv (addSome st s) := by
  rcases addSome_cases st s with ⟨hnone, heq⟩ | ⟨foundSvc, hfound, heq⟩ | ⟨_, _, heq⟩
  · rw [heq]
    have hent : entryOf st s.Hostname = none := by rw [← hinv.added]; exact hnone
    refine { added := ?_, nodup := ?_, deps := ?_ }
    · intro key
      show mapLookup (mapStore st.servicesAdded s.Hostname s) key =
        (st.services ++ [s]).find? _
      rw [mapLookup_mapStore, find_append_hostname, hinv.added key]
      unfold entryOf
      by_cases hk : s.Hostname = key
      · subst hk
        have : st.services.find? (fun x => x.Hostname = s.Hostname) = none := hent
        simp [this]
      · simp only [if_neg hk]
        cases st.services.find? (fun x => x.Hostname = key) <;> rfl
    · show ((st.services ++ [s]).map _).Nodup
      rw [List.map_append, List.nodup_append]
      refine ⟨hinv.nodup, by simp, ?_⟩
      intro a ha hb
      simp only [List.map_cons, List.map_nil, List.mem_singleton] at hb
      obtain ⟨x, hx, hxa⟩ := List.mem_map.mp ha
      exact (entryOf_none_iff st s.Hostname).mp hent x hx (hxa.trans hb)
    · intro ns
      show (mapLookup (mapStore st.namespaceDependencies s.Attributes.Namespace ()) ns).isSome
        = true ↔ ∃ x ∈ st.services ++ [s], x.Attributes.Namespace = ns
      rw [mapLookup_mapStore]
      by_cases hk : s.Attributes.Namespace = ns
      · simp only [if_pos hk, Option.isSome_some, true_iff]
        exact ⟨s, by simp, hk⟩
      · simp only [if_neg hk, hinv.deps ns]
        constructor
        · rintro ⟨x, hx, hns⟩
          exact ⟨x, List.mem_append_left _ hx, hns⟩
        · rintro ⟨x, hx, hns⟩
          rcases List.mem_append.mp hx with hx | hx
          · exact ⟨x, hx, hns⟩
          · simp only [List.mem_singleton] at hx
            subst hx
            exact absurd hns hk
  · rw [heq]
    exact UnionInv_mergeInto st hinv s.Hostname foundSvc
      (by rw [← hinv.added]; exact hfound) _
  · rw [heq]
    exact hinv

theorem UnionInv_addService (st : UnionState) (hinv : UnionInv st) (svc : Option Service) :
    UnionInv (addService st svc) := by
  cases svc with
  | none => exact hinv
  | some s => exact UnionInv_addSome st hinv s

theorem foldl_invariant {S A : Type} (P : S → Prop) (f : S → A → S)
    (hstep : ∀ st a, P st → P (f st a)) (l : List A) (st : S) (h : P st) :
    P (l.foldl f st) := by
  induction l generalizing st with
  | nil => exact h
  | cons a rest ih => exact ih (f st a) (hstep st a h)

theorem UnionInv_addDestination (ps : PushContext) (configNamespace : String)
    (st : UnionState) (dHost : String) (hinv : UnionInv st) :
    UnionInv (addDestination ps configNamespace st dHost) := by
  unfold addDestination
  simp only
  split
  · exact UnionInv_addService st hinv _
  · split
    · exact hinv
    · exact UnionInv_addService st hinv _

theorem UnionInv_addListener (d : Deps) (ps : PushContext) (configNamespace : String)
    (st : UnionState) (listener : IstioEgressListenerWrapper) (hinv : UnionInv st) :
    UnionInv (addListener d ps configNamespace st listener) := by
  unfold addListener
  simp only
  apply foldl_invariant UnionInv
  · intro acc vs hacc
    exact foldl_invariant UnionInv _
      (fun a x ha => UnionInv_addDestination ps configNamespace a x ha) _ acc hacc
  · exact foldl_invariant UnionInv _ (fun a x ha => UnionInv_addService a ha (some x)) _ st hinv

theorem UnionInv_listeners (d : Deps) (ps : PushContext) (configNamespace : String)
    (listeners : List IstioEgressListenerWrapper) :
    UnionInv (listeners.foldl (addListener d ps configNamespace) emptyUnion) :=
  foldl_invariant UnionInv _
    (fun a x ha => UnionInv_addListener d ps configNamespace a x ha) _ _ UnionInv_empty

/-- What `ConvertToSidecarScope` returns for an explicit resource. -/
theorem ConvertToSidecarScope_explicit (d : Deps) (ps : PushContext) (cfg : SidecarConfig)
    (configNamespace : String) (sc : SidecarScope)
    (h : ConvertToSidecarScope d ps (some cfg) configNamespace = some sc) :
    ∃ listeners, convertListeners d ps configNamespace cfg.Spec.Egress = some listeners ∧
      sc.EgressListeners = listeners ∧
      sc.services =
        (listeners.foldl (addListener d ps configNamespace) emptyUnion).services ∧
      sc.namespaceDependencies =
        (listeners.foldl (addListener d ps configNamespace) emptyUnion).namespaceDependencies ∧
      sc.destinationRules = destinationRulesOf ps configNamespace sc.services := by
  unfold ConvertToSidecarScope at h
  simp only at h
  cases hc : convertListeners d ps configNamespace cfg.Spec.Egress with
  | none => rw [hc] at h; exact absurd h (by simp)
  | some listeners =>
    rw [hc] at h
    simp only [Option.some.injEq] at h
    subst h
    exact ⟨listeners, rfl, rfl, rfl, rfl, rfl⟩


/-! ## Lemmas: the fold of `ConvertToSidecarScope` over its candidates -/

theorem addDestination_eq (ps : PushContext) (configNamespace : String)
    (st : UnionState) (dHost : String) :
    addDestination ps configNamespace st dHost =
      addService st (resolveDestination ps configNamespace dHost) := by
  unfold addDestination resolveDestination
  simp only
  split
  · rfl
  · split <;> rfl

theorem foldl_addDestination (ps : PushContext) (configNamespace : String)
    (dests : List String) (st : UnionState) :
    dests.foldl (addDestination ps configNamespace) st =
      (dests.filterMap (resolveDestination ps configNamespace)).foldl addSome st := by
  induction dests generalizing st with
  | nil => rfl
  | cons x rest ih =>
    rw [List.foldl_cons, ih, addDestination_eq, List.filterMap_cons]
    cases resolveDestination ps configNamespace x <;> rfl

theorem foldl_virtualServices (d : Deps) (ps : PushContext) (configNamespace : String)
    (vss : List VirtualServiceConfig) (st : UnionState) :
    vss.foldl (fun acc vs =>
        (d.virtualServiceDestinations vs).foldl (addDestination ps configNamespace) acc) st =
      ((vss.flatMap d.virtualServiceDestinations).filterMap
        (resolveDestination ps configNamespace)).foldl addSome st := by
  induction vss generalizing st with
  | nil => rfl
  | cons vs rest ih =>
    rw [List.foldl_cons, ih, foldl_addDestination, List.flatMap_cons, List.filterMap_append,
      List.foldl_append]

theorem addListener_eq (d : Deps) (ps : PushContext) (configNamespace : String)
    (st : UnionState) (listener : IstioEgressListenerWrapper) :
    addListener d ps configNamespace st listener =
      (listenerCandidates d ps configNamespace listener).foldl addSome st := by
  unfold addListener listenerCandidates
  simp only
  rw [foldl_virtualServices, List.foldl_append]
  rfl

theorem foldl_addListener (d : Deps) (ps : PushContext) (configNamespace : String)
    (listeners : List IstioEgressListenerWrapper) (st : UnionState) :
    listeners.foldl (addListener d ps configNamespace) st =
      (unionCandidates d ps configNamespace listeners).foldl addSome st := by
  induction listeners generalizing st with
  | nil => rfl
  | cons l rest ih =>
    rw [List.foldl_cons, ih, addListener_eq]
    unfold unionCandidates
    rw [List.flatMap_cons, List.foldl_append]

theorem extendsPorts_refl (c : Service) : extendsPorts c c :=
  ⟨[], by simp⟩

theorem extendsPorts_trans {a b c : Service} (hab : extendsPorts a b) (hbc : extendsPorts b c) :
    extendsPorts a c := by
  obtain ⟨x, rfl⟩ := hab
  obtain ⟨y, rfl⟩ := hbc
  exact ⟨x ++ y, by simp⟩

theorem entryOf_addSome_of_some (st : UnionState) (hinv : UnionInv st) (s : Service)
    (h : String) (e : Service) (he : entryOf st h = some e) :
    ∃ e', entryOf (addSome st s) h = some e' ∧ extendsPorts e e' := by
  rcases addSome_cases st s with ⟨hnone, heq⟩ | ⟨foundSvc, hfound, heq⟩ | ⟨_, _, heq⟩
  · refine ⟨e, ?_, extendsPorts_refl e⟩
    rw [heq]
    show (st.services ++ [s]).find? _ = some e
    rw [find_append_hostname]
    have : st.services.find? (fun x => x.Hostname = h) = some e := he
    rw [this]
  · rw [heq]
    have hos : entryOf st s.Hostname = some foundSvc := by rw [← hinv.added]; exact hfound
    have hf : ∀ x : Service, (if x.Hostname = s.Hostname then
        { x with Ports := mergePorts foundSvc.Ports s.Ports } else x).Hostname = x.Hostname := by
      intro x
      split <;> rfl
    have hfind : entryOf (mergeInto st s.Hostname foundSvc (mergePorts foundSvc.Ports s.Ports)) h
        = (st.services.find? (fun x => x.Hostname = h)).map (fun x =>
            if x.Hostname = s.Hostname then
              { x with Ports := mergePorts foundSvc.Ports s.Ports } else x) :=
      find_map_hostname _ hf h st.services
    have he' : st.services.find? (fun x => x.Hostname = h) = some e := he
    rw [hfind, he']
    by_cases hk : e.Hostname = s.Hostname
    · have hh : h = s.Hostname := (entryOf_hostname he).symm.trans hk
      subst hh
      have hef : e = foundSvc := by
        rw [he] at hos
        exact Option.some.inj hos
      subst hef
      obtain ⟨extra, hx⟩ := mergePorts_extends s.Ports e.Ports
      refine ⟨_, by simp only [Option.map_some', if_pos hk]; rfl, extra, ?_⟩
      rw [hx]
    · exact ⟨e, by simp only [Option.map_some', if_neg hk], extendsPorts_refl e⟩
  · rw [heq]
    exact ⟨e, he, extendsPorts_refl e⟩

theorem entryOf_addSome_of_none (st : UnionState) (hinv : UnionInv st) (s : Service)
    (h : String) (he : entryOf st h = none) :
    entryOf (addSome st s) h = if s.Hostname = h then some s else none := by
  rcases addSome_cases st s with ⟨hnone, heq⟩ | ⟨foundSvc, hfound, heq⟩ | ⟨foundSvc, hfound, heq⟩
  · rw [heq]
    show (st.services ++ [s]).find? _ = _
    rw [find_append_hostname]
    have : st.services.find? (fun x => x.Hostname = h) = none := he
    rw [this]
  · have hos : entryOf st s.Hostname = some foundSvc := by rw [← hinv.added]; exact hfound
    have hne : ¬ s.Hostname = h := by
      intro hh
      rw [hh, he] at hos
      exact absurd hos (by simp)
    rw [heq, if_neg hne]
    have hf : ∀ x : Service, (if x.Hostname = s.Hostname then
        { x with Ports := mergePorts foundSvc.Ports s.Ports } else x).Hostname = x.Hostname := by
      intro x
      split <;> rfl
    have hfind : entryOf (mergeInto st s.Hostname foundSvc (mergePorts foundSvc.Ports s.Ports)) h
        = (st.services.find? (fun x => x.Hostname = h)).map (fun x =>
            if x.Hostname = s.Hostname then
              { x with Ports := mergePorts foundSvc.Ports s.Ports } else x) :=
      find_map_hostname _ hf h st.services
    have he' : st.services.find? (fun x => x.Hostname = h) = none := he
    rw [hfind, he']
    rfl
  · have hos : entryOf st s.Hostname = some foundSvc := by rw [← hinv.added]; exact hfound
    have hne : ¬ s.Hostname = h := by
      intro hh
      rw [hh, he] at hos
      exact absurd hos (by simp)
    rw [heq, if_neg hne]
    exact he

theorem UnionInv_foldl_addSome (cands : List Service) (st : UnionState) (hinv : UnionInv st) :
    UnionInv (cands.foldl addSome st) :=
  foldl_invariant UnionInv addSome (fun a x ha => UnionInv_addSome a ha x) cands st hinv

theorem entryOf_foldl_of_some (cands : List Service) (st : UnionState) (hinv : UnionInv st)
    (h : String) (e : Service) (he : entryOf st h = some e) :
    ∃ e', entryOf (cands.foldl addSome st) h = some e' ∧ extendsPorts e e' := by
  induction cands generalizing st e with
  | nil => exact ⟨e, he, extendsPorts_refl e⟩
  | cons s rest ih =>
    obtain ⟨e1, he1, hx1⟩ := entryOf_addSome_of_some st hinv s h e he
    obtain ⟨e2, he2, hx2⟩ := ih (addSome st s) (UnionInv_addSome st hinv s) e1 he1
    exact ⟨e2, he2, extendsPorts_trans hx1 hx2⟩

/-- The entry of the union for a hostname, from a state without one: the first
candidate with that hostname, with further ports at most. -/
theorem entryOf_foldl_of_none (cands : List Service) (st : UnionState) (hinv : UnionInv st)
    (h : String) (he : entryOf st h = none) :
    match cands.find? (fun c => c.Hostname = h) with
    | none => entryOf (cands.foldl addSome st) h = none
    | some c => ∃ e', entryOf (cands.foldl addSome st) h = some e' ∧ extendsPorts c e' := by
  induction cands generalizing st with
  | nil => exact he
  | cons s rest ih =>
    rw [List.find?_cons, List.foldl_cons]
    have hstep := entryOf_addSome_of_none st hinv s h he
    by_cases hs : s.Hostname = h
    · rw [if_pos hs] at hstep
      simp only [hs, decide_True]
      exact entryOf_foldl_of_some rest (addSome st s) (UnionInv_addSome st hinv s) h s hstep
    · rw [if_neg hs] at hstep
      simp only [hs, decide_False]
      exact ih (addSome st s) (UnionInv_addSome st hinv s) hstep


/-! ## Lemmas: the order of strings and `sort.Strings` -/

theorem charsLe_refl (a : List Char) : charsLe a a = true := by
  induction a with
  | nil => rfl
  | cons x xs ih => simp [charsLe, ih]

theorem charsLe_total (a b : List Char) : charsLe a b = true ∨ charsLe b a = true := by
  induction a generalizing b with
  | nil => exact Or.inl (by simp [charsLe])
  | cons x xs ih =>
    cases b with
    | nil => exact Or.inr (by simp [charsLe])
    | cons y ys =>
      by_cases h1 : x.toNat < y.toNat
      · exact Or.inl (by simp [charsLe, h1])
      · by_cases h2 : y.toNat < x.toNat
        · exact Or.inr (by simp [charsLe, h2])
        · rcases ih ys with h | h
          · exact Or.inl (by simp [charsLe, h1, h2, h])
          · exact Or.inr (by simp [charsLe, h1, h2, h])

theorem charsLe_trans (a b c : List Char) (hab : charsLe a b = true)
    (hbc : charsLe b c = true) : charsLe a c = true := by
  induction a generalizing b c with
  | nil => simp [charsLe]
  | cons x xs ih =>
    cases b with
    | nil => simp [charsLe] at hab
    | cons y ys =>
      cases c with
      | nil => simp [charsLe] at hbc
      | cons z zs =>
        simp only [charsLe] at hab hbc ⊢
        by_cases hxy : x.toNat < y.toNat
        · by_cases hyz : y.toNat < z.toNat
          · have : x.toNat < z.toNat := by omega
            simp [this]
          · by_cases hzy : z.toNat < y.toNat
            · simp [hyz, hzy] at hbc
            · have : x.toNat < z.toNat := by omega
              simp [this]
        · by_cases hyx : y.toNat < x.toNat
          · simp [hxy, hyx] at hab
          · simp only [hxy, hyx, if_false] at hab
            by_cases hyz : y.toNat < z.toNat
            · have : x.toNat < z.toNat := by omega
              simp [this]
            · by_cases hzy : z.toNat < y.toNat
              · simp [hyz, hzy] at hbc
              · simp only [hyz, hzy, if_false] at hbc
                have h1 : ¬ x.toNat < z.toNat := by omega
                have h2 : ¬ z.toNat < x.toNat := by omega
                simp only [h1, h2, if_false]
                exact ih ys zs hab hbc

theorem stringLe_refl (a : String) : stringLe a a = true := charsLe_refl a.data

theorem stringLe_total (a b : String) : stringLe a b = true ∨ stringLe b a = true :=
  charsLe_total a.data b.data

theorem stringLe_trans {a b c : String} (hab : stringLe a b = true)
    (hbc : stringLe b c = true) : stringLe a c = true :=
  charsLe_trans a.data b.data c.data hab hbc

/-- The first element of `sort.Strings(ns)` is an element of `ns` that is less
than or equal to every element of `ns`. -/
theorem sortStrings_head (l : List String) (hne : l ≠ []) :
    ∃ m tail, sortStrings l = m :: tail ∧ m ∈ l ∧ ∀ k ∈ l, stringLe m k = true := by
  induction l with
  | nil => exact absurd rfl hne
  | cons x xs ih =>
    show ∃ m tail, insertString x (sortStrings xs) = m :: tail ∧ _
    by_cases hxs : xs = []
    · subst hxs
      refine ⟨x, [], rfl, List.mem_cons_self _ _, ?_⟩
      intro k hk
      simp only [List.mem_singleton] at hk
      subst hk
      exact stringLe_refl k
    · obtain ⟨m, tail, hsort, hm, hmin⟩ := ih hxs
      rw [hsort]
      by_cases hle : stringLe x m = true
      · refine ⟨x, m :: tail, by simp [insertString, hle], List.mem_cons_self _ _, ?_⟩
        intro k hk
        rcases List.mem_cons.mp hk with hk | hk
        · subst hk
          exact stringLe_refl k
        · exact stringLe_trans hle (hmin k hk)
      · have hf : stringLe x m = false := by simpa using hle
        refine ⟨m, insertString x tail, by simp [insertString, hf],
          List.mem_cons_of_mem _ hm, ?_⟩
        intro k hk
        rcases List.mem_cons.mp hk with hk | hk
        · subst hk
          rcases stringLe_total k m with h | h
          · rw [h] at hf
            exact absurd hf (by simp)
          · exact h
        · exact hmin k hk

theorem mapLookup_isSome_of_mem_keys {V : Type} (m : GoMap V) (k : String)
    (hk : k ∈ mapKeys m) : ∃ v, mapLookup m k = some v ∧ (k, v) ∈ m := by
  induction m with
  | nil => simp [mapKeys] at hk
  | cons entry rest ih =>
    obtain ⟨k0, v0⟩ := entry
    by_cases h0 : k0 = k
    · subst h0
      exact ⟨v0, by simp [mapLookup], List.mem_cons_self _ _⟩
    · have hk' : k ∈ mapKeys rest := by
        simp only [mapKeys, List.map_cons, List.mem_cons] at hk
        rcases hk with hk | hk
        · exact absurd hk.symm h0
        · exact hk
      obtain ⟨v, hv, hmem⟩ := ih hk'
      exact ⟨v, by simp [mapLookup, h0, hv], List.mem_cons_of_mem _ hmem⟩

/-- How a destination host is resolved: to the service indexed under the
config namespace if there is one; otherwise, when the hostname is indexed in
some namespace, to the service of the least of these namespaces. -/
theorem resolveDestination_spec (ps : PushContext) (configNamespace dHost : String) :
    (mapLookup ps.ServiceByHostnameAndNamespace dHost = none →
      resolveDestination ps configNamespace dHost = none) ∧
    (∀ byNamespace, mapLookup ps.ServiceByHostnameAndNamespace dHost = some byNamespace →
      (∀ s, mapLookup byNamespace configNamespace = some s →
        resolveDestination ps configNamespace dHost = some s) ∧
      (byNamespace = [] → resolveDestination ps configNamespace dHost = none) ∧
      (mapLookup byNamespace configNamespace = none → byNamespace ≠ [] →
        ∃ first s, first ∈ mapKeys byNamespace ∧
          (∀ k ∈ mapKeys byNamespace, stringLe first k = true) ∧
          mapLookup byNamespace first = some s ∧
          resolveDestination ps configNamespace dHost = some s)) := by
  refine ⟨?_, ?_⟩
  · intro h
    simp [resolveDestination, h, mapLookup]
  · intro byNamespace h
    refine ⟨?_, ?_, ?_⟩
    · intro s hs
      simp [resolveDestination, h, hs]
    · intro hnil
      subst hnil
      simp [resolveDestination, h, mapLookup]
    · intro hnone hne
      have hkeys : mapKeys byNamespace ≠ [] := by
        intro hk
        apply hne
        simpa [mapKeys] using hk
      obtain ⟨m, tail, hsort, hm, hmin⟩ := sortStrings_head (mapKeys byNamespace) hkeys
      obtain ⟨s, hs, _⟩ := mapLookup_isSome_of_mem_keys byNamespace m hm
      refine ⟨m, s, hm, hmin, hs, ?_⟩
      have hlen : ¬ byNamespace.length = 0 := by
        intro hl
        exact hne (List.length_eq_zero.mp hl)
      simp [resolveDestination, h, hnone, hlen, hsort, hs]


/-! ## Lemmas: host parsing and the selection of services -/

theorem SplitN2_wildcard (pattern : String) :
    SplitN2 (wildcardNamespace ++ "/" ++ pattern) = [wildcardNamespace, pattern] := by
  have hdata : (wildcardNamespace ++ "/" ++ pattern).data = '*' :: '/' :: pattern.data := by
    rw [String.data_append, String.data_append]
    rfl
  unfold SplitN2
  rw [hdata]
  simp [splitAtSlash, wildcardNamespace]

theorem parseListenerHosts_keeps (configNamespace : String) (hosts : List String)
    (m lh : GoMap (List String))
    (hp : parseListenerHosts configNamespace hosts m = some lh)
    (k : String) (v : List String) (hk : mapLookup m k = some v) (x : String) (hx : x ∈ v) :
    ∃ v', mapLookup lh k = some v' ∧ x ∈ v' := by
  induction hosts generalizing m v with
  | nil =>
    simp only [parseListenerHosts, Option.some.injEq] at hp
    subst hp
    exact ⟨v, hk, hx⟩
  | cons h rest ih =>
    unfold parseListenerHosts at hp
    cases hs : SplitN2 h with
    | nil => rw [hs] at hp; exact absurd hp (by simp)
    | cons p0 tail =>
      rw [hs] at hp
      cases tail with
      | nil => exact absurd hp (by simp)
      | cons p1 tail2 =>
        simp only at hp
        generalize (if p0 = currentNamespace then configNamespace else p0) = ns at hp
        by_cases hns : ns = k
        · subst hns
          refine ih _ hp (v := v ++ [p1]) ?_ (List.mem_append_left _ hx)
          rw [mapLookup_mapStore, if_pos rfl]
          simp [hk]
        · refine ih _ hp (v := v) ?_ hx
          rw [mapLookup_mapStore, if_neg hns]
          cases hm : mapLookup m ns with
          | none =>
            simp only
            rw [mapLookup_mapStore, if_neg hns]
            exact hk
          | some _ => exact hk

theorem parseListenerHosts_wildcard (configNamespace : String) (hosts : List String)
    (m lh : GoMap (List String))
    (hp : parseListenerHosts configNamespace hosts m = some lh)
    (pattern : String) (hmem : (wildcardNamespace ++ "/" ++ pattern) ∈ hosts) :
    ∃ v, mapLookup lh wildcardNamespace = some v ∧ pattern ∈ v := by
  induction hosts generalizing m with
  | nil => simp at hmem
  | cons h rest ih =>
    rcases List.mem_cons.mp hmem with heq | hrest
    · subst heq
      unfold parseListenerHosts at hp
      rw [SplitN2_wildcard] at hp
      have hw : ¬ wildcardNamespace = currentNamespace := by decide
      simp only [if_neg hw] at hp
      generalize (match mapLookup m wildcardNamespace with
        | some _ => m
        | none => mapStore m wildcardNamespace []) = m1 at hp
      exact parseListenerHosts_keeps configNamespace rest _ lh hp wildcardNamespace
        ((mapLookup m1 wildcardNamespace).getD [] ++ [pattern])
        (by rw [mapLookup_mapStore, if_pos rfl])
        pattern (List.mem_append_right _ (List.mem_singleton_self _))
    · unfold parseListenerHosts at hp
      cases hs : SplitN2 h with
      | nil => rw [hs] at hp; exact absurd hp (by simp)
      | cons p0 tail =>
        rw [hs] at hp
        cases tail with
        | nil => exact absurd hp (by simp)
        | cons p1 tail2 =>
          simp only at hp
          exact ih _ hp hrest

theorem matchingLoop_no_port_match (d : Deps) (number : Int) (service : Service)
    (importedHosts : List String) (pattern : String) (hmem : pattern ∈ importedHosts)
    (hm : d.Matches pattern service.Hostname = true) :
    matchingLoop d false number service importedHosts = [service] := by
  induction importedHosts with
  | nil => simp at hmem
  | cons x rest ih =>
    unfold matchingLoop
    by_cases hx : d.Matches x service.Hostname = true
    · simp [hx]
    · rcases List.mem_cons.mp hmem with heq | hrest
      · subst heq
        exact absurd hm hx
      · simp only [hx]
        exact ih hrest

theorem matchingLoop_no_port_subset (d : Deps) (number : Int) (service : Service)
    (importedHosts : List String) (x : Service)
    (hx : x ∈ matchingLoop d false number service importedHosts) : x = service := by
  induction importedHosts with
  | nil => simp [matchingLoop] at hx
  | cons p rest ih =>
    unfold matchingLoop at hx
    by_cases hp : d.Matches p service.Hostname = true
    · simp only [hp, if_true] at hx
      simpa using hx
    · simp only [hp] at hx
      exact ih hx

theorem needsPortMatch_no_port (d : Deps) (l : IstioEgressListener) (hport : l.Port = none) :
    needsPortMatch d (some l) = some false := by
  simp [needsPortMatch, hport, GetNumber]

theorem matchingServices_no_port (d : Deps) (l : IstioEgressListener) (hport : l.Port = none)
    (importedHosts : List String) (service : Service) :
    matchingServices d importedHosts service (some l) =
      some (matchingLoop d false (listenerPortNumber (some l)) service importedHosts) := by
  simp [matchingServices, needsPortMatch_no_port d l hport]

/-- Without a port on the listener, the imported services are visible
services, and a visible service that a wildcard-namespace import matches is
imported. -/
theorem importServices_no_port (d : Deps) (l : IstioEgressListener) (hport : l.Port = none)
    (listenerHosts : GoMap (List String)) (services imported : List Service)
    (hi : importServices d (some l) listenerHosts services = some imported) :
    (∀ x ∈ imported, x ∈ services) ∧
    (∀ wildcardHosts pattern s,
      mapLookup listenerHosts wildcardNamespace = some wildcardHosts →
      pattern ∈ wildcardHosts → s ∈ services → d.Matches pattern s.Hostname = true →
      s ∈ imported) := by
  induction services generalizing imported with
  | nil =>
    simp only [importServices, Option.some.injEq] at hi
    subst hi
    exact ⟨fun x hx => hx, fun _ _ s _ _ hs _ => by simp at hs⟩
  | cons s rest ih =>
    unfold importServices at hi
    simp only at hi
    cases hrest : importServices d (some l) listenerHosts rest with
    | none =>
      rw [hrest] at hi
      split at hi <;> simp_all
    | some c =>
      rw [hrest] at hi
      obtain ⟨ihsub, ihmem⟩ := ih c hrest
      have hown : ∃ a, (match mapLookup listenerHosts s.Attributes.Namespace with
          | some importedHosts => matchingServices d importedHosts s (some l)
          | none => some []) = some a ∧ ∀ x ∈ a, x = s := by
        cases mapLookup listenerHosts s.Attributes.Namespace with
        | none => exact ⟨[], rfl, fun x hx => by simp at hx⟩
        | some hs =>
          exact ⟨_, matchingServices_no_port d l hport hs s,
            fun x hx => matchingLoop_no_port_subset d _ s hs x hx⟩
      have hwild : ∃ b, (match mapLookup listenerHosts wildcardNamespace with
          | some wildcardHosts => matchingServices d wildcardHosts s (some l)
          | none => some []) = some b ∧ (∀ x ∈ b, x = s) ∧
          (∀ wildcardHosts pattern,
            mapLookup listenerHosts wildcardNamespace = some wildcardHosts →
            pattern ∈ wildcardHosts → d.Matches pattern s.Hostname = true → s ∈ b) := by
        cases hw : mapLookup listenerHosts wildcardNamespace with
        | none => exact ⟨[], rfl, fun x hx => by simp at hx, fun _ _ h => by simp at h⟩
        | some hs =>
          refine ⟨_, matchingServices_no_port d l hport hs s,
            fun x hx => matchingLoop_no_port_subset d _ s hs x hx, ?_⟩
          intro wildcardHosts pattern heq hmem hm
          simp only [Option.some.injEq] at heq
          subst heq
          rw [matchingLoop_no_port_match d _ s hs pattern hmem hm]
          exact List.mem_singleton_self s
      obtain ⟨a, ha, hasub⟩ := hown
      obtain ⟨b, hb, hbsub, hbmem⟩ := hwild
      rw [ha, hb] at hi
      simp only [Option.some.injEq] at hi
      subst hi
      constructor
      · intro x hx
        rcases List.mem_append.mp hx with hx | hx
        · rcases List.mem_append.mp hx with hx | hx
          · rw [hasub x hx]; exact List.mem_cons_self _ _
          · rw [hbsub x hx]; exact List.mem_cons_self _ _
        · exact List.mem_cons_of_mem _ (ihsub x hx)
      · intro wildcardHosts pattern s' hw hmem hs' hm
        rcases List.mem_cons.mp hs' with heq | hs'
        · subst heq
          exact List.mem_append_left _
            (List.mem_append_right _ (hbmem wildcardHosts pattern hw hmem hm))
        · exact List.mem_append_right _ (ihmem wildcardHosts pattern s' hw hmem hs' hm)

/-- The namespace `validServices` holds for a hostname is the namespace of an
imported service with that hostname, or the one it held before the loop. -/
theorem validServicesLoop_spec (configNamespace : String) (l : List Service)
    (valid : GoMap String) :
    (∀ h ns, mapLookup (validServicesLoop configNamespace l valid) h = some ns →
      mapLookup valid h = some ns ∨
        ∃ svc ∈ l, svc.Hostname = h ∧ svc.Attributes.Namespace = ns) ∧
    (∀ h, (mapLookup valid h).isSome = true ∨ (∃ svc ∈ l, svc.Hostname = h) →
      (mapLookup (validServicesLoop configNamespace l valid) h).isSome = true) := by
  induction l generalizing valid with
  | nil =>
    exact ⟨fun h ns hl => Or.inl hl, fun h hh => by
      rcases hh with hh | ⟨svc, hs, _⟩
      · exact hh
      · simp at hs⟩
  | cons svc rest ih =>
    unfold validServicesLoop
    simp only
    split
    · obtain ⟨ih1, ih2⟩ := ih (mapStore valid svc.Hostname svc.Attributes.Namespace)
      constructor
      · intro h ns hl
        rcases ih1 h ns hl with hv | ⟨s, hs, hh, hn⟩
        · rw [mapLookup_mapStore] at hv
          by_cases hk : svc.Hostname = h
          · rw [if_pos hk] at hv
            exact Or.inr ⟨svc, List.mem_cons_self _ _, hk, Option.some.inj hv⟩
          · rw [if_neg hk] at hv
            exact Or.inl hv
        · exact Or.inr ⟨s, List.mem_cons_of_mem _ hs, hh, hn⟩
      · intro h hh
        apply ih2
        rw [mapLookup_mapStore]
        by_cases hk : svc.Hostname = h
        · left; simp [hk]
        · rw [if_neg hk]
          rcases hh with hh | ⟨s, hs, hsh⟩
          · exact Or.inl hh
          · rcases List.mem_cons.mp hs with heq | hs
            · subst heq; exact absurd hsh hk
            · exact Or.inr ⟨s, hs, hsh⟩
    · rename_i hcond
      obtain ⟨ih1, ih2⟩ := ih valid
      constructor
      · intro h ns hl
        rcases ih1 h ns hl with hv | ⟨s, hs, hh, hn⟩
        · exact Or.inl hv
        · exact Or.inr ⟨s, List.mem_cons_of_mem _ hs, hh, hn⟩
      · intro h hh
        apply ih2
        rcases hh with hh | ⟨s, hs, hsh⟩
        · exact Or.inl hh
        · rcases List.mem_cons.mp hs with heq | hs
          · subst heq
            left
            rw [← hsh]
            simp only [Bool.or_eq_true, Bool.not_eq_true', decide_eq_true_eq, not_or] at hcond
            have := hcond.1
            cases hm : mapLookup valid s.Hostname with
            | none => rw [hm] at this; simp at this
            | some _ => rfl
          · exact Or.inr ⟨s, hs, hsh⟩

/-- Without a port on the listener, `selectServices` returns visible services,
and for every visible service that a wildcard-namespace import matches it
returns a service with the same hostname. -/
theorem selectServices_no_port (d : Deps) (l : IstioEgressListener) (hport : l.Port = none)
    (listenerHosts : GoMap (List String)) (services : List Service) (configNamespace : String)
    (result : List Service)
    (hsel : selectServices d (some l) listenerHosts services configNamespace = some result) :
    (∀ x ∈ result, x ∈ services) ∧
    (∀ wildcardHosts pattern s,
      mapLookup listenerHosts wildcardNamespace = some wildcardHosts →
      pattern ∈ wildcardHosts → s ∈ services → d.Matches pattern s.Hostname = true →
      ∃ x ∈ result, x.Hostname = s.Hostname) := by
  unfold selectServices at hsel
  cases hi : importServices d (some l) listenerHosts services with
  | none => rw [hi] at hsel; exact absurd hsel (by simp)
  | some imported =>
    rw [hi] at hsel
    simp only [Option.some.injEq] at hsel
    obtain ⟨hsub, hmem⟩ := importServices_no_port d l hport listenerHosts services imported hi
    obtain ⟨hv1, hv2⟩ := validServicesLoop_spec configNamespace imported []
    subst hsel
    constructor
    · intro x hx
      exact hsub x (List.mem_of_mem_filter hx)
    · intro wildcardHosts pattern s hw hp hs hm
      have hin : s ∈ imported := hmem wildcardHosts pattern s hw hp hs hm
      have hsome := hv2 s.Hostname (Or.inr ⟨s, hin, rfl⟩)
      obtain ⟨ns, hns⟩ := Option.isSome_iff_exists.mp hsome
      rcases hv1 s.Hostname ns hns with hempty | ⟨svc, hsvc, hh, hn⟩
      · simp [mapLookup] at hempty
      · refine ⟨svc, ?_, hh⟩
        rw [List.mem_filter]
        refine ⟨hsvc, ?_⟩
        rw [hh, hns]
        simp [hn]

theorem convertIstioListenerToWrapper_some (d : Deps) (ps : PushContext)
    (configNamespace : String) (l : IstioEgressListener) (w : IstioEgressListenerWrapper)
    (h : convertIstioListenerToWrapper d ps configNamespace l = some w) :
    parseListenerHosts configNamespace l.Hosts [] = some w.listenerHosts ∧
    selectServices d (some l) w.listenerHosts (ps.Services configNamespace) configNamespace =
      some w.services ∧
    w.IstioListener = some l ∧
    w.virtualServices = selectVirtualServices d w.listenerHosts
      (ps.VirtualServices configNamespace [(IstioMeshGateway, true)]) := by
  unfold convertIstioListenerToWrapper at h
  cases hp : parseListenerHosts configNamespace l.Hosts [] with
  | none => rw [hp] at h; exact absurd h (by simp)
  | some lh =>
    rw [hp] at h
    simp only at h
    cases hs : selectServices d (some l) lh (ps.Services configNamespace) configNamespace with
    | none => rw [hs] at h; exact absurd h (by simp)
    | some svcs =>
      rw [hs] at h
      simp only [Option.some.injEq] at h
      subst h
      exact ⟨rfl, hs, rfl, rfl⟩

theorem convertListeners_some (d : Deps) (ps : PushContext) (configNamespace : String)
    (egress : List IstioEgressListener) (listeners : List IstioEgressListenerWrapper)
    (h : convertListeners d ps configNamespace egress = some listeners) :
    (∀ l ∈ egress, ∃ w ∈ listeners,
      convertIstioListenerToWrapper d ps configNamespace l = some w) ∧
    (∀ l, egress.head? = some l → ∃ w, listeners.head? = some w ∧
      convertIstioListenerToWrapper d ps configNamespace l = some w) := by
  induction egress generalizing listeners with
  | nil => exact ⟨fun l hl => by simp at hl, fun l hl => by simp at hl⟩
  | cons e rest ih =>
    unfold convertListeners at h
    cases hw : convertIstioListenerToWrapper d ps configNamespace e with
    | none => rw [hw] at h; simp at h
    | some w =>
      cases hws : convertListeners d ps configNamespace rest with
      | none => rw [hw, hws] at h; simp at h
      | some ws =>
        rw [hw, hws] at h
        simp only [Option.some.injEq] at h
        subst h
        obtain ⟨ih1, _⟩ := ih ws hws
        constructor
        · intro l hl
          rcases List.mem_cons.mp hl with heq | hl
          · subst heq
            exact ⟨w, List.mem_cons_self _ _, hw⟩
          · obtain ⟨w', hw', hc⟩ := ih1 l hl
            exact ⟨w', List.mem_cons_of_mem _ hw', hc⟩
        · intro l hl
          simp only [List.head?_cons, Option.some.injEq] at hl
          subst hl
          exact ⟨w, rfl, hw⟩

theorem filter_hostname_of_nodup (l : List Service) (h : String) (e : Service)
    (hn : (l.map (fun s => s.Hostname)).Nodup)
    (he : l.find? (fun s => s.Hostname = h) = some e) :
    l.filter (fun s => s.Hostname = h) = [e] := by
  induction l with
  | nil => simp at he
  | cons x rest ih =>
    rw [List.map_cons, List.nodup_cons] at hn
    rw [List.find?_cons] at he
    by_cases hx : x.Hostname = h
    · simp only [hx, decide_True, Option.some.injEq] at he
      subst he
      have hrest : rest.filter (fun s => s.Hostname = h) = [] := by
        rw [List.filter_eq_nil_iff]
        intro s hs
        simp only [decide_eq_true_eq]
        intro hsh
        apply hn.1
        rw [List.mem_map]
        exact ⟨s, hs, hsh.trans hx.symm⟩
      rw [List.filter_cons]
      simp [hx, hrest]
    · simp only [hx, decide_False] at he
      rw [List.filter_cons]
      simp only [hx, decide_False]
      exact ih hn.2 he


/-! ## Theorems: the scope built by `ConvertToSidecarScope` -/

theorem namespaces_of_default (l : List Service) (m : GoMap Unit) (ns : String) :
    (mapLookup (l.foldl (fun m s => mapStore m s.Attributes.Namespace ()) m) ns).isSome = true ↔
      (mapLookup m ns).isSome = true ∨ ∃ s ∈ l, s.Attributes.Namespace = ns := by
  induction l generalizing m with
  | nil => simp
  | cons x rest ih =>
    rw [List.foldl_cons, ih, mapLookup_mapStore]
    by_cases hx : x.Attributes.Namespace = ns
    · simp [hx]
    · simp [hx]

theorem DependsOnNamespace_eq (sc : SidecarScope) (ns : String) :
    DependsOnNamespace (some sc) ns = (mapLookup sc.namespaceDependencies ns).isSome := by
  simp only [DependsOnNamespace]
  cases mapLookup sc.namespaceDependencies ns <;> rfl

/-- C3. For every scope returned by `ConvertToSidecarScope`, from an explicit
resource or as the default, `DependsOnNamespace(ns)` is true if and only if
some service of `Services()` has the namespace `ns`. -/
theorem DependsOnNamespace_iff_service (d : Deps) (ps : PushContext)
    (sidecarConfig : Option SidecarConfig) (configNamespace : String) (sc : SidecarScope)
    (h : ConvertToSidecarScope d ps sidecarConfig configNamespace = some sc) (ns : String) :
    DependsOnNamespace (some sc) ns = true ↔
      ∃ s ∈ Services (some sc), s.Attributes.Namespace = ns := by
  rw [DependsOnNamespace_eq]
  cases sidecarConfig with
  | none =>
    have hsc : sc = DefaultSidecarScopeForNamespace ps configNamespace := by
      simp only [ConvertToSidecarScope, Option.some.injEq] at h
      exact h.symm
    subst hsc
    show (mapLookup ((ps.Services configNamespace).foldl
        (fun m s => mapStore m s.Attributes.Namespace ()) []) ns).isSome = true ↔
      ∃ s ∈ ps.Services configNamespace, s.Attributes.Namespace = ns
    rw [namespaces_of_default]
    simp [mapLookup]
  | some cfg =>
    obtain ⟨listeners, _, _, hs, hn, _⟩ :=
      ConvertToSidecarScope_explicit d ps cfg configNamespace sc h
    show (mapLookup sc.namespaceDependencies ns).isSome = true ↔
      ∃ s ∈ sc.services, s.Attributes.Namespace = ns
    rw [hs, hn]
    exact (UnionInv_listeners d ps configNamespace listeners).deps ns

/-- Witness of C3: the scope of `twoListenerConfig` depends on `ns2`. -/
theorem DependsOnNamespace_iff_service_witness :
    ConvertToSidecarScope exampleDeps twoNamespacePush (some twoListenerConfig) "ns1" =
        some twoListenerScope ∧
    (DependsOnNamespace (some twoListenerScope) "ns2" = true ↔
      ∃ s ∈ Services (some twoListenerScope), s.Attributes.Namespace = "ns2") :=
  ⟨by decide,
   DependsOnNamespace_iff_service exampleDeps twoNamespacePush (some twoListenerConfig) "ns1"
     twoListenerScope (by decide) "ns2"⟩

/-- C8. In a scope built by `ConvertToSidecarScope` from an explicit sidecar
resource no two services of `Services()` have the same hostname. -/
theorem Services_hostnames_distinct (d : Deps) (ps : PushContext) (cfg : SidecarConfig)
    (configNamespace : String) (sc : SidecarScope)
    (h : ConvertToSidecarScope d ps (some cfg) configNamespace = some sc) :
    (Services (some sc)).Pairwise (fun a b => a.Hostname ≠ b.Hostname) := by
  obtain ⟨listeners, _, _, hs, _, _⟩ :=
    ConvertToSidecarScope_explicit d ps cfg configNamespace sc h
  show sc.services.Pairwise (fun a b => a.Hostname ≠ b.Hostname)
  rw [hs]
  have hn := (UnionInv_listeners d ps configNamespace listeners).nodup
  exact (List.pairwise_map.mp hn)

/-- Witness of C8: the scope of `wildcardConfig`. -/
theorem Services_hostnames_distinct_witness :
    ConvertToSidecarScope exampleDeps twoNamespacePush (some wildcardConfig) "ns1" =
        some wildcardScope ∧
    (Services (some wildcardScope)).Pairwise (fun a b => a.Hostname ≠ b.Hostname) :=
  ⟨by decide,
   Services_hostnames_distinct exampleDeps twoNamespacePush wildcardConfig "ns1"
     wildcardScope (by decide)⟩

/-- The entry of the union built from an explicit resource, for a hostname:
absent when no candidate has the hostname, otherwise the first candidate with
the hostname, with further ports at most. -/
theorem entryOf_explicit (d : Deps) (ps : PushContext) (cfg : SidecarConfig)
    (configNamespace : String) (sc : SidecarScope)
    (h : ConvertToSidecarScope d ps (some cfg) configNamespace = some sc) (hostname : String) :
    match (unionCandidates d ps configNamespace sc.EgressListeners).find?
        (fun c => c.Hostname = hostname) with
    | none => sc.services.find? (fun s => s.Hostname = hostname) = none
    | some c => ∃ e, sc.services.find? (fun s => s.Hostname = hostname) = some e ∧
        extendsPorts c e := by
  obtain ⟨listeners, _, hl, hs, _, _⟩ :=
    ConvertToSidecarScope_explicit d ps cfg configNamespace sc h
  rw [hs, hl, foldl_addListener]
  exact entryOf_foldl_of_none _ emptyUnion UnionInv_empty hostname rfl

/-- Counterexample to C9 as stated: in the scope of `twoListenerConfig`, of
namespace `ns1`, the service `a.com` of `ns1` is among the services selected
by the listeners, but the union holds the service `a.com` of `ns2`, which the
first listener selected. -/
theorem union_keeps_first_listener_choice :
    ConvertToSidecarScope exampleDeps twoNamespacePush (some twoListenerConfig) "ns1" =
        some twoListenerScope ∧
    exampleService "a.com" "ns1" [80, 443] ∈
        unionCandidates exampleDeps twoNamespacePush "ns1" twoListenerScope.EgressListeners ∧
    (exampleService "a.com" "ns1" [80, 443]).Attributes.Namespace = "ns1" ∧
    ServiceForHostname (some twoListenerScope) "a.com" [] =
        some (exampleService "a.com" "ns2" [80]) := by
  decide

/-- C9, amended. In a scope built by `ConvertToSidecarScope` from an explicit
resource, the service of the union for a hostname is the first candidate with
that hostname in fold order (listeners in declaration order; for each listener
its selected services, then the services resolved from the destinations of
its virtual services), with further ports appended at most. A destination is
resolved to the service indexed under the config namespace when there is one,
otherwise to the one of the alphabetically first indexed namespace. -/
theorem union_entry_is_first_candidate (d : Deps) (ps : PushContext) (cfg : SidecarConfig)
    (configNamespace : String) (sc : SidecarScope)
    (h : ConvertToSidecarScope d ps (some cfg) configNamespace = some sc)
    (hostname : String) (e : Service)
    (he : (Services (some sc)).find? (fun s => s.Hostname = hostname) = some e) :
    (∃ c, (unionCandidates d ps configNamespace sc.EgressListeners).find?
        (fun c => c.Hostname = hostname) = some c ∧ extendsPorts c e) ∧
    (∀ dHost byNamespace,
      mapLookup ps.ServiceByHostnameAndNamespace dHost = some byNamespace →
      (∀ s, mapLookup byNamespace configNamespace = some s →
        resolveDestination ps configNamespace dHost = some s) ∧
      (mapLookup byNamespace configNamespace = none → byNamespace ≠ [] →
        ∃ first s, first ∈ mapKeys byNamespace ∧
          (∀ k ∈ mapKeys byNamespace, stringLe first k = true) ∧
          mapLookup byNamespace first = some s ∧
          resolveDestination ps configNamespace dHost = some s)) := by
  constructor
  · have key := entryOf_explicit d ps cfg configNamespace sc h hostname
    have he' : sc.services.find? (fun s => s.Hostname = hostname) = some e := he
    cases hc : (unionCandidates d ps configNamespace sc.EgressListeners).find?
        (fun c => c.Hostname = hostname) with
    | none =>
      rw [hc] at key
      simp only at key
      rw [key] at he'
      exact absurd he' (by simp)
    | some c =>
      rw [hc] at key
      obtain ⟨e', he2, hx⟩ := key
      rw [he'] at he2
      have : e = e' := Option.some.inj he2
      subst this
      exact ⟨c, rfl, hx⟩
  · intro dHost byNamespace hb
    have hspec := (resolveDestination_spec ps configNamespace dHost).2 byNamespace hb
    exact ⟨hspec.1, hspec.2.2⟩

/-- Witness of C9, amended: in the scope of `routedConfig` the service for
`b.com`, a destination of the imported virtual service, is the one of `ns2`,
the first of the namespaces `ns3` and `ns2` in alphabetical order. -/
theorem union_entry_is_first_candidate_witness :
    ConvertToSidecarScope exampleDeps routedPush (some routedConfig) "ns1" = some routedScope ∧
    (Services (some routedScope)).find? (fun s => s.Hostname = "b.com") =
        some (exampleService "b.com" "ns2" [8080]) ∧
    ∃ c, (unionCandidates exampleDeps routedPush "ns1" routedScope.EgressListeners).find?
        (fun c => c.Hostname = "b.com") = some c ∧
      extendsPorts c (exampleService "b.com" "ns2" [8080]) :=
  ⟨by decide, by decide,
   (union_entry_is_first_candidate exampleDeps routedPush routedConfig "ns1" routedScope
      (by decide) "b.com" (exampleService "b.com" "ns2" [8080]) (by decide)).1⟩

/-- Counterexample to C10 as stated: `a.com` of `ns2` is visible and matched by
the import `*/a.com` of the listener without port of `wildcardConfig`, but
the union of the scope holds `a.com` of `ns1` and not that service. -/
theorem wildcard_import_drops_other_namespace :
    ConvertToSidecarScope exampleDeps twoNamespacePush (some wildcardConfig) "ns1" =
        some wildcardScope ∧
    exampleService "a.com" "ns2" [80] ∈ twoNamespacePush.Services "ns1" ∧
    exampleDeps.Matches "a.com" (exampleService "a.com" "ns2" [80]).Hostname = true ∧
    (Services (some wildcardScope)).count (exampleService "a.com" "ns2" [80]) = 0 := by
  decide

/-- C10, amended. For an explicit sidecar resource with an egress listener
without port whose hosts include a wildcard-namespace import `*/P`, and a
visible service S whose hostname H the pattern P matches, `Services()`
contains exactly one service with hostname H; when that listener is the first
egress listener and S is the only visible service with hostname H, that
service is S itself, with further ports appended at most. -/
theorem wildcard_import_in_union (d : Deps) (ps : PushContext) (cfg : SidecarConfig)
    (configNamespace : String) (sc : SidecarScope)
    (h : ConvertToSidecarScope d ps (some cfg) configNamespace = some sc)
    (l : IstioEgressListener) (hl : l ∈ cfg.Spec.Egress) (hport : l.Port = none)
    (pattern : String) (hhost : (wildcardNamespace ++ "/" ++ pattern) ∈ l.Hosts)
    (S : Service) (hS : S ∈ ps.Services configNamespace)
    (hm : d.Matches pattern S.Hostname = true) :
    ((Services (some sc)).filter (fun s => s.Hostname = S.Hostname)).length = 1 ∧
    (cfg.Spec.Egress.head? = some l →
      (∀ s ∈ ps.Services configNamespace, s.Hostname = S.Hostname → s = S) →
      ∃ e ∈ Services (some sc), extendsPorts S e) := by
  obtain ⟨listeners, hconv, hls, hs, _, _⟩ :=
    ConvertToSidecarScope_explicit d ps cfg configNamespace sc h
  obtain ⟨hall, hhead⟩ := convertListeners_some d ps configNamespace _ listeners hconv
  have hnodup : (sc.services.map (fun s => s.Hostname)).Nodup := by
    rw [hs]
    exact (UnionInv_listeners d ps configNamespace listeners).nodup
  have key := entryOf_explicit d ps cfg configNamespace sc h S.Hostname
  -- what the wrapper of a listener without port selects
  have hsel : ∀ w, convertIstioListenerToWrapper d ps configNamespace l = some w →
      (∀ x ∈ w.services, x ∈ ps.Services configNamespace) ∧
      ∃ x ∈ w.services, x.Hostname = S.Hostname := by
    intro w hw
    obtain ⟨hparse, hselect, _, _⟩ :=
      convertIstioListenerToWrapper_some d ps configNamespace l w hw
    obtain ⟨v, hv, hpv⟩ :=
      parseListenerHosts_wildcard configNamespace l.Hosts [] _ hparse pattern hhost
    obtain ⟨hsub, hex⟩ := selectServices_no_port d l hport _ _ configNamespace _ hselect
    exact ⟨hsub, hex v pattern S hv hpv hS hm⟩
  constructor
  · obtain ⟨w, hw, hcw⟩ := hall l hl
    obtain ⟨_, x, hx, hxh⟩ := hsel w hcw
    have hcand : x ∈ unionCandidates d ps configNamespace sc.EgressListeners := by
      rw [hls]
      unfold unionCandidates
      rw [List.mem_flatMap]
      exact ⟨w, hw, List.mem_append_left _ hx⟩
    cases hc : (unionCandidates d ps configNamespace sc.EgressListeners).find?
        (fun c => c.Hostname = S.Hostname) with
    | none =>
      rw [List.find?_eq_none] at hc
      exact absurd hxh (by simpa using hc x hcand)
    | some c =>
      rw [hc] at key
      obtain ⟨e, he, _⟩ := key
      show (sc.services.filter _).length = 1
      rw [filter_hostname_of_nodup sc.services S.Hostname e hnodup he]
      rfl
  · intro hfirst honly
    obtain ⟨w, hwhead, hcw⟩ := hhead l hfirst
    obtain ⟨hsub, x, hx, hxh⟩ := hsel w hcw
    have hfind : (unionCandidates d ps configNamespace sc.EgressListeners).find?
        (fun c => c.Hostname = S.Hostname) = some S := by
      rw [hls]
      cases listeners with
      | nil => simp at hwhead
      | cons w0 ws =>
        simp only [List.head?_cons, Option.some.injEq] at hwhead
        subst hwhead
        unfold unionCandidates listenerCandidates
        rw [List.flatMap_cons, List.find?_append, List.find?_append]
        cases hf : w0.services.find? (fun c => c.Hostname = S.Hostname) with
        | none =>
          rw [List.find?_eq_none] at hf
          exact absurd hxh (by simpa using hf x hx)
        | some y =>
          have hy := List.find?_some hf
          have hymem := List.mem_of_find?_eq_some hf
          have : y = S := honly y (hsub y hymem) (by simpa using hy)
          subst this
          rfl
    rw [hfind] at key
    obtain ⟨e, he, hext⟩ := key
    exact ⟨e, List.mem_of_find?_eq_some he, hext⟩

/-- Witness of C10, amended: on `routedPush` the service `a.com` of `ns2`, the
only visible service with that hostname, and the import `*/a.com` of the only
listener of `wildcardConfig`. -/
theorem wildcard_import_in_union_witness :
    ConvertToSidecarScope exampleDeps routedPush (some wildcardConfig) "ns1" =
        some routedWildcardScope ∧
    wildcardListener ∈ wildcardConfig.Spec.Egress ∧ wildcardListener.Port = none ∧
    (wildcardNamespace ++ "/" ++ "a.com") ∈ wildcardListener.Hosts ∧
    exampleService "a.com" "ns2" [80] ∈ routedPush.Services "ns1" ∧
    exampleDeps.Matches "a.com" (exampleService "a.com" "ns2" [80]).Hostname = true ∧
    ((Services (some routedWildcardScope)).filter
        (fun s => s.Hostname = (exampleService "a.com" "ns2" [80]).Hostname)).length = 1 ∧
    ∃ e ∈ Services (some routedWildcardScope),
      extendsPorts (exampleService "a.com" "ns2" [80]) e :=
  have key := wildcard_import_in_union exampleDeps routedPush wildcardConfig "ns1"
    routedWildcardScope (by decide) wildcardListener (by decide) rfl "a.com" (by decide)
    (exampleService "a.com" "ns2" [80]) (by decide) (by decide)
  ⟨by decide, by decide, rfl, by decide, by decide, by decide, key.1,
   key.2 (by decide) (by decide)⟩


/-! ## Theorems: the selection of services and virtual services by a listener -/

theorem needsPortMatch_eq (d : Deps) (istioListener : Option IstioEgressListener) :
    needsPortMatch d istioListener = some (needsPortMatchFlag d istioListener) := by
  unfold needsPortMatchFlag needsPortMatch
  cases istioListener with
  | none => rfl
  | some l =>
    cases hp : l.Port with
    | none => simp [GetNumber, hp]
    | some p =>
      by_cases hn : p.Number = 0
      · simp [GetNumber, hp, hn]
      · simp [GetNumber, hp, hn]

theorem matchingServices_eq (d : Deps) (importedHosts : List String) (service : Service)
    (istioListener : Option IstioEgressListener) :
    matchingServices d importedHosts service istioListener =
      some (matchingLoop d (needsPortMatchFlag d istioListener)
        (listenerPortNumber istioListener) service importedHosts) := by
  unfold matchingServices
  rw [needsPortMatch_eq]

theorem importServices_eq (d : Deps) (istioListener : Option IstioEgressListener)
    (listenerHosts : GoMap (List String)) (services : List Service) :
    importServices d istioListener listenerHosts services =
      some (importedServicesOf d istioListener listenerHosts services) := by
  induction services with
  | nil => rfl
  | cons s rest ih =>
    unfold importServices
    simp only [ih, matchingServices_eq]
    unfold importedServicesOf
    rw [List.flatMap_cons]
    unfold importedFrom
    cases mapLookup listenerHosts s.Attributes.Namespace <;>
      cases mapLookup listenerHosts wildcardNamespace <;> simp

theorem selectServices_eq (d : Deps) (istioListener : Option IstioEgressListener)
    (listenerHosts : GoMap (List String)) (services : List Service)
    (configNamespace : String) :
    selectServices d istioListener listenerHosts services configNamespace =
      some ((importedServicesOf d istioListener listenerHosts services).filter (fun i =>
        (mapLookup (validServicesLoop configNamespace
          (importedServicesOf d istioListener listenerHosts services) []) i.Hostname).getD ""
          = i.Attributes.Namespace)) := by
  unfold selectServices
  rw [importServices_eq]

/-- The namespace `validServices` holds for a hostname after the second loop of
`selectServices`: the config namespace if a service of the list with that
hostname is in it; otherwise the namespace held before the loop, if any;
otherwise the namespace of the first service of the list with that hostname. -/
theorem validServicesLoop_lookup (configNamespace : String) (l : List Service)
    (valid : GoMap String) (h : String) :
    mapLookup (validServicesLoop configNamespace l valid) h =
      if ∃ y ∈ l, y.Hostname = h ∧ y.Attributes.Namespace = configNamespace then
        some configNamespace
      else
        match mapLookup valid h with
        | some v => some v
        | none => (l.find? (fun s => s.Hostname = h)).map (fun s => s.Attributes.Namespace) := by
  induction l generalizing valid with
  | nil =>
    simp only [validServicesLoop, List.not_mem_nil, false_and, exists_false, if_false,
      List.find?_nil, Option.map_none']
    cases mapLookup valid h <;> rfl
  | cons svc rest ih =>
    unfold validServicesLoop
    simp only
    by_cases hcond : (!(mapLookup valid svc.Hostname).isSome ||
        decide (svc.Attributes.Namespace = configNamespace)) = true
    · rw [if_pos hcond, ih, mapLookup_mapStore]
      by_cases hk : svc.Hostname = h
      · subst hk
        rw [if_pos rfl]
        by_cases hex : ∃ y ∈ rest, y.Hostname = svc.Hostname ∧
            y.Attributes.Namespace = configNamespace
        · have hex' : ∃ y ∈ svc :: rest, y.Hostname = svc.Hostname ∧
              y.Attributes.Namespace = configNamespace := by
            obtain ⟨y, hy, hyh⟩ := hex
            exact ⟨y, List.mem_cons_of_mem _ hy, hyh⟩
          rw [if_pos hex, if_pos hex']
        · rw [if_neg hex]
          by_cases hns : svc.Attributes.Namespace = configNamespace
          · have hex' : ∃ y ∈ svc :: rest, y.Hostname = svc.Hostname ∧
                y.Attributes.Namespace = configNamespace :=
              ⟨svc, List.mem_cons_self _ _, rfl, hns⟩
            rw [if_pos hex', hns]
          · have hex' : ¬ ∃ y ∈ svc :: rest, y.Hostname = svc.Hostname ∧
                y.Attributes.Namespace = configNamespace := by
              rintro ⟨y, hy, hyh⟩
              rcases List.mem_cons.mp hy with heq | hy
              · subst heq; exact hns hyh.2
              · exact hex ⟨y, hy, hyh⟩
            rw [if_neg hex']
            have hnone : mapLookup valid svc.Hostname = none := by
              simp only [Bool.or_eq_true, Bool.not_eq_true', decide_eq_true_eq, hns,
                or_false] at hcond
              cases hm : mapLookup valid svc.Hostname with
              | none => rfl
              | some _ => rw [hm] at hcond; simp at hcond
            rw [hnone]
            simp [List.find?_cons]
      · rw [if_neg hk]
        have hiff : (∃ y ∈ svc :: rest, y.Hostname = h ∧
            y.Attributes.Namespace = configNamespace) ↔
            ∃ y ∈ rest, y.Hostname = h ∧ y.Attributes.Namespace = configNamespace := by
          constructor
          · rintro ⟨y, hy, hyh⟩
            rcases List.mem_cons.mp hy with heq | hy
            · subst heq; exact absurd hyh.1 hk
            · exact ⟨y, hy, hyh⟩
          · rintro ⟨y, hy, hyh⟩
            exact ⟨y, List.mem_cons_of_mem _ hy, hyh⟩
        simp only [hiff, List.find?_cons, hk, decide_False]
    · rw [if_neg hcond, ih]
      simp only [Bool.or_eq_true, Bool.not_eq_true', decide_eq_true_eq, not_or] at hcond
      obtain ⟨hsome, hns⟩ := hcond
      by_cases hk : svc.Hostname = h
      · subst hk
        have hiff : (∃ y ∈ svc :: rest, y.Hostname = svc.Hostname ∧
            y.Attributes.Namespace = configNamespace) ↔
            ∃ y ∈ rest, y.Hostname = svc.Hostname ∧
              y.Attributes.Namespace = configNamespace := by
          constructor
          · rintro ⟨y, hy, hyh⟩
            rcases List.mem_cons.mp hy with heq | hy
            · subst heq; exact absurd hyh.2 hns
            · exact ⟨y, hy, hyh⟩
          · rintro ⟨y, hy, hyh⟩
            exact ⟨y, List.mem_cons_of_mem _ hy, hyh⟩
        simp only [hiff]
        cases hm : mapLookup valid svc.Hostname with
        | none => rw [hm] at hsome; simp at hsome
        | some v => rfl
      · have hiff : (∃ y ∈ svc :: rest, y.Hostname = h ∧
            y.Attributes.Namespace = configNamespace) ↔
            ∃ y ∈ rest, y.Hostname = h ∧ y.Attributes.Namespace = configNamespace := by
          constructor
          · rintro ⟨y, hy, hyh⟩
            rcases List.mem_cons.mp hy with heq | hy
            · subst heq; exact absurd hyh.1 hk
            · exact ⟨y, hy, hyh⟩
          · rintro ⟨y, hy, hyh⟩
            exact ⟨y, List.mem_cons_of_mem _ hy, hyh⟩
        simp only [hiff, List.find?_cons, hk, decide_False]

theorem chosenNamespace_lookup (configNamespace : String) (imported : List Service)
    (h : String) (x : Service) (hx : x ∈ imported) (hxh : x.Hostname = h) :
    (mapLookup (validServicesLoop configNamespace imported []) h).getD "" =
      chosenNamespace configNamespace imported h := by
  rw [validServicesLoop_lookup]
  unfold chosenNamespace
  have hfind : ∃ first, imported.find? (fun s => s.Hostname = h) = some first := by
    cases hf : imported.find? (fun s => s.Hostname = h) with
    | some first => exact ⟨first, rfl⟩
    | none =>
      rw [List.find?_eq_none] at hf
      exact absurd hxh (by simpa using hf x hx)
  obtain ⟨first, hfirst⟩ := hfind
  by_cases hex : ∃ y ∈ imported, y.Hostname = h ∧ y.Attributes.Namespace = configNamespace
  · have hany : imported.any (fun y =>
        decide (y.Hostname = h ∧ y.Attributes.Namespace = configNamespace)) = true := by
      rw [List.any_eq_true]
      obtain ⟨y, hy, hyh⟩ := hex
      exact ⟨y, hy, by simpa using hyh⟩
    rw [if_pos hex, if_pos hany]
    rfl
  · have hany : ¬ imported.any (fun y =>
        decide (y.Hostname = h ∧ y.Attributes.Namespace = configNamespace)) = true := by
      rw [List.any_eq_true]
      rintro ⟨y, hy, hyh⟩
      exact hex ⟨y, hy, by simpa using hyh⟩
    rw [if_neg hex, if_neg hany, hfirst]
    simp [mapLookup]

/-- The output of `selectServices`: the services that passed import matching
and are in the namespace chosen for their hostname. -/
theorem selectServices_filter (d : Deps) (istioListener : Option IstioEgressListener)
    (listenerHosts : GoMap (List String)) (services : List Service)
    (configNamespace : String) :
    selectServices d istioListener listenerHosts services configNamespace =
      some ((importedServicesOf d istioListener listenerHosts services).filter (fun x =>
        x.Attributes.Namespace = chosenNamespace configNamespace
          (importedServicesOf d istioListener listenerHosts services) x.Hostname)) := by
  rw [selectServices_eq]
  congr 1
  apply List.filter_congr
  intro x hx
  rw [chosenNamespace_lookup configNamespace _ x.Hostname x hx rfl]
  by_cases hc : chosenNamespace configNamespace
      (importedServicesOf d istioListener listenerHosts services) x.Hostname =
      x.Attributes.Namespace
  · simp [hc]
  · have hc' : ¬ x.Attributes.Namespace = chosenNamespace configNamespace
        (importedServicesOf d istioListener listenerHosts services) x.Hostname :=
      fun h => hc h.symm
    simp [hc, hc']

theorem chosenNamespace_own (configNamespace : String) (imported : List Service)
    (h : String)
    (hex : ∃ y ∈ imported, y.Hostname = h ∧ y.Attributes.Namespace = configNamespace) :
    chosenNamespace configNamespace imported h = configNamespace := by
  unfold chosenNamespace
  have hany : imported.any (fun y =>
      decide (y.Hostname = h ∧ y.Attributes.Namespace = configNamespace)) = true := by
    rw [List.any_eq_true]
    obtain ⟨y, hy, hyh⟩ := hex
    exact ⟨y, hy, by simpa using hyh⟩
  rw [if_pos hany]

theorem chosenNamespace_first (configNamespace : String) (imported : List Service)
    (h : String)
    (hex : ¬ ∃ y ∈ imported, y.Hostname = h ∧ y.Attributes.Namespace = configNamespace)
    (first : Service) (hfirst : imported.find? (fun s => s.Hostname = h) = some first) :
    chosenNamespace configNamespace imported h = first.Attributes.Namespace := by
  unfold chosenNamespace
  have hany : ¬ imported.any (fun y =>
      decide (y.Hostname = h ∧ y.Attributes.Namespace = configNamespace)) = true := by
    rw [List.any_eq_true]
    rintro ⟨y, hy, hyh⟩
    exact hex ⟨y, hy, by simpa using hyh⟩
  rw [if_neg hany, hfirst]

/-- A service that passed import matching in the chosen namespace of its
hostname exists for every hostname that passed import matching. -/
theorem chosenNamespace_inhabited (configNamespace : String) (imported : List Service)
    (x : Service) (hx : x ∈ imported) :
    ∃ y ∈ imported, y.Hostname = x.Hostname ∧
      y.Attributes.Namespace = chosenNamespace configNamespace imported x.Hostname := by
  by_cases hex : ∃ y ∈ imported, y.Hostname = x.Hostname ∧
      y.Attributes.Namespace = configNamespace
  · obtain ⟨y, hy, hyh, hyn⟩ := hex
    exact ⟨y, hy, hyh, by rw [chosenNamespace_own _ _ _ ⟨y, hy, hyh, hyn⟩]; exact hyn⟩
  · cases hf : imported.find? (fun s => s.Hostname = x.Hostname) with
    | none =>
      rw [List.find?_eq_none] at hf
      have := hf x hx
      simp at this
    | some first =>
      refine ⟨first, List.mem_of_find?_eq_some hf, by simpa using List.find?_some hf, ?_⟩
      rw [chosenNamespace_first _ _ _ hex first hf]

/-- Every element of `matchingLoop` is the service itself or a copy of it with
another port list. -/
theorem matchingLoop_origin (d : Deps) (needs : Bool) (number : Int) (service : Service)
    (importedHosts : List String) (x : Service)
    (hx : x ∈ matchingLoop d needs number service importedHosts) :
    ∃ ports, x = { service with Ports := ports } := by
  induction importedHosts with
  | nil => simp [matchingLoop] at hx
  | cons p rest ih =>
    rw [matchingLoop] at hx
    by_cases hm : d.Matches p service.Hostname = true
    · rw [if_pos hm] at hx
      cases needs with
      | false =>
        simp only [Bool.false_eq_true, if_false, List.mem_singleton] at hx
        exact ⟨service.Ports, by rw [hx]⟩
      | true =>
        simp only [if_true] at hx
        by_cases hany : (service.Ports.any fun port => decide (port.Port = number)) = true
        · rw [if_pos hany] at hx
          cases hf : service.Ports.find? (fun port => decide (port.Port = number)) with
          | none =>
            rw [hf] at hx
            exact ih hx
          | some port =>
            rw [hf] at hx
            rcases List.mem_cons.mp hx with heq | hx
            · exact ⟨_, heq⟩
            · exact ih hx
        · rw [if_neg hany] at hx
          exact ih hx
    · rw [if_neg hm] at hx
      exact ih hx

theorem importedFrom_origin (d : Deps) (istioListener : Option IstioEgressListener)
    (listenerHosts : GoMap (List String)) (s x : Service)
    (hx : x ∈ importedFrom d istioListener listenerHosts s) :
    ∃ ports, x = { s with Ports := ports } := by
  unfold importedFrom at hx
  rcases List.mem_append.mp hx with hx | hx
  · split at hx
    · exact matchingLoop_origin d _ _ s _ x hx
    · simp at hx
  · split at hx
    · exact matchingLoop_origin d _ _ s _ x hx
    · simp at hx

/-- The first element of a concatenation of blocks that satisfies a predicate
lies in the block of the first input element whose block has such an
element. -/
theorem find_flatMap_origin {A B : Type} (f : A → List B) (p : B → Bool) (l : List A)
    (b : B) (hb : (l.flatMap f).find? p = some b) :
    ∃ pre a post, l = pre ++ a :: post ∧ b ∈ f a ∧ (f a).find? p = some b ∧
      ∀ t ∈ pre, ∀ y ∈ f t, p y = false := by
  induction l with
  | nil => simp at hb
  | cons a rest ih =>
    rw [List.flatMap_cons, List.find?_append] at hb
    cases hfa : (f a).find? p with
    | some y =>
      rw [hfa] at hb
      simp only [Option.or_some, Option.some.injEq] at hb
      subst hb
      exact ⟨[], a, rest, rfl, List.mem_of_find?_eq_some hfa, hfa, fun t ht => by simp at ht⟩
    | none =>
      rw [hfa] at hb
      simp only [Option.none_or] at hb
      obtain ⟨pre, a', post, hl, hmem, hfind, hpre⟩ := ih hb
      refine ⟨a :: pre, a', post, by rw [hl]; rfl, hmem, hfind, ?_⟩
      intro t ht y hy
      rcases List.mem_cons.mp ht with heq | ht
      · subst heq
        rw [List.find?_eq_none] at hfa
        simpa using hfa y hy
      · exact hpre t ht y hy

/-- C11. `selectServices` resolves each hostname to a single namespace: its
output consists of the services that passed import matching and are in the
namespace chosen for their hostname, so that all services of the output with
the same hostname have the same namespace; the chosen namespace is the config
namespace if a service with the hostname in the config namespace passed the
matching of imports, otherwise the namespace of the first service with the
hostname that passed it, which comes from the first service of the input
list with the hostname that passed. -/
theorem selectServices_single_namespace (d : Deps)
    (istioListener : Option IstioEgressListener) (listenerHosts : GoMap (List String))
    (services : List Service) (configNamespace : String) (result : List Service)
    (h : selectServices d istioListener listenerHosts services configNamespace = some result)
    (hostname : String) :
    (∀ x ∈ result, x ∈ importedServicesOf d istioListener listenerHosts services) ∧
    (∀ x ∈ result, ∀ y ∈ result, x.Hostname = y.Hostname →
      x.Attributes.Namespace = y.Attributes.Namespace) ∧
    ((∃ y ∈ importedServicesOf d istioListener listenerHosts services,
        y.Hostname = hostname ∧ y.Attributes.Namespace = configNamespace) →
      (∀ x ∈ result, x.Hostname = hostname → x.Attributes.Namespace = configNamespace) ∧
      ∃ x ∈ result, x.Hostname = hostname) ∧
    ((¬ ∃ y ∈ importedServicesOf d istioListener listenerHosts services,
        y.Hostname = hostname ∧ y.Attributes.Namespace = configNamespace) →
      ∀ first, (importedServicesOf d istioListener listenerHosts services).find?
          (fun s => s.Hostname = hostname) = some first →
        (∀ x ∈ result, x.Hostname = hostname →
          x.Attributes.Namespace = first.Attributes.Namespace) ∧
        first ∈ result ∧
        ∃ pre s post, services = pre ++ s :: post ∧
          s.Hostname = hostname ∧ s.Attributes.Namespace = first.Attributes.Namespace ∧
          first ∈ importedFrom d istioListener listenerHosts s ∧
          ∀ t ∈ pre, ∀ y ∈ importedFrom d istioListener listenerHosts t,
            y.Hostname ≠ hostname) := by
  rw [selectServices_filter] at h
  simp only [Option.some.injEq] at h
  subst h
  refine ⟨fun x hx => List.mem_of_mem_filter hx, ?_, ?_, ?_⟩
  · intro x hx y hy hxy
    have hx2 := (List.mem_filter.mp hx).2
    have hy2 := (List.mem_filter.mp hy).2
    simp only [decide_eq_true_eq] at hx2 hy2
    rw [hx2, hy2, hxy]
  · intro hex
    have hown := chosenNamespace_own configNamespace _ hostname hex
    constructor
    · intro x hx hxh
      have hx2 := (List.mem_filter.mp hx).2
      simp only [decide_eq_true_eq] at hx2
      rw [hx2, hxh, hown]
    · obtain ⟨y, hy, hyh, hyn⟩ := hex
      refine ⟨y, ?_, hyh⟩
      rw [List.mem_filter]
      refine ⟨hy, ?_⟩
      simp only [decide_eq_true_eq]
      rw [hyh, hown, hyn]
  · intro hex first hfirst
    have hch := chosenNamespace_first configNamespace _ hostname hex first hfirst
    have hfh : first.Hostname = hostname := by simpa using List.find?_some hfirst
    refine ⟨?_, ?_, ?_⟩
    · intro x hx hxh
      have hx2 := (List.mem_filter.mp hx).2
      simp only [decide_eq_true_eq] at hx2
      rw [hx2, hxh, hch]
    · rw [List.mem_filter]
      refine ⟨List.mem_of_find?_eq_some hfirst, ?_⟩
      simp only [decide_eq_true_eq]
      rw [hfh, hch]
    · obtain ⟨pre, s, post, hl, hmem, _, hpre⟩ :=
        find_flatMap_origin (importedFrom d istioListener listenerHosts)
          (fun s => decide (s.Hostname = hostname)) services first hfirst
      obtain ⟨ports, hports⟩ := importedFrom_origin d istioListener listenerHosts s first hmem
      refine ⟨pre, s, post, hl, ?_, ?_, hmem, ?_⟩
      · rw [← hfh, hports]
      · rw [hports]
      · intro t ht y hy
        simpa using hpre t ht y hy

/-- Witness of C11: the import `*/a.com` on `a.com` of `ns2` and of `ns1`, for
the config namespace `ns1`. -/
theorem selectServices_single_namespace_witness :
    selectServices exampleDeps (some wildcardListener) [("*", ["a.com"])]
        (twoNamespacePush.Services "ns1") "ns1" =
      some [exampleService "a.com" "ns1" [80, 443]] ∧
    ((∃ y ∈ importedServicesOf exampleDeps (some wildcardListener) [("*", ["a.com"])]
        (twoNamespacePush.Services "ns1"),
        y.Hostname = "a.com" ∧ y.Attributes.Namespace = "ns1") →
      (∀ x ∈ [exampleService "a.com" "ns1" [80, 443]], x.Hostname = "a.com" →
        x.Attributes.Namespace = "ns1") ∧
      ∃ x ∈ [exampleService "a.com" "ns1" [80, 443]], x.Hostname = "a.com") :=
  ⟨by decide,
   (selectServices_single_namespace exampleDeps (some wildcardListener) [("*", ["a.com"])]
      (twoNamespacePush.Services "ns1") "ns1" [exampleService "a.com" "ns1" [80, 443]]
      (by decide) "a.com").2.2.1⟩

/-- Counterexample to C12 as stated: `a.com` of `ns1` and `a.com` of `ns2` are
both imported by the listener `bothGroupsListener`, and its services hold
two services with the hostname `a.com` (twice the one of `ns1`). -/
theorem listener_services_hold_duplicates :
    (convertIstioListenerToWrapper exampleDeps twoNamespacePush "ns1" bothGroupsListener).map
        (fun w => ListenerServices (some w)) =
      some [exampleService "a.com" "ns1" [80, 443], exampleService "a.com" "ns1" [80, 443]] ∧
    exampleService "a.com" "ns1" [80, 443] ∈ twoNamespacePush.Services "ns1" ∧
    exampleService "a.com" "ns2" [80] ∈ twoNamespacePush.Services "ns1" ∧
    importedFrom exampleDeps (some bothGroupsListener) [("ns1", ["a.com"]), ("*", ["a.com"])]
        (exampleService "a.com" "ns1" [80, 443]) ≠ [] ∧
    importedFrom exampleDeps (some bothGroupsListener) [("ns1", ["a.com"]), ("*", ["a.com"])]
        (exampleService "a.com" "ns2" [80]) ≠ [] := by
  decide

/-- C12, amended. For an egress listener and two services with the same
hostname in different namespaces that are both imported by its host patterns,
the final services of the listener contain at least one service with that
hostname, all of them in one namespace, so that not both of the two services
are kept; the namespace is that of the one of the two that is in the config
namespace, if one is. -/
theorem listener_keeps_one_namespace (d : Deps) (ps : PushContext) (configNamespace : String)
    (l : IstioEgressListener) (w : IstioEgressListenerWrapper)
    (h : convertIstioListenerToWrapper d ps configNamespace l = some w)
    (s1 s2 : Service) (hs1 : s1 ∈ ps.Services configNamespace)
    (hs2 : s2 ∈ ps.Services configNamespace) (hh : s1.Hostname = s2.Hostname)
    (hns : s1.Attributes.Namespace ≠ s2.Attributes.Namespace)
    (h1 : importedFrom d (some l) w.listenerHosts s1 ≠ [])
    (h2 : importedFrom d (some l) w.listenerHosts s2 ≠ []) :
    (∃ x ∈ ListenerServices (some w), x.Hostname = s1.Hostname) ∧
    (∀ x ∈ ListenerServices (some w), ∀ y ∈ ListenerServices (some w),
      x.Hostname = s1.Hostname → y.Hostname = s1.Hostname →
      x.Attributes.Namespace = y.Attributes.Namespace) ∧
    ¬ ((∃ x ∈ ListenerServices (some w), x.Hostname = s1.Hostname ∧
          x.Attributes.Namespace = s1.Attributes.Namespace) ∧
       (∃ y ∈ ListenerServices (some w), y.Hostname = s2.Hostname ∧
          y.Attributes.Namespace = s2.Attributes.Namespace)) ∧
    (s1.Attributes.Namespace = configNamespace →
      ∀ x ∈ ListenerServices (some w), x.Hostname = s1.Hostname →
        x.Attributes.Namespace = s1.Attributes.Namespace) ∧
    (s2.Attributes.Namespace = configNamespace →
      ∀ x ∈ ListenerServices (some w), x.Hostname = s1.Hostname →
        x.Attributes.Namespace = s2.Attributes.Namespace) := by
  obtain ⟨_, hsel, _, _⟩ := convertIstioListenerToWrapper_some d ps configNamespace l w h
  rw [selectServices_filter] at hsel
  simp only [Option.some.injEq] at hsel
  show (∃ x ∈ w.services, _) ∧ (∀ x ∈ w.services, ∀ y ∈ w.services, _) ∧
    ¬ ((∃ x ∈ w.services, _) ∧ (∃ y ∈ w.services, _)) ∧
    (_ → ∀ x ∈ w.services, _) ∧ (_ → ∀ x ∈ w.services, _)
  rw [← hsel]
  -- an imported copy of each of the two services
  have himp : ∀ s ∈ ps.Services configNamespace, importedFrom d (some l) w.listenerHosts s ≠ [] →
      ∃ x ∈ importedServicesOf d (some l) w.listenerHosts (ps.Services configNamespace),
        x.Hostname = s.Hostname ∧ x.Attributes.Namespace = s.Attributes.Namespace := by
    intro s hs hne
    obtain ⟨x, hx⟩ := List.exists_mem_of_ne_nil _ hne
    obtain ⟨ports, hports⟩ := importedFrom_origin d (some l) w.listenerHosts s x hx
    refine ⟨x, ?_, by rw [hports], by rw [hports]⟩
    unfold importedServicesOf
    rw [List.mem_flatMap]
    exact ⟨s, hs, hx⟩
  obtain ⟨x1, hx1, hx1h, hx1n⟩ := himp s1 hs1 h1
  obtain ⟨x2, hx2, hx2h, hx2n⟩ := himp s2 hs2 h2
  have hall : ∀ x ∈ (importedServicesOf d (some l) w.listenerHosts
      (ps.Services configNamespace)).filter (fun x =>
        decide (x.Attributes.Namespace = chosenNamespace configNamespace
          (importedServicesOf d (some l) w.listenerHosts (ps.Services configNamespace))
          x.Hostname)), x.Hostname = s1.Hostname →
      x.Attributes.Namespace = chosenNamespace configNamespace
        (importedServicesOf d (some l) w.listenerHosts (ps.Services configNamespace))
        s1.Hostname := by
    intro x hx hxh
    have hx' := (List.mem_filter.mp hx).2
    simp only [decide_eq_true_eq] at hx'
    rw [hx', hxh]
  refine ⟨?_, ?_, ?_, ?_, ?_⟩
  · obtain ⟨y, hy, hyh, hyn⟩ := chosenNamespace_inhabited configNamespace _ x1 hx1
    refine ⟨y, ?_, hyh.trans hx1h⟩
    rw [List.mem_filter]
    refine ⟨hy, ?_⟩
    simp only [decide_eq_true_eq]
    rw [hyn, hyh]
  · intro x hx y hy hxh hyh
    rw [hall x hx hxh, hall y hy hyh]
  · rintro ⟨⟨x, hx, hxh, hxn⟩, ⟨y, hy, hyh, hyn⟩⟩
    apply hns
    rw [← hxn, ← hyn, hall x hx hxh, hall y hy (hyh.trans hh.symm)]
  · intro hcfg x hx hxh
    rw [hall x hx hxh, chosenNamespace_own configNamespace _ s1.Hostname
      ⟨x1, hx1, hx1h, hx1n.trans hcfg⟩, hcfg]
  · intro hcfg x hx hxh
    rw [hall x hx hxh, chosenNamespace_own configNamespace _ s1.Hostname
      ⟨x2, hx2, hx2h.trans hh.symm, hx2n.trans hcfg⟩, hcfg]

/-- Witness of C12, amended: `a.com` of `ns1` and of `ns2` and the listener
`wildcardListener`. -/
theorem listener_keeps_one_namespace_witness :
    convertIstioListenerToWrapper exampleDeps twoNamespacePush "ns1" wildcardListener =
        some wildcardWrapper ∧
    ∃ x ∈ ListenerServices (some wildcardWrapper),
      x.Hostname = (exampleService "a.com" "ns1" [80, 443]).Hostname :=
  ⟨by decide,
   (listener_keeps_one_namespace exampleDeps twoNamespacePush "ns1" wildcardListener
      wildcardWrapper (by decide) (exampleService "a.com" "ns1" [80, 443])
      (exampleService "a.com" "ns2" [80]) (by decide) (by decide) (by decide) (by decide)
      (by decide) (by decide)).1⟩

/-- Evaluation for C17: the rule `ownNamespaceRule` of `ns1` is imported by the
pattern `./a.com` of its own namespace and by the wildcard-namespace pattern
`*/a.com`; `selectVirtualServices` appends it once for each group, and the
wrapper of the listener holds it twice. -/
theorem selectVirtualServices_appends_twice :
    parseListenerHosts "ns1" bothGroupsListener.Hosts [] =
        some [("ns1", ["a.com"]), ("*", ["a.com"])] ∧
    selectVirtualServices exampleDeps [("ns1", ["a.com"]), ("*", ["a.com"])]
        [ownNamespaceRule] = [ownNamespaceRule, ownNamespaceRule] ∧
    (convertIstioListenerToWrapper exampleDeps oneRulePush "ns1" bothGroupsListener).map
        (fun w => ListenerVirtualServices (some w)) =
      some [ownNamespaceRule, ownNamespaceRule] := by
  decide

theorem importedUnder_iff (d : Deps) (listenerHosts : GoMap (List String)) (ns : String)
    (c : VirtualServiceConfig) :
    importedUnder d listenerHosts ns c = true ↔
      ∃ importedHosts, mapLookup listenerHosts ns = some importedHosts ∧
        ∃ p ∈ importedHosts, ∃ h ∈ c.Hosts, d.Matches p h = true := by
  unfold importedUnder
  cases mapLookup listenerHosts ns with
  | none => simp
  | some importedHosts =>
    simp only [importsVirtualService, List.any_eq_true, Option.some.injEq, exists_eq_left']

theorem selectVirtualServiceStep_eq (d : Deps) (listenerHosts : GoMap (List String))
    (c : VirtualServiceConfig) :
    selectVirtualServiceStep d listenerHosts c =
      List.replicate (importCount d listenerHosts c) c := by
  unfold selectVirtualServiceStep importCount importedUnder
  cases mapLookup listenerHosts c.Namespace <;>
    cases mapLookup listenerHosts wildcardNamespace <;>
    simp only [Bool.false_eq_true, if_false, List.replicate, List.append_nil, Nat.add_zero] <;>
    (repeat' split) <;> rfl

theorem importCount_pos_iff (d : Deps) (listenerHosts : GoMap (List String))
    (c : VirtualServiceConfig) :
    0 < importCount d listenerHosts c ↔ importedRule d listenerHosts c = true := by
  unfold importCount importedRule
  cases importedUnder d listenerHosts c.Namespace c <;>
    cases importedUnder d listenerHosts wildcardNamespace c <;> simp

/-- C18. A routing rule is in the output of `selectVirtualServices` if and only
if it is in the input and some import pattern grouped under its own namespace
or under the wildcard namespace matches one of its hosts; the output lists
the rules in the order of the input, each as many times as groups import it,
so that the selected rules of the input, in their order, are a subsequence
of the output. -/
theorem selectVirtualServices_spec (d : Deps) (listenerHosts : GoMap (List String))
    (virtualServices : List VirtualServiceConfig) :
    (∀ c, c ∈ selectVirtualServices d listenerHosts virtualServices ↔
      c ∈ virtualServices ∧
        ((∃ importedHosts, mapLookup listenerHosts c.Namespace = some importedHosts ∧
            ∃ p ∈ importedHosts, ∃ h ∈ c.Hosts, d.Matches p h = true) ∨
         (∃ importedHosts, mapLookup listenerHosts wildcardNamespace = some importedHosts ∧
            ∃ p ∈ importedHosts, ∃ h ∈ c.Hosts, d.Matches p h = true))) ∧
    selectVirtualServices d listenerHosts virtualServices =
      virtualServices.flatMap (fun c => List.replicate (importCount d listenerHosts c) c) ∧
    (∀ c, 0 < importCount d listenerHosts c ↔ importedRule d listenerHosts c = true) ∧
    (virtualServices.filter (importedRule d listenerHosts)).Sublist
      (selectVirtualServices d listenerHosts virtualServices) := by
  have heq : ∀ l : List VirtualServiceConfig, selectVirtualServices d listenerHosts l =
      l.flatMap (fun c => List.replicate (importCount d listenerHosts c) c) := by
    intro l
    induction l with
    | nil => rfl
    | cons c rest ih =>
      rw [selectVirtualServices, ih, selectVirtualServiceStep_eq, List.flatMap_cons]
  refine ⟨?_, heq _, importCount_pos_iff d listenerHosts, ?_⟩
  · intro c
    rw [heq, List.mem_flatMap, ← importedUnder_iff, ← importedUnder_iff]
    constructor
    · rintro ⟨a, ha, hc⟩
      obtain ⟨hne, hca⟩ := List.mem_replicate.mp hc
      subst hca
      refine ⟨ha, ?_⟩
      have hpos : 0 < importCount d listenerHosts c := Nat.pos_of_ne_zero hne
      rw [importCount_pos_iff] at hpos
      simpa [importedRule] using hpos
    · rintro ⟨hc, himp⟩
      refine ⟨c, hc, ?_⟩
      rw [List.mem_replicate]
      refine ⟨?_, rfl⟩
      have hpos : 0 < importCount d listenerHosts c := by
        rw [importCount_pos_iff]
        simpa [importedRule] using himp
      exact Nat.pos_iff_ne_zero.mp hpos
  · rw [heq]
    induction virtualServices with
    | nil => exact List.Sublist.slnil
    | cons c rest ih =>
      rw [List.flatMap_cons, List.filter_cons]
      by_cases hc : importedRule d listenerHosts c = true
      · rw [if_pos hc]
        have hpos := (importCount_pos_iff d listenerHosts c).mpr hc
        obtain ⟨n, hn⟩ := Nat.exists_eq_succ_of_ne_zero (Nat.pos_iff_ne_zero.mp hpos)
        rw [hn, List.replicate_succ, List.cons_append]
        exact List.Sublist.cons₂ c (List.Sublist.trans ih (List.sublist_append_right _ _))
      · rw [if_neg hc]
        exact List.Sublist.trans ih (List.sublist_append_right _ _)

theorem matchingLoop_no_narrowing (d : Deps) (number : Int) (service : Service)
    (importedHosts : List String) :
    matchingLoop d false number service importedHosts =
      if importedHosts.any (fun p => d.Matches p service.Hostname) then [service] else [] := by
  induction importedHosts with
  | nil => rfl
  | cons p rest ih =>
    rw [matchingLoop]
    by_cases hm : d.Matches p service.Hostname = true
    · simp [hm]
    · simp only [hm, List.any_cons, if_false, Bool.false_or]
      simpa using ih

/-- With a port match needed, every element of `matchingLoop` is the copy of
the service trimmed to its first port with the number of the listener, and a
pattern matches the hostname of the service. -/
theorem matchingLoop_narrowing (d : Deps) (number : Int) (service : Service)
    (importedHosts : List String) (x : Service)
    (hx : x ∈ matchingLoop d true number service importedHosts) :
    (∃ port, service.Ports.find? (fun q => q.Port = number) = some port ∧
      x = { service with Ports := [port] }) ∧
    ∃ p ∈ importedHosts, d.Matches p service.Hostname = true := by
  induction importedHosts with
  | nil => simp [matchingLoop] at hx
  | cons p rest ih =>
    rw [matchingLoop] at hx
    have hrest : x ∈ matchingLoop d true number service rest →
        (∃ port, service.Ports.find? (fun q => q.Port = number) = some port ∧
          x = { service with Ports := [port] }) ∧
        ∃ p' ∈ p :: rest, d.Matches p' service.Hostname = true := by
      intro h
      obtain ⟨h1, p', hp', hm'⟩ := ih h
      exact ⟨h1, p', List.mem_cons_of_mem _ hp', hm'⟩
    by_cases hm : d.Matches p service.Hostname = true
    · rw [if_pos hm] at hx
      simp only [if_true] at hx
      by_cases hany : (service.Ports.any fun port => decide (port.Port = number)) = true
      · rw [if_pos hany] at hx
        cases hf : service.Ports.find? (fun port => decide (port.Port = number)) with
        | none =>
          rw [hf] at hx
          have key := hrest hx
          rw [hf] at key
          exact key
        | some port =>
          rw [hf] at hx
          rcases List.mem_cons.mp hx with heq | hx
          · exact ⟨⟨port, rfl, heq⟩, p, List.mem_cons_self _ _, hm⟩
          · have key := hrest hx
            rw [hf] at key
            exact key
      · rw [if_neg hany] at hx
        exact hrest hx
    · rw [if_neg hm] at hx
      exact hrest hx

theorem matchingLoop_without_port (d : Deps) (number : Int) (service : Service)
    (importedHosts : List String) (hno : ∀ q ∈ service.Ports, q.Port ≠ number) :
    matchingLoop d true number service importedHosts = [] := by
  cases hl : matchingLoop d true number service importedHosts with
  | nil => rfl
  | cons x rest =>
    have hx : x ∈ matchingLoop d true number service importedHosts := by
      rw [hl]; exact List.mem_cons_self _ _
    obtain ⟨⟨port, hport, _⟩, _⟩ := matchingLoop_narrowing d number service importedHosts x hx
    have hmem := List.mem_of_find?_eq_some hport
    have hq := List.find?_some hport
    exact absurd (by simpa using hq) (hno port hmem)

theorem needsPortMatchFlag_port (d : Deps) (l : IstioEgressListener) (p : ListenerPort)
    (hp : l.Port = some p) (hn : p.Number ≠ 0) (hproto : d.IsHTTPProxy p.Protocol = false) :
    needsPortMatchFlag d (some l) = true ∧ listenerPortNumber (some l) = (p.Number : Int) := by
  simp [needsPortMatchFlag, needsPortMatch, listenerPortNumber, GetNumber, hp, hn, hproto]

theorem needsPortMatchFlag_none (d : Deps) (l : IstioEgressListener)
    (hno : l.Port = none ∨
      ∃ p, l.Port = some p ∧ (p.Number = 0 ∨ d.IsHTTPProxy p.Protocol = true)) :
    needsPortMatchFlag d (some l) = false := by
  rcases hno with hnone | ⟨p, hp, hz | hproxy⟩
  · simp [needsPortMatchFlag, needsPortMatch, GetNumber, hnone]
  · simp [needsPortMatchFlag, needsPortMatch, GetNumber, hp, hz]
  · by_cases hz : p.Number = 0
    · simp [needsPortMatchFlag, needsPortMatch, GetNumber, hp, hz]
    · simp [needsPortMatchFlag, needsPortMatch, GetNumber, hp, hz, hproxy]

/-- The services of a wrapper come from the visible services through
`importedFrom`. -/
theorem wrapper_services_origin (d : Deps) (ps : PushContext) (configNamespace : String)
    (l : IstioEgressListener) (w : IstioEgressListenerWrapper)
    (h : convertIstioListenerToWrapper d ps configNamespace l = some w)
    (x : Service) (hx : x ∈ w.services) :
    ∃ s ∈ ps.Services configNamespace, x ∈ importedFrom d (some l) w.listenerHosts s := by
  obtain ⟨_, hsel, _, _⟩ := convertIstioListenerToWrapper_some d ps configNamespace l w h
  rw [selectServices_filter] at hsel
  simp only [Option.some.injEq] at hsel
  rw [← hsel] at hx
  have hx' := List.mem_of_mem_filter hx
  unfold importedServicesOf at hx'
  exact List.mem_flatMap.mp hx'

/-- Port narrowing when the wrapper is built: for an egress listener with a
non-zero port number P whose protocol is not HTTP_PROXY, every service that
`convertIstioListenerToWrapper` puts in the services of the listener is a
copy of a visible service with exactly one port, the first port of that
service with the number P, every other field being that of the service; for
a service that exposes no port with the number P `matchingServices` returns
nothing, whatever the imported hosts, so that the loop of `selectServices`
selects nothing from it. This is the wrapper as returned; what `addService`
writes to the copy afterwards is stated on the pointer-level embedding. -/
theorem port_narrowing (d : Deps) (ps : PushContext) (configNamespace : String)
    (l : IstioEgressListener) (w : IstioEgressListenerWrapper)
    (h : convertIstioListenerToWrapper d ps configNamespace l = some w)
    (p : ListenerPort) (hp : l.Port = some p) (hn : p.Number ≠ 0)
    (hproto : d.IsHTTPProxy p.Protocol = false) :
    (∀ x ∈ ListenerServices (some w), ∃ s ∈ ps.Services configNamespace, ∃ port,
      s.Ports.find? (fun q => q.Port = (p.Number : Int)) = some port ∧
      x = { s with Ports := [port] }) ∧
    (∀ importedHosts s, (∀ q ∈ s.Ports, q.Port ≠ (p.Number : Int)) →
      matchingServices d importedHosts s (some l) = some []) ∧
    (∀ s, (∀ q ∈ s.Ports, q.Port ≠ (p.Number : Int)) →
      importedFrom d (some l) w.listenerHosts s = []) := by
  obtain ⟨hflag, hnum⟩ := needsPortMatchFlag_port d l p hp hn hproto
  refine ⟨?_, ?_, ?_⟩
  · intro x hx
    obtain ⟨s, hs, hxs⟩ := wrapper_services_origin d ps configNamespace l w h x hx
    refine ⟨s, hs, ?_⟩
    unfold importedFrom at hxs
    rw [hflag, hnum] at hxs
    rcases List.mem_append.mp hxs with hxs | hxs
    · cases hm : mapLookup w.listenerHosts s.Attributes.Namespace with
      | none => rw [hm] at hxs; simp at hxs
      | some hosts =>
        rw [hm] at hxs
        exact (matchingLoop_narrowing d _ s hosts x hxs).1
    · cases hm : mapLookup w.listenerHosts wildcardNamespace with
      | none => rw [hm] at hxs; simp at hxs
      | some hosts =>
        rw [hm] at hxs
        exact (matchingLoop_narrowing d _ s hosts x hxs).1
  · intro importedHosts s hno
    rw [matchingServices_eq, hflag, hnum, matchingLoop_without_port d _ s importedHosts hno]
  · intro s hno
    unfold importedFrom
    rw [hflag, hnum]
    cases mapLookup w.listenerHosts s.Attributes.Namespace <;>
      cases mapLookup w.listenerHosts wildcardNamespace <;>
      simp [matchingLoop_without_port d _ s _ hno]

/-- Example of port narrowing when the wrapper is built: the listener
`httpListener` on port 80 and its wrapper on `twoNamespacePush`. -/
theorem port_narrowing_witness :
    convertIstioListenerToWrapper exampleDeps twoNamespacePush "ns1" httpListener =
        some httpWrapper ∧
    httpListener.Port = some httpPort ∧ httpPort.Number ≠ 0 ∧
    exampleDeps.IsHTTPProxy httpPort.Protocol = false ∧
    ∀ x ∈ ListenerServices (some httpWrapper), ∃ s ∈ twoNamespacePush.Services "ns1", ∃ port,
      s.Ports.find? (fun q => q.Port = (httpPort.Number : Int)) = some port ∧
      x = { s with Ports := [port] } :=
  ⟨by decide, rfl, by decide, by decide,
   (port_narrowing exampleDeps twoNamespacePush "ns1" httpListener httpWrapper (by decide)
      httpPort rfl (by decide) (by decide)).1⟩

/-- No narrowing when the wrapper is built: for an egress listener with no
port, with the port number 0 or with the protocol HTTP_PROXY,
`matchingServices` returns the service itself as soon as an imported host
matches its hostname, whatever its ports, and nothing otherwise; every service
that `convertIstioListenerToWrapper` puts in the services of the listener is
one of the visible services. This is the wrapper as returned; what
`addService` writes to such a service afterwards is stated on the
pointer-level embedding. -/
theorem no_narrowing (d : Deps) (ps : PushContext) (configNamespace : String)
    (l : IstioEgressListener) (w : IstioEgressListenerWrapper)
    (h : convertIstioListenerToWrapper d ps configNamespace l = some w)
    (hno : l.Port = none ∨
      ∃ p, l.Port = some p ∧ (p.Number = 0 ∨ d.IsHTTPProxy p.Protocol = true)) :
    (∀ importedHosts s, matchingServices d importedHosts s (some l) =
      some (if importedHosts.any (fun p => d.Matches p s.Hostname) then [s] else [])) ∧
    (∀ x ∈ ListenerServices (some w), x ∈ ps.Services configNamespace) := by
  have hflag := needsPortMatchFlag_none d l hno
  refine ⟨?_, ?_⟩
  · intro importedHosts s
    rw [matchingServices_eq, hflag, matchingLoop_no_narrowing]
  · intro x hx
    obtain ⟨s, hs, hxs⟩ := wrapper_services_origin d ps configNamespace l w h x hx
    unfold importedFrom at hxs
    rw [hflag] at hxs
    have hxeq : x = s := by
      rcases List.mem_append.mp hxs with hxs | hxs
      · cases hm : mapLookup w.listenerHosts s.Attributes.Namespace with
        | none => rw [hm] at hxs; simp at hxs
        | some hosts =>
          rw [hm] at hxs
          exact matchingLoop_no_port_subset d _ s hosts x hxs
      · cases hm : mapLookup w.listenerHosts wildcardNamespace with
        | none => rw [hm] at hxs; simp at hxs
        | some hosts =>
          rw [hm] at hxs
          exact matchingLoop_no_port_subset d _ s hosts x hxs
    rw [hxeq]
    exact hs

/-- Example without narrowing when the wrapper is built: the listener
`wildcardListener`, without port, and its wrapper on `twoNamespacePush`. -/
theorem no_narrowing_witness :
    convertIstioListenerToWrapper exampleDeps twoNamespacePush "ns1" wildcardListener =
        some wildcardWrapper ∧
    wildcardListener.Port = none ∧
    ∀ x ∈ ListenerServices (some wildcardWrapper), x ∈ twoNamespacePush.Services "ns1" :=
  ⟨by decide, rfl,
   (no_narrowing exampleDeps twoNamespacePush "ns1" wildcardListener wildcardWrapper
      (by decide) (Or.inl rfl)).2⟩


/-! ## Theorems: destination rules and outbound traffic policy of the scope -/

theorem mem_mapKeys_mapStore {V : Type} (m : GoMap V) (k : String) (v : V) (key : String) :
    key ∈ mapKeys (mapStore m k v) ↔ key = k ∨ key ∈ mapKeys m := by
  induction m with
  | nil => simp [mapStore, mapKeys]
  | cons entry rest ih =>
    obtain ⟨k0, v0⟩ := entry
    by_cases h0 : k0 = k
    · subst h0
      simp [mapStore, mapKeys]
    · have ih' : key ∈ List.map Prod.fst (mapStore rest k v) ↔
          key = k ∨ key ∈ List.map Prod.fst rest := ih
      simp only [mapStore, if_neg h0, mapKeys, List.map_cons, List.mem_cons, ih']
      tauto

theorem mem_mapKeys_destinationRules (ps : PushContext) (configNamespace : String)
    (services : List Service) (m : GoMap (Option DestinationRuleConfig)) (key : String) :
    key ∈ mapKeys (services.foldl
        (fun m s => mapStore m s.Hostname (ps.DestinationRule configNamespace s)) m) ↔
      key ∈ mapKeys m ∨ ∃ s ∈ services, s.Hostname = key := by
  induction services generalizing m with
  | nil => simp
  | cons x rest ih =>
    rw [List.foldl_cons, ih, mem_mapKeys_mapStore]
    constructor
    · rintro (h | h)
      · rcases h with h | h
        · exact Or.inr ⟨x, List.mem_cons_self _ _, h.symm⟩
        · exact Or.inl h
      · obtain ⟨s, hs, hk⟩ := h
        exact Or.inr ⟨s, List.mem_cons_of_mem _ hs, hk⟩
    · rintro (h | ⟨s, hs, hk⟩)
      · exact Or.inl (Or.inr h)
      · rcases List.mem_cons.mp hs with heq | hs
        · subst heq
          exact Or.inl (Or.inl hk.symm)
        · exact Or.inr ⟨s, hs, hk⟩

theorem destinationRules_skip (ps : PushContext) (configNamespace : String)
    (post : List Service) (m : GoMap (Option DestinationRuleConfig)) (key : String)
    (hpost : ∀ t ∈ post, t.Hostname ≠ key) :
    mapLookup (post.foldl
        (fun m s => mapStore m s.Hostname (ps.DestinationRule configNamespace s)) m) key =
      mapLookup m key := by
  induction post generalizing m with
  | nil => rfl
  | cons x rest ih =>
    rw [List.foldl_cons, ih _ (fun t ht => hpost t (List.mem_cons_of_mem _ ht)),
      mapLookup_mapStore, if_neg (hpost x (List.mem_cons_self _ _))]

/-- The destination rule held for a hostname is the one resolved for the last
service of the list with that hostname. -/
theorem destinationRulesOf_last (ps : PushContext) (configNamespace : String)
    (pre post : List Service) (s : Service)
    (hpost : ∀ t ∈ post, t.Hostname ≠ s.Hostname) :
    mapLookup (destinationRulesOf ps configNamespace (pre ++ s :: post)) s.Hostname =
      some (ps.DestinationRule configNamespace s) := by
  unfold destinationRulesOf
  rw [List.foldl_append, List.foldl_cons, destinationRules_skip ps configNamespace post _ _ hpost,
    mapLookup_mapStore, if_pos rfl]

theorem ConvertToSidecarScope_destinationRules (d : Deps) (ps : PushContext)
    (sidecarConfig : Option SidecarConfig) (configNamespace : String) (sc : SidecarScope)
    (h : ConvertToSidecarScope d ps sidecarConfig configNamespace = some sc) :
    sc.destinationRules = destinationRulesOf ps configNamespace sc.services := by
  cases sidecarConfig with
  | none =>
    simp only [ConvertToSidecarScope, Option.some.injEq] at h
    subst h
    rfl
  | some cfg =>
    obtain ⟨_, _, _, _, _, hd⟩ := ConvertToSidecarScope_explicit d ps cfg configNamespace sc h
    exact hd

theorem ConvertToSidecarScope_explicit_nodup (d : Deps) (ps : PushContext)
    (cfg : SidecarConfig) (configNamespace : String) (sc : SidecarScope)
    (h : ConvertToSidecarScope d ps (some cfg) configNamespace = some sc) :
    (sc.services.map (fun s => s.Hostname)).Nodup := by
  obtain ⟨listeners, _, _, hs, _, _⟩ :=
    ConvertToSidecarScope_explicit d ps cfg configNamespace sc h
  rw [hs]
  exact (UnionInv_listeners d ps configNamespace listeners).nodup

theorem nodup_hostname_split (l : List Service) (hn : (l.map (fun s => s.Hostname)).Nodup)
    (s : Service) (hs : s ∈ l) :
    ∃ pre post, l = pre ++ s :: post ∧ ∀ t ∈ post, t.Hostname ≠ s.Hostname := by
  obtain ⟨pre, post, hl⟩ := List.append_of_mem hs
  refine ⟨pre, post, hl, ?_⟩
  intro t ht heq
  rw [hl, List.map_append, List.map_cons] at hn
  have hn2 := (List.nodup_append.mp hn).2.1
  rw [List.nodup_cons] at hn2
  apply hn2.1
  rw [← heq]
  exact List.mem_map_of_mem _ ht

/-- Counterexample to C13 as stated: in the default scope on `policyPush` the
service `a.com` of `ns2` is in `Services()` and its destination rule is the
one of `ns2`, but `DestinationRule` answers with the rule of `ns1`, resolved
for the later service `a.com` of `ns1`. -/
theorem default_scope_policy_of_last_service :
    ConvertToSidecarScope exampleDeps policyPush none "ns1" =
        some (DefaultSidecarScopeForNamespace policyPush "ns1") ∧
    exampleService "a.com" "ns2" [80] ∈
        Services (some (DefaultSidecarScopeForNamespace policyPush "ns1")) ∧
    policyPush.DestinationRule "ns1" (exampleService "a.com" "ns2" [80]) =
        some { Namespace := "ns2", Name := "dr" } ∧
    DestinationRule (some (DefaultSidecarScopeForNamespace policyPush "ns1"))
        (exampleService "a.com" "ns2" [80]).Hostname =
      some { Namespace := "ns1", Name := "dr" } := by
  decide

/-- C13, amended. For a scope built by `ConvertToSidecarScope` and a service
`s` of `Services()` after which no service of `Services()` has the hostname
of `s`, `DestinationRule(s.Hostname)` is the policy the collaborator resolves
for `s` in the config namespace; in a scope built from an explicit resource
this holds for every service of `Services()`. -/
theorem DestinationRule_of_service (d : Deps) (ps : PushContext)
    (sidecarConfig : Option SidecarConfig) (configNamespace : String) (sc : SidecarScope)
    (h : ConvertToSidecarScope d ps sidecarConfig configNamespace = some sc) :
    (∀ pre s post, Services (some sc) = pre ++ s :: post →
      (∀ t ∈ post, t.Hostname ≠ s.Hostname) →
      DestinationRule (some sc) s.Hostname = ps.DestinationRule configNamespace s) ∧
    (sidecarConfig.isSome = true → ∀ s ∈ Services (some sc),
      DestinationRule (some sc) s.Hostname = ps.DestinationRule configNamespace s) := by
  have hd := ConvertToSidecarScope_destinationRules d ps sidecarConfig configNamespace sc h
  have key : ∀ pre s post, sc.services = pre ++ s :: post →
      (∀ t ∈ post, t.Hostname ≠ s.Hostname) →
      DestinationRule (some sc) s.Hostname = ps.DestinationRule configNamespace s := by
    intro pre s post hsplit hpost
    show (mapLookup sc.destinationRules s.Hostname).join = _
    rw [hd, hsplit, destinationRulesOf_last ps configNamespace pre post s hpost]
    rfl
  refine ⟨key, ?_⟩
  intro hsome s hs
  cases sidecarConfig with
  | none => simp at hsome
  | some cfg =>
    have hn := ConvertToSidecarScope_explicit_nodup d ps cfg configNamespace sc h
    obtain ⟨pre, post, hl, hpost⟩ := nodup_hostname_split sc.services hn s hs
    exact key pre s post hl hpost

/-- Witness of C13, amended: the scope of `wildcardConfig` on `policyPush` and
its service `a.com` of `ns1`. -/
theorem DestinationRule_of_service_witness :
    ConvertToSidecarScope exampleDeps policyPush (some wildcardConfig) "ns1" =
        some policyScope ∧
    exampleService "a.com" "ns1" [80, 443] ∈ Services (some policyScope) ∧
    DestinationRule (some policyScope) (exampleService "a.com" "ns1" [80, 443]).Hostname =
      policyPush.DestinationRule "ns1" (exampleService "a.com" "ns1" [80, 443]) :=
  ⟨by decide, by decide,
   (DestinationRule_of_service exampleDeps policyPush (some wildcardConfig) "ns1" policyScope
      (by decide)).2 rfl (exampleService "a.com" "ns1" [80, 443]) (by decide)⟩

/-- Counterexample to C14 as stated: in the default scope on `policyPush` the
key `a.com` of the destination rules is the hostname of two services of
`Services()`. -/
theorem default_scope_key_of_two_services :
    ConvertToSidecarScope exampleDeps policyPush none "ns1" =
        some (DefaultSidecarScopeForNamespace policyPush "ns1") ∧
    "a.com" ∈ mapKeys (DefaultSidecarScopeForNamespace policyPush "ns1").destinationRules ∧
    ((Services (some (DefaultSidecarScopeForNamespace policyPush "ns1"))).filter
        (fun s => s.Hostname = "a.com")).length = 2 := by
  decide

/-- C14, amended. For a scope built by `ConvertToSidecarScope`, every hostname
key of the destination rules is the hostname of at least one service of
`Services()`; of exactly one when the scope is built from an explicit
resource, and whenever the hostnames of `Services()` are distinct. -/
theorem destinationRules_keys (d : Deps) (ps : PushContext)
    (sidecarConfig : Option SidecarConfig) (configNamespace : String) (sc : SidecarScope)
    (h : ConvertToSidecarScope d ps sidecarConfig configNamespace = some sc)
    (key : String) (hkey : key ∈ mapKeys sc.destinationRules) :
    (∃ s ∈ Services (some sc), s.Hostname = key) ∧
    (sidecarConfig.isSome = true →
      ((Services (some sc)).filter (fun s => s.Hostname = key)).length = 1) ∧
    (((Services (some sc)).map (fun s => s.Hostname)).Nodup →
      ((Services (some sc)).filter (fun s => s.Hostname = key)).length = 1) := by
  have hd := ConvertToSidecarScope_destinationRules d ps sidecarConfig configNamespace sc h
  have hex : ∃ s ∈ sc.services, s.Hostname = key := by
    rw [hd] at hkey
    unfold destinationRulesOf at hkey
    rw [mem_mapKeys_destinationRules] at hkey
    rcases hkey with hk | hk
    · simp [mapKeys] at hk
    · exact hk
  have hone : (sc.services.map (fun s => s.Hostname)).Nodup →
      (sc.services.filter (fun s => s.Hostname = key)).length = 1 := by
    intro hn
    cases hf : sc.services.find? (fun s => s.Hostname = key) with
    | none =>
      rw [List.find?_eq_none] at hf
      obtain ⟨s, hs, hsk⟩ := hex
      have := hf s hs
      simp [hsk] at this
    | some e =>
      rw [filter_hostname_of_nodup sc.services key e hn hf]
      rfl
  refine ⟨hex, ?_, hone⟩
  intro hsome
  cases sidecarConfig with
  | none => simp at hsome
  | some cfg => exact hone (ConvertToSidecarScope_explicit_nodup d ps cfg configNamespace sc h)

/-- Witness of C14, amended: the key `a.com` of the scope `wildcardScope`. -/
theorem destinationRules_keys_witness :
    ConvertToSidecarScope exampleDeps twoNamespacePush (some wildcardConfig) "ns1" =
        some wildcardScope ∧
    "a.com" ∈ mapKeys wildcardScope.destinationRules ∧
    ((Services (some wildcardScope)).filter (fun s => s.Hostname = "a.com")).length = 1 :=
  ⟨by decide, by decide,
   (destinationRules_keys exampleDeps twoNamespacePush (some wildcardConfig) "ns1"
      wildcardScope (by decide) "a.com" (by decide)).2.1 rfl⟩

/-- C16. `ConvertToSidecarScope` sets `OutboundTrafficPolicy` by precedence: for
an explicit resource, the setting of the resource when it has one, otherwise
a policy with the mode of the mesh-wide default when there is one, otherwise
nothing; for the default scope, the mode of the mesh-wide default when there
is one, otherwise nothing. -/
theorem OutboundTrafficPolicy_precedence (d : Deps) (ps : PushContext)
    (sidecarConfig : Option SidecarConfig) (configNamespace : String) (sc : SidecarScope)
    (h : ConvertToSidecarScope d ps sidecarConfig configNamespace = some sc) :
    (∀ cfg p, sidecarConfig = some cfg → cfg.Spec.OutboundTrafficPolicy = some p →
      sc.OutboundTrafficPolicy = some p) ∧
    (∀ cfg mode, sidecarConfig = some cfg → cfg.Spec.OutboundTrafficPolicy = none →
      ps.MeshOutboundTrafficPolicy = some mode →
      sc.OutboundTrafficPolicy = some { Mode := mode }) ∧
    (∀ cfg, sidecarConfig = some cfg → cfg.Spec.OutboundTrafficPolicy = none →
      ps.MeshOutboundTrafficPolicy = none → sc.OutboundTrafficPolicy = none) ∧
    (∀ mode, sidecarConfig = none → ps.MeshOutboundTrafficPolicy = some mode →
      sc.OutboundTrafficPolicy = some { Mode := mode }) ∧
    (sidecarConfig = none → ps.MeshOutboundTrafficPolicy = none →
      sc.OutboundTrafficPolicy = none) := by
  have hexplicit : ∀ cfg, sidecarConfig = some cfg →
      sc.OutboundTrafficPolicy =
        match cfg.Spec.OutboundTrafficPolicy with
        | none => meshOutboundTrafficPolicy ps
        | some p => some p := by
    intro cfg hcfg
    subst hcfg
    unfold ConvertToSidecarScope at h
    simp only at h
    cases hc : convertListeners d ps configNamespace cfg.Spec.Egress with
    | none => rw [hc] at h; exact absurd h (by simp)
    | some listeners =>
      rw [hc] at h
      simp only [Option.some.injEq] at h
      subst h
      rfl
  have hdefault : sidecarConfig = none →
      sc.OutboundTrafficPolicy = meshOutboundTrafficPolicy ps := by
    intro hnone
    subst hnone
    simp only [ConvertToSidecarScope, Option.some.injEq] at h
    subst h
    rfl
  refine ⟨?_, ?_, ?_, ?_, ?_⟩
  · intro cfg p hcfg hp
    rw [hexplicit cfg hcfg, hp]
  · intro cfg mode hcfg hp hm
    rw [hexplicit cfg hcfg, hp]
    simp [meshOutboundTrafficPolicy, hm]
  · intro cfg hcfg hp hm
    rw [hexplicit cfg hcfg, hp]
    simp [meshOutboundTrafficPolicy, hm]
  · intro mode hnone hm
    rw [hdefault hnone]
    simp [meshOutboundTrafficPolicy, hm]
  · intro hnone hm
    rw [hdefault hnone]
    simp [meshOutboundTrafficPolicy, hm]

/-- Witness of C16: `wildcardConfig` has no setting of its own and the mesh of
`policyPush` has the default mode 1. -/
theorem OutboundTrafficPolicy_precedence_witness :
    ConvertToSidecarScope exampleDeps policyPush (some wildcardConfig) "ns1" =
        some policyScope ∧
    policyScope.OutboundTrafficPolicy = some { Mode := 1 } :=
  ⟨by decide,
   (OutboundTrafficPolicy_precedence exampleDeps policyPush (some wildcardConfig) "ns1"
      policyScope (by decide)).2.1 wildcardConfig 1 rfl rfl rfl⟩


/-! ## Theorems: what the construction writes to the `Service` objects -/

/-- Evaluation for C15: the two objects of `twoEntryStore` are supplied as
visible services and imported by the listener without port of
`wildcardConfig`; `addService` inserts the first and merges the port of the
second into it, and on return the first supplied object holds the ports 80
and 443 where it held port 80. -/
theorem merge_writes_supplied_service :
    twoEntryPush.Services "ns1" = [0, 1] ∧
    Pointer.load twoEntryStore 0 = some (exampleService "a.com" "ns1" [80]) ∧
    (Pointer.ConvertToSidecarScope exampleDeps twoEntryPush wildcardConfig "ns1"
        twoEntryStore).map (fun r => r.1.map (fun w => w.services)) = some [[0, 1]] ∧
    (Pointer.ConvertToSidecarScope exampleDeps twoEntryPush wildcardConfig "ns1"
        twoEntryStore).map (fun r => r.2.services) = some [0] ∧
    (Pointer.ConvertToSidecarScope exampleDeps twoEntryPush wildcardConfig "ns1"
        twoEntryStore).map (fun r => Pointer.load r.2.store 0) =
      some (some (exampleService "a.com" "ns1" [80, 443])) := by
  decide

/-- The same write on copies: the listeners on port 80 and on port 443 of
`twoPortsConfig` both import `a.com`, which exposes both ports; each gets its
own copy trimmed to one port (at the addresses 1 and 2), `addService`
inserts the copy of the first listener in the union and merges port 443 of
the second copy into it, and on return the object held by the listener on
port 80 holds the ports 80 and 443; the supplied object is as before. -/
theorem merge_extends_narrowed_service :
    (Pointer.ConvertToSidecarScope exampleDeps bothPortsPush twoPortsConfig "ns1"
        bothPortsStore).map (fun r => r.1.map (fun w => (w.IstioListener, w.services))) =
      some [(some httpListener, [1]), (some httpsListener, [2])] ∧
    (Pointer.ConvertToSidecarScope exampleDeps bothPortsPush twoPortsConfig "ns1"
        bothPortsStore).map (fun r => r.2.services) = some [1] ∧
    (Pointer.ConvertToSidecarScope exampleDeps bothPortsPush twoPortsConfig "ns1"
        bothPortsStore).map (fun r => Pointer.load r.2.store 1) =
      some (some (exampleService "a.com" "ns1" [80, 443])) ∧
    (Pointer.ConvertToSidecarScope exampleDeps bothPortsPush twoPortsConfig "ns1"
        bothPortsStore).map (fun r => Pointer.load r.2.store 0) =
      some (Pointer.load bothPortsStore 0) ∧
    httpListener.Port = some httpPort ∧ httpPort.Number = 80 ∧
    exampleDeps.IsHTTPProxy httpPort.Protocol = false := by
  decide

/-- Evaluation for C19: the listeners on port 80 and on port 443 of
`twoPortsConfig` both import `a.com`, which exposes both ports. The listener
on port 80 has a non-zero port whose protocol is not HTTP_PROXY, and when the
wrappers are built each listener holds its own copy trimmed to its port.
`addService` then inserts the copy of the first listener in the union and
appends port 443 of the second copy to it, in place: on return the services
of the listener on port 80 hold `a.com` with the two ports 80 and 443. -/
theorem narrowed_listener_shows_merged_ports :
    httpListener.Port = some httpPort ∧ httpPort.Number = 80 ∧
    exampleDeps.IsHTTPProxy httpPort.Protocol = false ∧
    needsPortMatch exampleDeps (some httpListener) = some true ∧
    twoPortsConfig.Spec.Egress = [httpListener, httpsListener] ∧
    Pointer.loadAll bothPortsStore (bothPortsPush.Services "ns1") =
      some [exampleService "a.com" "ns1" [80, 443]] ∧
    (Pointer.convertListeners exampleDeps bothPortsPush "ns1" twoPortsConfig.Spec.Egress
        bothPortsStore).map
        (fun r => r.2.map (fun w => (w.IstioListener, Pointer.loadAll r.1 w.services))) =
      some [(some httpListener, some [exampleService "a.com" "ns1" [80]]),
            (some httpsListener, some [exampleService "a.com" "ns1" [443]])] ∧
    (Pointer.ConvertToSidecarScope exampleDeps bothPortsPush twoPortsConfig "ns1"
        bothPortsStore).map
        (fun r => r.1.map (fun w =>
          (w.IstioListener, Pointer.loadAll r.2.store w.services))) =
      some [(some httpListener, some [exampleService "a.com" "ns1" [80, 443]]),
            (some httpsListener, some [exampleService "a.com" "ns1" [443]])] ∧
    (exampleService "a.com" "ns1" [80, 443]).Ports.length = 2 := by
  decide

/-- Evaluation for C20: the two objects of `twoEntryStore`, `a.com` of `ns1`
with port 80 and `a.com` of `ns1` with port 443, are the visible services, and
the listener without port of `wildcardConfig` imports both: without narrowing
its services are the addresses of the supplied objects. `addService` inserts
the first in the union and appends port 443 of the second to it, in place: on
return the services of the listener hold `a.com` with the ports 80 and 443,
which is none of the visible services as supplied. -/
theorem unnarrowed_listener_shows_merged_ports :
    wildcardConfig.Spec.Egress = [wildcardListener] ∧ wildcardListener.Port = none ∧
    needsPortMatch exampleDeps (some wildcardListener) = some false ∧
    Pointer.loadAll twoEntryStore (twoEntryPush.Services "ns1") =
      some [exampleService "a.com" "ns1" [80], exampleService "a.com" "ns1" [443]] ∧
    (Pointer.convertListeners exampleDeps twoEntryPush "ns1" wildcardConfig.Spec.Egress
        twoEntryStore).map
        (fun r => r.2.map (fun w => (w.services, Pointer.loadAll r.1 w.services))) =
      some [([0, 1],
        some [exampleService "a.com" "ns1" [80], exampleService "a.com" "ns1" [443]])] ∧
    (Pointer.ConvertToSidecarScope exampleDeps twoEntryPush wildcardConfig "ns1"
        twoEntryStore).map
        (fun r => r.1.map (fun w => (w.services, Pointer.loadAll r.2.store w.services))) =
      some [([0, 1],
        some [exampleService "a.com" "ns1" [80, 443], exampleService "a.com" "ns1" [443]])] ∧
    exampleService "a.com" "ns1" [80, 443] ∉ twoEntryStore := by
  decide


/-! ## Theorems: host parsing and totality of the wrapper construction -/

theorem splitAtSlash_none (cs : List Char) (h : '/' ∉ cs) : splitAtSlash cs = none := by
  induction cs with
  | nil => rfl
  | cons c rest ih =>
    have hc : ¬ c = '/' := fun hc => h (by rw [hc]; exact List.mem_cons_self _ _)
    have hrest : '/' ∉ rest := fun hr => h (List.mem_cons_of_mem _ hr)
    simp [splitAtSlash, hc, ih hrest]

theorem splitAtSlash_append (a b : List Char) (h : '/' ∉ a) :
    splitAtSlash (a ++ '/' :: b) = some (a, b) := by
  induction a with
  | nil => simp [splitAtSlash]
  | cons c rest ih =>
    have hc : ¬ c = '/' := fun hc => h (by rw [hc]; exact List.mem_cons_self _ _)
    have hrest : '/' ∉ rest := fun hr => h (List.mem_cons_of_mem _ hr)
    simp [splitAtSlash, hc, ih hrest]

theorem splitAtSlash_of_mem (cs : List Char) (h : '/' ∈ cs) :
    ∃ a b, splitAtSlash cs = some (a, b) ∧ cs = a ++ '/' :: b ∧ '/' ∉ a := by
  induction cs with
  | nil => simp at h
  | cons c rest ih =>
    by_cases hc : c = '/'
    · subst hc
      exact ⟨[], rest, by simp [splitAtSlash], rfl, by simp⟩
    · have hrest : '/' ∈ rest := by
        rcases List.mem_cons.mp h with heq | hr
        · exact absurd heq.symm hc
        · exact hr
      obtain ⟨a, b, hs, hcs, ha⟩ := ih hrest
      refine ⟨c :: a, b, by simp [splitAtSlash, hc, hs], by rw [hcs]; rfl, ?_⟩
      intro hmem
      rcases List.mem_cons.mp hmem with heq | hr
      · exact hc heq.symm
      · exact ha hr

theorem SplitN2_of_slash (a b : String) (h : '/' ∉ a.data) :
    SplitN2 (a ++ "/" ++ b) = [a, b] := by
  have hdata : (a ++ "/" ++ b).data = a.data ++ '/' :: b.data := by
    rw [String.data_append, String.data_append]
    simp
  unfold SplitN2
  rw [hdata, splitAtSlash_append _ _ h]

theorem SplitN2_without_slash (s : String) (h : '/' ∉ s.data) : SplitN2 s = [s] := by
  unfold SplitN2
  rw [splitAtSlash_none _ h]

theorem SplitN2_with_slash (s : String) (h : '/' ∈ s.data) :
    ∃ a b, SplitN2 s = [a, b] ∧ s = a ++ "/" ++ b ∧ '/' ∉ a.data := by
  obtain ⟨a, b, hs, hcs, ha⟩ := splitAtSlash_of_mem s.data h
  refine ⟨String.mk a, String.mk b, ?_, ?_, ha⟩
  · unfold SplitN2
    rw [hs]
  · apply String.ext
    rw [String.data_append, String.data_append, hcs]
    simp

theorem hostImport_of_slash (configNamespace : String) (a b : String) (h : '/' ∉ a.data) :
    hostImport configNamespace (a ++ "/" ++ b) =
      some (if a = currentNamespace then configNamespace else a, b) := by
  unfold hostImport
  rw [SplitN2_of_slash a b h]

theorem hostImport_isSome (configNamespace : String) (s : String) (h : '/' ∈ s.data) :
    ∃ selector pattern, hostImport configNamespace s = some (selector, pattern) := by
  obtain ⟨a, b, hs, _, _⟩ := SplitN2_with_slash s h
  exact ⟨_, b, by unfold hostImport; rw [hs]⟩

/-- One iteration of the loop of `convertIstioListenerToWrapper` over the host
strings, in terms of the import that the host string declares. -/
theorem parseListenerHosts_cons (configNamespace : String) (h : String)
    (rest : List String) (m : GoMap (List String)) :
    parseListenerHosts configNamespace (h :: rest) m =
      match hostImport configNamespace h with
      | none => none
      | some (ns, pattern) =>
        parseListenerHosts configNamespace rest
          (mapStore (match mapLookup m ns with
              | some _ => m
              | none => mapStore m ns []) ns
            ((mapLookup (match mapLookup m ns with
              | some _ => m
              | none => mapStore m ns []) ns).getD [] ++ [pattern])) := by
  rw [parseListenerHosts]
  unfold hostImport
  cases hs : SplitN2 h with
  | nil => rfl
  | cons p0 tail =>
    cases tail with
    | nil => rfl
    | cons p1 tail2 => rfl

theorem parseListenerHosts_congr (configNamespace : String) (hosts hosts' : List String)
    (m : GoMap (List String))
    (h : hosts.map (hostImport configNamespace) = hosts'.map (hostImport configNamespace)) :
    parseListenerHosts configNamespace hosts m = parseListenerHosts configNamespace hosts' m := by
  induction hosts generalizing hosts' m with
  | nil =>
    cases hosts' with
    | nil => rfl
    | cons x xs => simp at h
  | cons x xs ih =>
    cases hosts' with
    | nil => simp at h
    | cons y ys =>
      simp only [List.map_cons, List.cons.injEq] at h
      rw [parseListenerHosts_cons, parseListenerHosts_cons, h.1]
      cases hostImport configNamespace y with
      | none => rfl
      | some pair => exact ih ys _ h.2

theorem parseListenerHosts_total (configNamespace : String) (hosts : List String)
    (m : GoMap (List String)) (h : ∀ x ∈ hosts, '/' ∈ x.data) :
    ∃ lh, parseListenerHosts configNamespace hosts m = some lh := by
  induction hosts generalizing m with
  | nil => exact ⟨m, rfl⟩
  | cons x xs ih =>
    obtain ⟨ns, pattern, hx⟩ := hostImport_isSome configNamespace x (h x (List.mem_cons_self _ _))
    rw [parseListenerHosts_cons, hx]
    exact ih _ (fun y hy => h y (List.mem_cons_of_mem _ hy))

/-- The patterns held for a selector after the parse: those held before, then
those that the host strings declare for it, in the order of declaration. -/
theorem parseListenerHosts_lookup (configNamespace : String) (hosts : List String)
    (m lh : GoMap (List String))
    (hp : parseListenerHosts configNamespace hosts m = some lh) (ns : String) :
    (mapLookup lh ns).getD [] =
      (mapLookup m ns).getD [] ++ patternsFor configNamespace hosts ns := by
  induction hosts generalizing m with
  | nil =>
    simp only [parseListenerHosts, Option.some.injEq] at hp
    subst hp
    simp [patternsFor]
  | cons x xs ih =>
    rw [parseListenerHosts_cons] at hp
    cases hx : hostImport configNamespace x with
    | none => rw [hx] at hp; exact absurd hp (by simp)
    | some pair =>
      obtain ⟨sel, pattern⟩ := pair
      rw [hx] at hp
      simp only at hp
      rw [ih _ hp]
      have hpat : patternsFor configNamespace (x :: xs) ns =
          (if sel = ns then [pattern] else []) ++ patternsFor configNamespace xs ns := by
        unfold patternsFor
        rw [List.filterMap_cons, hx]
        by_cases hsel : sel = ns
        · simp [hsel]
        · simp [hsel]
      rw [hpat, mapLookup_mapStore]
      by_cases hsel : sel = ns
      · subst hsel
        rw [if_pos rfl, if_pos rfl]
        cases hm : mapLookup m sel with
        | none => simp [mapLookup_mapStore]
        | some v => simp [hm]
      · rw [if_neg hsel, if_neg hsel]
        cases hm : mapLookup m sel with
        | none => simp [mapLookup_mapStore, hsel]
        | some v => simp

theorem needsPortMatchFlag_congr (d : Deps) (l1 l2 : IstioEgressListener)
    (h : l1.Port = l2.Port) :
    needsPortMatchFlag d (some l1) = needsPortMatchFlag d (some l2) ∧
    listenerPortNumber (some l1) = listenerPortNumber (some l2) := by
  simp [needsPortMatchFlag, needsPortMatch, listenerPortNumber, h]

theorem selectServices_congr (d : Deps) (l1 l2 : IstioEgressListener) (h : l1.Port = l2.Port)
    (listenerHosts : GoMap (List String)) (services : List Service)
    (configNamespace : String) :
    selectServices d (some l1) listenerHosts services configNamespace =
      selectServices d (some l2) listenerHosts services configNamespace := by
  obtain ⟨hf, hn⟩ := needsPortMatchFlag_congr d l1 l2 h
  have himp : importedServicesOf d (some l1) listenerHosts services =
      importedServicesOf d (some l2) listenerHosts services := by
    unfold importedServicesOf importedFrom
    rw [hf, hn]
  rw [selectServices_eq, selectServices_eq, himp]

/-- C27. Host-import parsing: a host string is split at its first slash into a
namespace selector and a host pattern, which keeps every further slash; the
selector `.` is replaced by the config namespace; the patterns are grouped
per selector in the order of their declaration. Hence, in a config namespace
N (a name without slash), a listener that imports `./h` gets the same
imported hosts, services and virtual services as one that imports `N/h` in
its place. -/
theorem host_import_parsing (d : Deps) (ps : PushContext) (configNamespace : String)
    (hN : '/' ∉ configNamespace.data) :
    (∀ a b : String, '/' ∉ a.data → SplitN2 (a ++ "/" ++ b) = [a, b]) ∧
    (∀ a b : String, '/' ∉ a.data →
      hostImport configNamespace (a ++ "/" ++ b) =
        some (if a = currentNamespace then configNamespace else a, b)) ∧
    (∀ hosts lh, parseListenerHosts configNamespace hosts [] = some lh →
      ∀ ns, (mapLookup lh ns).getD [] = patternsFor configNamespace hosts ns) ∧
    (∀ (l : IstioEgressListener) (before after : List String) (h : String),
      (convertIstioListenerToWrapper d ps configNamespace
          { l with Hosts := before ++ [currentNamespace ++ "/" ++ h] ++ after }).map
        (fun w => (w.listenerHosts, w.services, w.virtualServices)) =
      (convertIstioListenerToWrapper d ps configNamespace
          { l with Hosts := before ++ [configNamespace ++ "/" ++ h] ++ after }).map
        (fun w => (w.listenerHosts, w.services, w.virtualServices))) := by
  refine ⟨SplitN2_of_slash, hostImport_of_slash configNamespace, ?_, ?_⟩
  · intro hosts lh hp ns
    rw [parseListenerHosts_lookup configNamespace hosts [] lh hp ns]
    simp [mapLookup]
  · intro l before after h
    have hdot : '/' ∉ currentNamespace.data := by decide
    have himport : hostImport configNamespace (currentNamespace ++ "/" ++ h) =
        hostImport configNamespace (configNamespace ++ "/" ++ h) := by
      rw [hostImport_of_slash _ _ _ hdot, hostImport_of_slash _ _ _ hN]
      simp
    have hparse : parseListenerHosts configNamespace
          (before ++ [currentNamespace ++ "/" ++ h] ++ after) [] =
        parseListenerHosts configNamespace
          (before ++ [configNamespace ++ "/" ++ h] ++ after) [] := by
      apply parseListenerHosts_congr
      simp [himport]
    unfold convertIstioListenerToWrapper
    simp only [hparse]
    cases parseListenerHosts configNamespace
        (before ++ [configNamespace ++ "/" ++ h] ++ after) [] with
    | none => rfl
    | some lh =>
      simp only
      rw [selectServices_congr d
        { l with Hosts := before ++ [currentNamespace ++ "/" ++ h] ++ after }
        { l with Hosts := before ++ [configNamespace ++ "/" ++ h] ++ after } rfl]
      cases selectServices d
        (some { l with Hosts := before ++ [configNamespace ++ "/" ++ h] ++ after }) lh
        (ps.Services configNamespace) configNamespace <;> rfl

/-- Witness of C27: the config namespace `ns1` and the import `./a.com` of
the only host string of a listener. -/
theorem host_import_parsing_witness :
    '/' ∉ ("ns1" : String).data ∧
    (convertIstioListenerToWrapper exampleDeps twoNamespacePush "ns1"
        { wildcardListener with Hosts := [] ++ [currentNamespace ++ "/" ++ "a.com"] ++ [] }).map
      (fun w => (w.listenerHosts, w.services, w.virtualServices)) =
    (convertIstioListenerToWrapper exampleDeps twoNamespacePush "ns1"
        { wildcardListener with Hosts := [] ++ ["ns1" ++ "/" ++ "a.com"] ++ [] }).map
      (fun w => (w.listenerHosts, w.services, w.virtualServices)) :=
  ⟨by decide,
   (host_import_parsing exampleDeps twoNamespacePush "ns1" (by decide)).2.2.2
      wildcardListener [] [] "a.com"⟩

/-- C28. Construction of a listener wrapper is total when every host string
contains a slash: the parse of the host strings does not index past the
split result, `needsPortMatch` does not read the protocol of an unset port
(for a nil descriptor, no port or the port number 0 it is false without
reading it), `matchingServices` returns a list, and
`convertIstioListenerToWrapper` returns a wrapper. -/
theorem wrapper_construction_total (d : Deps) (ps : PushContext) (configNamespace : String)
    (l : IstioEgressListener) (hvalid : ∀ x ∈ l.Hosts, '/' ∈ x.data) :
    (∃ lh, parseListenerHosts configNamespace l.Hosts [] = some lh) ∧
    (∀ il : Option IstioEgressListener, ∃ b, needsPortMatch d il = some b) ∧
    needsPortMatch d none = some false ∧
    (∀ l0 : IstioEgressListener, l0.Port = none → needsPortMatch d (some l0) = some false) ∧
    (∀ (l0 : IstioEgressListener) (p : ListenerPort), l0.Port = some p → p.Number = 0 →
      needsPortMatch d (some l0) = some false) ∧
    (∀ (il : Option IstioEgressListener) (importedHosts : List String) (s : Service),
      ∃ r, matchingServices d importedHosts s il = some r) ∧
    (∃ w, convertIstioListenerToWrapper d ps configNamespace l = some w) := by
  obtain ⟨lh, hlh⟩ := parseListenerHosts_total configNamespace l.Hosts [] hvalid
  refine ⟨⟨lh, hlh⟩, fun il => ⟨_, needsPortMatch_eq d il⟩, rfl, ?_, ?_, ?_, ?_⟩
  · intro l0 h0
    simp [needsPortMatch, GetNumber, h0]
  · intro l0 p h0 hz
    simp [needsPortMatch, GetNumber, h0, hz]
  · intro il importedHosts s
    exact ⟨_, matchingServices_eq d importedHosts s il⟩
  · unfold convertIstioListenerToWrapper
    rw [hlh]
    simp only [selectServices_eq]
    exact ⟨_, rfl⟩

/-- Witness of C28: the listener `bothGroupsListener`. -/
theorem wrapper_construction_total_witness :
    (∀ x ∈ bothGroupsListener.Hosts, '/' ∈ x.data) ∧
    ∃ w, convertIstioListenerToWrapper exampleDeps twoNamespacePush "ns1"
      bothGroupsListener = some w :=
  ⟨by decide,
   (wrapper_construction_total exampleDeps twoNamespacePush "ns1" bothGroupsListener
      (by decide)).2.2.2.2.2.2⟩


/-! ## Theorems: soundness of the selection -/

theorem matchingLoop_matches (d : Deps) (needs : Bool) (number : Int) (service : Service)
    (importedHosts : List String) (x : Service)
    (hx : x ∈ matchingLoop d needs number service importedHosts) :
    ∃ p ∈ importedHosts, d.Matches p service.Hostname = true := by
  cases needs with
  | true => exact (matchingLoop_narrowing d number service importedHosts x hx).2
  | false =>
    rw [matchingLoop_no_narrowing] at hx
    by_cases hany : importedHosts.any (fun p => d.Matches p service.Hostname) = true
    · obtain ⟨p, hp, hm⟩ := List.any_eq_true.mp hany
      exact ⟨p, hp, hm⟩
    · rw [if_neg hany] at hx
      simp at hx

theorem lookup_patternsFor (configNamespace : String) (hosts : List String)
    (lh : GoMap (List String))
    (hp : parseListenerHosts configNamespace hosts [] = some lh) (ns : String)
    (v : List String) (hv : mapLookup lh ns = some v) :
    v = patternsFor configNamespace hosts ns := by
  have := parseListenerHosts_lookup configNamespace hosts [] lh hp ns
  rw [hv] at this
  simpa [mapLookup] using this

/-- The selection of the scenario: with the hosts `ns1/*`, for every matcher
for which the pattern `*` matches `a.com`. -/
theorem selectServices_scenario (d : Deps) (l : IstioEgressListener)
    (configNamespace : String) (hstar : d.Matches "*" "a.com" = true)
    (hport : l.Port = none) :
    selectServices d (some l) [("ns1", ["*"])]
        [exampleService "a.com" "ns1" [80, 443], exampleService "a.com" "ns2" [8080]]
        configNamespace =
      some [exampleService "a.com" "ns1" [80, 443]] := by
  have hflag : needsPortMatchFlag d (some l) = false :=
    needsPortMatchFlag_none d l (Or.inl hport)
  have himp : importedServicesOf d (some l) [("ns1", ["*"])]
      [exampleService "a.com" "ns1" [80, 443], exampleService "a.com" "ns2" [8080]] =
      [exampleService "a.com" "ns1" [80, 443]] := by
    unfold importedServicesOf importedFrom
    rw [hflag]
    simp only [List.flatMap_cons, List.flatMap_nil, matchingLoop_no_narrowing]
    have h1 : mapLookup [("ns1", ["*"])] (exampleService "a.com" "ns1" [80, 443]).Attributes.Namespace
        = some ["*"] := by decide
    have h2 : mapLookup [("ns1", ["*"])] (exampleService "a.com" "ns2" [8080]).Attributes.Namespace
        = none := by decide
    have h3 : mapLookup ([("ns1", ["*"])] : GoMap (List String)) wildcardNamespace = none := by
      decide
    have h4 : (exampleService "a.com" "ns1" [80, 443]).Hostname = "a.com" := rfl
    rw [h1, h2, h3]
    simp [h4, hstar]
  rw [selectServices_filter, himp]
  congr 1
  have hch : chosenNamespace configNamespace [exampleService "a.com" "ns1" [80, 443]]
      (exampleService "a.com" "ns1" [80, 443]).Hostname = "ns1" := by
    unfold chosenNamespace
    by_cases hc : configNamespace = "ns1"
    · subst hc
      decide
    · have hc' : ¬ (exampleService "a.com" "ns1" [80, 443]).Attributes.Namespace =
          configNamespace := fun h => hc h.symm
      have hc2 : ¬ "ns1" = configNamespace := fun h => hc h.symm
      simp [hc2, exampleService]
  rw [List.filter_cons, hch]
  simp [exampleService]

/-- C21. Selection is sound with respect to the imports: every service of the
services of a listener has the hostname and the namespace of a visible
service S such that a pattern declared for the namespace of S or for the
wildcard namespace matches the hostname of S. In the scenario with the hosts
`ns1/*`, `a.com` of `ns1` (ports 80 and 443) and `a.com` of `ns2` (port
8080), for a matcher for which `*` matches `a.com`, the selection is exactly
`a.com` of `ns1` with the ports 80 and 443. -/
theorem selection_sound (d : Deps) (ps : PushContext) (configNamespace : String)
    (l : IstioEgressListener) (w : IstioEgressListenerWrapper)
    (h : convertIstioListenerToWrapper d ps configNamespace l = some w) :
    (∀ x ∈ ListenerServices (some w), ∃ S ∈ ps.Services configNamespace,
      x.Hostname = S.Hostname ∧ x.Attributes.Namespace = S.Attributes.Namespace ∧
      ∃ p ∈ patternsFor configNamespace l.Hosts S.Attributes.Namespace ++
            patternsFor configNamespace l.Hosts wildcardNamespace,
        d.Matches p S.Hostname = true) ∧
    (∀ (d0 : Deps) (ps0 : PushContext) (ns0 : String) (l0 : IstioEgressListener),
      d0.Matches "*" "a.com" = true → l0.Port = none → l0.Hosts = ["ns1/*"] →
      ps0.Services ns0 =
        [exampleService "a.com" "ns1" [80, 443], exampleService "a.com" "ns2" [8080]] →
      (convertIstioListenerToWrapper d0 ps0 ns0 l0).map (fun w0 => ListenerServices (some w0)) =
        some [exampleService "a.com" "ns1" [80, 443]]) := by
  constructor
  · intro x hx
    obtain ⟨hparse, _, _, _⟩ := convertIstioListenerToWrapper_some d ps configNamespace l w h
    obtain ⟨S, hS, hxS⟩ := wrapper_services_origin d ps configNamespace l w h x hx
    obtain ⟨ports, hports⟩ := importedFrom_origin d (some l) w.listenerHosts S x hxS
    refine ⟨S, hS, by rw [hports], by rw [hports], ?_⟩
    unfold importedFrom at hxS
    rcases List.mem_append.mp hxS with hxs | hxs
    · cases hm : mapLookup w.listenerHosts S.Attributes.Namespace with
      | none => rw [hm] at hxs; simp at hxs
      | some hosts =>
        rw [hm] at hxs
        obtain ⟨p, hp, hmatch⟩ := matchingLoop_matches d _ _ S hosts x hxs
        rw [lookup_patternsFor configNamespace l.Hosts _ hparse _ hosts hm] at hp
        exact ⟨p, List.mem_append_left _ hp, hmatch⟩
    · cases hm : mapLookup w.listenerHosts wildcardNamespace with
      | none => rw [hm] at hxs; simp at hxs
      | some hosts =>
        rw [hm] at hxs
        obtain ⟨p, hp, hmatch⟩ := matchingLoop_matches d _ _ S hosts x hxs
        rw [lookup_patternsFor configNamespace l.Hosts _ hparse _ hosts hm] at hp
        exact ⟨p, List.mem_append_right _ hp, hmatch⟩
  · intro d0 ps0 ns0 l0 hstar hport hhosts hservices
    have hparse : parseListenerHosts ns0 l0.Hosts [] = some [("ns1", ["*"])] := by
      rw [hhosts]
      have hi : hostImport ns0 "ns1/*" = some ("ns1", "*") := by
        have := hostImport_of_slash ns0 "ns1" "*" (by decide)
        simpa [currentNamespace] using this
      rw [parseListenerHosts_cons, hi]
      rfl
    unfold convertIstioListenerToWrapper
    rw [hparse]
    simp only
    rw [hservices, selectServices_scenario d0 l0 ns0 hstar hport]
    rfl

/-- Witness of C21: the scenario with the matcher of the examples. -/
theorem selection_sound_witness :
    convertIstioListenerToWrapper exampleDeps scenarioPush "ns1" namespaceImportListener =
        some namespaceImportWrapper ∧
    (convertIstioListenerToWrapper exampleDeps scenarioPush "ns1" namespaceImportListener).map
        (fun w0 => ListenerServices (some w0)) =
      some [exampleService "a.com" "ns1" [80, 443]] :=
  ⟨by decide,
   (selection_sound exampleDeps scenarioPush "ns1" namespaceImportListener
      namespaceImportWrapper (by decide)).2 exampleDeps scenarioPush "ns1"
      namespaceImportListener (by decide) rfl rfl rfl⟩


/-! ## Theorems: destinations, port merge and order of the fold -/

theorem matchingLoop_deps (M : String → String → Bool) (P : String → Bool)
    (V V' : VirtualServiceConfig → List String) (needs : Bool) (number : Int)
    (service : Service) (importedHosts : List String) :
    matchingLoop ⟨M, P, V'⟩ needs number service importedHosts =
      matchingLoop ⟨M, P, V⟩ needs number service importedHosts := by
  induction importedHosts with
  | nil => rfl
  | cons p rest ih =>
    rw [matchingLoop, matchingLoop, ih]

theorem selectServices_deps (M : String → String → Bool) (P : String → Bool)
    (V V' : VirtualServiceConfig → List String) (istioListener : Option IstioEgressListener)
    (listenerHosts : GoMap (List String)) (services : List Service)
    (configNamespace : String) :
    selectServices ⟨M, P, V'⟩ istioListener listenerHosts services configNamespace =
      selectServices ⟨M, P, V⟩ istioListener listenerHosts services configNamespace := by
  have himp : importedServicesOf ⟨M, P, V'⟩ istioListener listenerHosts services =
      importedServicesOf ⟨M, P, V⟩ istioListener listenerHosts services := by
    unfold importedServicesOf importedFrom
    simp only [matchingLoop_deps M P V V']
    rfl
  rw [selectServices_eq, selectServices_eq, himp]

theorem selectVirtualServices_deps (M : String → String → Bool) (P : String → Bool)
    (V V' : VirtualServiceConfig → List String) (listenerHosts : GoMap (List String))
    (virtualServices : List VirtualServiceConfig) :
    selectVirtualServices ⟨M, P, V'⟩ listenerHosts virtualServices =
      selectVirtualServices ⟨M, P, V⟩ listenerHosts virtualServices := by
  induction virtualServices with
  | nil => rfl
  | cons c rest ih =>
    rw [selectVirtualServices, selectVirtualServices, ih]
    rfl

theorem convertListeners_deps (M : String → String → Bool) (P : String → Bool)
    (V V' : VirtualServiceConfig → List String) (ps : PushContext) (configNamespace : String)
    (egress : List IstioEgressListener) :
    convertListeners ⟨M, P, V'⟩ ps configNamespace egress =
      convertListeners ⟨M, P, V⟩ ps configNamespace egress := by
  induction egress with
  | nil => rfl
  | cons e rest ih =>
    have hw : convertIstioListenerToWrapper ⟨M, P, V'⟩ ps configNamespace e =
        convertIstioListenerToWrapper ⟨M, P, V⟩ ps configNamespace e := by
      unfold convertIstioListenerToWrapper
      simp only [selectServices_deps M P V V', selectVirtualServices_deps M P V V']
    rw [convertListeners, convertListeners, ih, hw]

theorem filterMap_skip_unresolved (f : String → Option Service) (dHost : String)
    (hf : f dHost = none) (l : List String) :
    (l.filter (fun x => x ≠ dHost)).filterMap f = l.filterMap f := by
  induction l with
  | nil => rfl
  | cons x rest ih =>
    by_cases hx : x = dHost
    · subst hx
      simpa [List.filterMap_cons, hf] using ih
    · simp only [List.filter_cons, hx, ne_eq, not_false_eq_true, decide_True, if_true,
        List.filterMap_cons, ih]

theorem resolveDestination_unindexed (ps : PushContext) (configNamespace dHost : String)
    (hnone : mapLookup ps.ServiceByHostnameAndNamespace dHost = none ∨
      mapLookup ps.ServiceByHostnameAndNamespace dHost = some []) :
    resolveDestination ps configNamespace dHost = none := by
  rcases hnone with h | h
  · exact (resolveDestination_spec ps configNamespace dHost).1 h
  · exact ((resolveDestination_spec ps configNamespace dHost).2 [] h).2.1 rfl

/-- C23. A destination whose hostname has no service in any namespace is
skipped without failure: `addDestination` leaves the state as it is, and the
scope built with destinations that differ only by occurrences of that
hostname is the same scope, with the same service union, destination rules
and namespace dependencies. -/
theorem unresolvable_destination_skipped (d d' : Deps) (ps : PushContext)
    (cfg : SidecarConfig) (configNamespace dHost : String)
    (hM : d'.Matches = d.Matches) (hP : d'.IsHTTPProxy = d.IsHTTPProxy)
    (hdest : ∀ vs, (d'.virtualServiceDestinations vs).filter (fun x => x ≠ dHost) =
      (d.virtualServiceDestinations vs).filter (fun x => x ≠ dHost))
    (hnone : mapLookup ps.ServiceByHostnameAndNamespace dHost = none ∨
      mapLookup ps.ServiceByHostnameAndNamespace dHost = some []) :
    (∀ st, addDestination ps configNamespace st dHost = st) ∧
    ConvertToSidecarScope d' ps (some cfg) configNamespace =
      ConvertToSidecarScope d ps (some cfg) configNamespace := by
  have hres := resolveDestination_unindexed ps configNamespace dHost hnone
  constructor
  · intro st
    rw [addDestination_eq, hres]
    rfl
  · obtain ⟨M, P, V⟩ := d
    obtain ⟨M', P', V'⟩ := d'
    simp only at hM hP hdest
    subst hM hP
    have hcand : ∀ l : IstioEgressListenerWrapper,
        listenerCandidates ⟨M', P', V'⟩ ps configNamespace l =
          listenerCandidates ⟨M', P', V⟩ ps configNamespace l := by
      intro l
      unfold listenerCandidates
      rw [List.filterMap_flatMap, List.filterMap_flatMap]
      congr 2
      funext vs
      show (V' vs).filterMap _ = (V vs).filterMap _
      rw [← filterMap_skip_unresolved _ dHost hres (V' vs),
        ← filterMap_skip_unresolved _ dHost hres (V vs), hdest vs]
    have hfold : ∀ (ls : List IstioEgressListenerWrapper) (st : UnionState),
        ls.foldl (addListener ⟨M', P', V'⟩ ps configNamespace) st =
          ls.foldl (addListener ⟨M', P', V⟩ ps configNamespace) st := by
      intro ls st
      rw [foldl_addListener, foldl_addListener]
      unfold unionCandidates
      rw [funext hcand]
    unfold ConvertToSidecarScope
    simp only [convertListeners_deps M' P' V V', hfold]

/-- Witness of C23: the rule of `ghostPush` routes to `ghost.com`, which is not
indexed; with and without that destination the scope is the same. -/
theorem unresolvable_destination_skipped_witness :
    (mapLookup ghostPush.ServiceByHostnameAndNamespace "ghost.com" = none ∨
      mapLookup ghostPush.ServiceByHostnameAndNamespace "ghost.com" = some []) ∧
    ConvertToSidecarScope ghostFreeDeps ghostPush (some routedConfig) "ns1" =
      ConvertToSidecarScope exampleDeps ghostPush (some routedConfig) "ns1" :=
  ⟨Or.inl (by decide),
   (unresolvable_destination_skipped exampleDeps ghostFreeDeps ghostPush routedConfig "ns1"
      "ghost.com" rfl rfl
      (fun vs => by
        show (vs.Routes.filter _).filter _ = vs.Routes.filter _
        rw [List.filter_filter]
        simp)
      (Or.inl (by decide))).2⟩

theorem charsLe_antisymm (a b : List Char) (hab : charsLe a b = true)
    (hba : charsLe b a = true) : a = b := by
  induction a generalizing b with
  | nil =>
    cases b with
    | nil => rfl
    | cons y ys => simp [charsLe] at hba
  | cons x xs ih =>
    cases b with
    | nil => simp [charsLe] at hab
    | cons y ys =>
      simp only [charsLe] at hab hba
      by_cases hxy : x.toNat < y.toNat
      · have hyx : ¬ y.toNat < x.toNat := by omega
        simp [hxy, hyx] at hba
      · by_cases hyx : y.toNat < x.toNat
        · simp [hxy, hyx] at hab
        · simp only [hxy, hyx, if_false] at hab hba
          have hnat : x.toNat = y.toNat := by omega
          have hchar : x = y := by
            apply Char.ext
            apply UInt32.ext
            exact hnat
          rw [hchar, ih ys hab hba]

theorem stringLe_antisymm {a b : String} (hab : stringLe a b = true)
    (hba : stringLe b a = true) : a = b :=
  String.ext (charsLe_antisymm a.data b.data hab hba)

theorem mem_of_mapLookup {V : Type} (m : GoMap V) (k : String) (v : V)
    (h : mapLookup m k = some v) : (k, v) ∈ m := by
  induction m with
  | nil => simp [mapLookup] at h
  | cons entry rest ih =>
    obtain ⟨k0, v0⟩ := entry
    by_cases h0 : k0 = k
    · subst h0
      simp only [mapLookup, if_true, Option.some.injEq] at h
      subst h
      exact List.mem_cons_self _ _
    · simp only [mapLookup, if_neg h0] at h
      exact List.mem_cons_of_mem _ (ih h)

theorem mapLookup_of_mem {V : Type} (m : GoMap V) (hn : (mapKeys m).Nodup) (k : String)
    (v : V) (h : (k, v) ∈ m) : mapLookup m k = some v := by
  induction m with
  | nil => simp at h
  | cons entry rest ih =>
    obtain ⟨k0, v0⟩ := entry
    simp only [mapKeys, List.map_cons, List.nodup_cons] at hn
    rcases List.mem_cons.mp h with heq | hrest
    · simp only [Prod.mk.injEq] at heq
      obtain ⟨hk, hv⟩ := heq
      subst hk hv
      simp [mapLookup]
    · have hne : ¬ k0 = k := by
        intro hk
        apply hn.1
        rw [hk]
        exact List.mem_map.mpr ⟨(k, v), hrest, rfl⟩
      simp only [mapLookup, if_neg hne]
      exact ih hn.2 hrest

/-- Reading a key does not depend on the order in which the entries of a map
are enumerated. -/
theorem mapLookup_perm {V : Type} (m m' : GoMap V) (hperm : m'.Perm m)
    (hn : (mapKeys m).Nodup) (k : String) : mapLookup m' k = mapLookup m k := by
  have hn' : (mapKeys m').Nodup := (List.Perm.nodup_iff (hperm.map Prod.fst)).mpr hn
  cases h : mapLookup m k with
  | some v =>
    exact mapLookup_of_mem m' hn' k v (hperm.mem_iff.mpr (mem_of_mapLookup m k v h))
  | none =>
    cases h' : mapLookup m' k with
    | none => rfl
    | some v =>
      have := mapLookup_of_mem m hn k v (hperm.mem_iff.mp (mem_of_mapLookup m' k v h'))
      rw [h] at this
      exact absurd this (by simp)

/-- The first of the sorted keys does not depend on the order in which the keys
are enumerated. -/
theorem sortStrings_head_perm (l l' : List String) (hperm : l'.Perm l) :
    (sortStrings l').headD "" = (sortStrings l).headD "" := by
  by_cases hl : l = []
  · subst hl
    rw [List.Perm.eq_nil hperm]
  · have hl' : l' ≠ [] := by
      intro h
      rw [h] at hperm
      exact hl (List.Perm.eq_nil hperm.symm)
    obtain ⟨m, tail, hs, hm, hmin⟩ := sortStrings_head l hl
    obtain ⟨m', tail', hs', hm', hmin'⟩ := sortStrings_head l' hl'
    rw [hs, hs']
    show m' = m
    exact stringLe_antisymm (hmin' m (hperm.mem_iff.mpr hm)) (hmin m' (hperm.mem_iff.mp hm'))

theorem resolveDestination_perm (ps ps' : PushContext) (configNamespace dHost : String)
    (hperm : ((mapLookup ps'.ServiceByHostnameAndNamespace dHost).getD []).Perm
      ((mapLookup ps.ServiceByHostnameAndNamespace dHost).getD []))
    (hn : (mapKeys ((mapLookup ps.ServiceByHostnameAndNamespace dHost).getD [])).Nodup) :
    resolveDestination ps' configNamespace dHost = resolveDestination ps configNamespace dHost := by
  unfold resolveDestination
  simp only
  generalize (mapLookup ps'.ServiceByHostnameAndNamespace dHost).getD [] = m' at hperm
  generalize (mapLookup ps.ServiceByHostnameAndNamespace dHost).getD [] = m at hperm hn
  rw [mapLookup_perm m m' hperm hn configNamespace, hperm.length_eq,
    sortStrings_head_perm (mapKeys m) (mapKeys m') (hperm.map Prod.fst),
    mapLookup_perm m m' hperm hn]

/-! ## Resolution of the destinations of virtual services -/

theorem convertListeners_index (d : Deps) (S : String → List Service)
    (V : String → GoMap Bool → List VirtualServiceConfig)
    (D : String → Service → Option DestinationRuleConfig) (I I' : GoMap (GoMap Service))
    (M : Option Nat) (configNamespace : String) (ls : List IstioEgressListener) :
    convertListeners d ⟨S, V, D, I', M⟩ configNamespace ls =
      convertListeners d ⟨S, V, D, I, M⟩ configNamespace ls := by
  induction ls with
  | nil => rfl
  | cons l rest ih =>
    have hw : convertIstioListenerToWrapper d ⟨S, V, D, I', M⟩ configNamespace l =
        convertIstioListenerToWrapper d ⟨S, V, D, I, M⟩ configNamespace l := rfl
    simp only [convertListeners, ih, hw]

/-- C22. Resolution of an inferred destination: the loop over the destinations
of a virtual service passes to `addService` the service indexed under the
destination host and `configNamespace` when there is one, and otherwise, when
the host is indexed in some namespace, the service of the least namespace in
the order of `sort.Strings`. The service passed is the same for every order in
which the namespaces of a host are enumerated, and so is the scope built: the
services, the destination rules and the namespace dependencies. -/
theorem destination_resolution_deterministic (d : Deps) (ps ps' : PushContext)
    (cfg : SidecarConfig) (configNamespace : String)
    (hS : ps'.Services = ps.Services) (hV : ps'.VirtualServices = ps.VirtualServices)
    (hD : ps'.DestinationRule = ps.DestinationRule)
    (hM : ps'.MeshOutboundTrafficPolicy = ps.MeshOutboundTrafficPolicy)
    (hperm : ∀ dHost, ((mapLookup ps'.ServiceByHostnameAndNamespace dHost).getD []).Perm
      ((mapLookup ps.ServiceByHostnameAndNamespace dHost).getD []))
    (hnodup : ∀ dHost,
      (mapKeys ((mapLookup ps.ServiceByHostnameAndNamespace dHost).getD [])).Nodup) :
    (∀ st dHost, addDestination ps configNamespace st dHost =
      addService st (resolveDestination ps configNamespace dHost)) ∧
    (∀ dHost byNamespace, mapLookup ps.ServiceByHostnameAndNamespace dHost = some byNamespace →
      (∀ s, mapLookup byNamespace configNamespace = some s →
        resolveDestination ps configNamespace dHost = some s) ∧
      (mapLookup byNamespace configNamespace = none → byNamespace ≠ [] →
        ∃ least s, least ∈ mapKeys byNamespace ∧
          (∀ k ∈ mapKeys byNamespace, stringLe least k = true) ∧
          (∀ k ∈ mapKeys byNamespace,
            (∀ j ∈ mapKeys byNamespace, stringLe k j = true) → k = least) ∧
          mapLookup byNamespace least = some s ∧
          resolveDestination ps configNamespace dHost = some s)) ∧
    (∀ dHost, resolveDestination ps' configNamespace dHost =
      resolveDestination ps configNamespace dHost) ∧
    ConvertToSidecarScope d ps' (some cfg) configNamespace =
      ConvertToSidecarScope d ps (some cfg) configNamespace := by
  have hres : ∀ dHost, resolveDestination ps' configNamespace dHost =
      resolveDestination ps configNamespace dHost :=
    fun dHost => resolveDestination_perm ps ps' configNamespace dHost (hperm dHost) (hnodup dHost)
  refine ⟨fun st dHost => addDestination_eq ps configNamespace st dHost, ?_, hres, ?_⟩
  · intro dHost byNamespace hidx
    obtain ⟨hown, -, hleast⟩ := (resolveDestination_spec ps configNamespace dHost).2 byNamespace hidx
    refine ⟨hown, ?_⟩
    intro hnone hne
    obtain ⟨least, s, hmem, hmin, hlook, hr⟩ := hleast hnone hne
    exact ⟨least, s, hmem, hmin,
      fun k hk hkmin => stringLe_antisymm (hkmin least hmem) (hmin k hk), hlook, hr⟩
  · obtain ⟨S, V, D, I, M⟩ := ps
    obtain ⟨S', V', D', I', M'⟩ := ps'
    simp only at hS hV hD hM
    subst hS hV hD hM
    have hcand : ∀ l : IstioEgressListenerWrapper,
        listenerCandidates d ⟨S', V', D', I', M'⟩ configNamespace l =
          listenerCandidates d ⟨S', V', D', I, M'⟩ configNamespace l := by
      intro l
      unfold listenerCandidates
      rw [funext hres]
    have hfold : ∀ (ls : List IstioEgressListenerWrapper) (st : UnionState),
        ls.foldl (addListener d ⟨S', V', D', I', M'⟩ configNamespace) st =
          ls.foldl (addListener d ⟨S', V', D', I, M'⟩ configNamespace) st := by
      intro ls st
      rw [foldl_addListener, foldl_addListener]
      unfold unionCandidates
      rw [funext hcand]
    have hrules : ∀ svcs, destinationRulesOf ⟨S', V', D', I', M'⟩ configNamespace svcs =
        destinationRulesOf ⟨S', V', D', I, M'⟩ configNamespace svcs := fun _ => rfl
    have hmesh : meshOutboundTrafficPolicy ⟨S', V', D', I', M'⟩ =
        meshOutboundTrafficPolicy ⟨S', V', D', I, M'⟩ := rfl
    unfold ConvertToSidecarScope
    simp only [convertListeners_index d S' V' D' I I' M', hfold, hrules, hmesh]

/-- Witness of C22: `routedPushReordered` enumerates the namespaces of `b.com`
in the other order than `routedPush`; the scope built is the same. -/
theorem destination_resolution_deterministic_witness :
    (∀ dHost, ((mapLookup routedPushReordered.ServiceByHostnameAndNamespace dHost).getD []).Perm
      ((mapLookup routedPush.ServiceByHostnameAndNamespace dHost).getD [])) ∧
    resolveDestination routedPush "ns1" "b.com" = some (exampleService "b.com" "ns2" [8080]) ∧
    ConvertToSidecarScope exampleDeps routedPushReordered (some routedConfig) "ns1" =
      ConvertToSidecarScope exampleDeps routedPush (some routedConfig) "ns1" :=
  have hperm : ∀ dHost,
      ((mapLookup routedPushReordered.ServiceByHostnameAndNamespace dHost).getD []).Perm
        ((mapLookup routedPush.ServiceByHostnameAndNamespace dHost).getD []) := by
    intro dHost
    by_cases h : "b.com" = dHost
    · subst h
      exact List.Perm.swap _ _ _
    · simp [routedPushReordered, routedPush, mapLookup, h]
  have hnodup : ∀ dHost,
      (mapKeys ((mapLookup routedPush.ServiceByHostnameAndNamespace dHost).getD [])).Nodup := by
    intro dHost
    by_cases h : "b.com" = dHost
    · subst h
      decide
    · simp [routedPush, mapLookup, mapKeys, h]
  ⟨hperm, by decide,
   (destination_resolution_deterministic exampleDeps routedPush routedPushReordered routedConfig
      "ns1" rfl rfl rfl rfl hperm hnodup).2.2.2⟩

/-! ## The port-merging loop of `addService` -/

theorem any_port_iff (osPorts : List Port) (p : Port) :
    osPorts.any (fun osp => p.Port = osp.Port) = true ↔ p.Port ∈ portNumbers osPorts := by
  simp only [List.any_eq_true, decide_eq_true_eq, portNumbers, List.mem_map]
  constructor
  · rintro ⟨x, hx, h⟩
    exact ⟨x, hx, h.symm⟩
  · rintro ⟨x, hx, h⟩
    exact ⟨x, hx, h.symm⟩

theorem mergePorts_present (osPorts rest : List Port) (p : Port)
    (h : p.Port ∈ portNumbers osPorts) :
    mergePorts osPorts (p :: rest) = mergePorts osPorts rest := by
  rw [mergePorts, if_pos ((any_port_iff osPorts p).mpr h)]

theorem mergePorts_absent (osPorts rest : List Port) (p : Port)
    (h : p.Port ∉ portNumbers osPorts) :
    mergePorts osPorts (p :: rest) = mergePorts (osPorts ++ [p]) rest := by
  rw [mergePorts, if_neg (fun hc => h ((any_port_iff osPorts p).mp hc))]

theorem portNumbers_append_singleton (osPorts : List Port) (p : Port) (n : Int) :
    n ∈ portNumbers (osPorts ++ [p]) ↔ n ∈ portNumbers osPorts ∨ n = p.Port := by
  simp only [portNumbers, List.map_append, List.map_cons, List.map_nil, List.mem_append,
    List.mem_singleton]

/-- The ports appended by the port-merging loop: a sublist of the ports of the
service being added, holding each number once; a port is appended exactly when
its number is not held so far and it is the first port with its number. -/
theorem mergePorts_spec (ports osPorts : List Port) :
    ∃ extra, mergePorts osPorts ports = osPorts ++ extra ∧ extra.Sublist ports ∧
      (portNumbers extra).Nodup ∧
      (∀ p, p ∈ extra ↔ p.Port ∉ portNumbers osPorts ∧
        ports.find? (fun q => q.Port = p.Port) = some p) ∧
      ((portNumbers ports).Nodup →
        extra = ports.filter (fun p => p.Port ∉ portNumbers osPorts)) := by
  induction ports generalizing osPorts with
  | nil =>
    exact ⟨[], by simp [mergePorts], List.Sublist.refl _, List.nodup_nil, by simp, by simp⟩
  | cons x rest ih =>
    by_cases hx : x.Port ∈ portNumbers osPorts
    · obtain ⟨extra, heq, hsub, hnd, hiff, hfilter⟩ := ih osPorts
      refine ⟨extra, ?_, hsub.cons x, hnd, ?_, ?_⟩
      · rw [mergePorts_present osPorts rest x hx, heq]
      · intro p
        rw [hiff p, List.find?_cons]
        by_cases hxp : x.Port = p.Port
        · have hp : p.Port ∈ portNumbers osPorts := hxp ▸ hx
          simp [hp]
        · simp [hxp]
      · intro hn
        rw [show portNumbers (x :: rest) = x.Port :: portNumbers rest from rfl,
          List.nodup_cons] at hn
        rw [hfilter hn.2, List.filter_cons]
        simp [hx]
    · obtain ⟨extra, heq, hsub, hnd, hiff, hfilter⟩ := ih (osPorts ++ [x])
      have hfresh : ∀ q ∈ extra, q.Port ≠ x.Port := by
        intro q hq hqx
        have := ((hiff q).mp hq).1
        rw [portNumbers_append_singleton] at this
        exact this (Or.inr hqx)
      refine ⟨x :: extra, ?_, hsub.cons₂ x, ?_, ?_, ?_⟩
      · rw [mergePorts_absent osPorts rest x hx, heq, List.append_assoc]
        rfl
      · rw [show portNumbers (x :: extra) = x.Port :: portNumbers extra from rfl,
          List.nodup_cons]
        refine ⟨?_, hnd⟩
        intro hmem
        obtain ⟨q, hq, hqx⟩ := List.mem_map.mp hmem
        exact hfresh q hq hqx
      · intro p
        rw [List.mem_cons, hiff p, List.find?_cons, portNumbers_append_singleton]
        by_cases hxp : x.Port = p.Port
        · have hp : p.Port ∉ portNumbers osPorts := hxp ▸ hx
          simp only [hxp, decide_True, Option.some.injEq, hp, not_false_eq_true, true_and,
            false_or, not_true_eq_false, false_and, or_false]
          exact eq_comm
        · have hne : ¬ p = x := fun h => hxp (by rw [h])
          have hne2 : ¬ p.Port = x.Port := fun h => hxp h.symm
          simp [hxp, hne, hne2]
      · intro hn
        rw [show portNumbers (x :: rest) = x.Port :: portNumbers rest from rfl,
          List.nodup_cons] at hn
        rw [hfilter hn.2, List.filter_cons]
        simp only [hx, not_false_eq_true, decide_True, if_true, List.cons.injEq, true_and]
        apply List.filter_congr
        intro q hq
        have hqx : ¬ q.Port = x.Port := by
          intro h
          apply hn.1
          rw [← h]
          exact List.mem_map.mpr ⟨q, hq, rfl⟩
        simp [portNumbers_append_singleton, hqx]

theorem mergePorts_absorb (ports osPorts : List Port)
    (h : ∀ p ∈ ports, p.Port ∈ portNumbers osPorts) : mergePorts osPorts ports = osPorts := by
  induction ports with
  | nil => rfl
  | cons x rest ih =>
    rw [mergePorts_present osPorts rest x (h x (List.mem_cons_self _ _))]
    exact ih (fun p hp => h p (List.mem_cons_of_mem _ hp))

theorem mergePorts_covers (ports osPorts : List Port) :
    (∀ n ∈ portNumbers osPorts, n ∈ portNumbers (mergePorts osPorts ports)) ∧
    ∀ p ∈ ports, p.Port ∈ portNumbers (mergePorts osPorts ports) := by
  induction ports generalizing osPorts with
  | nil => exact ⟨fun n hn => hn, fun p hp => by simp at hp⟩
  | cons x rest ih =>
    by_cases hx : x.Port ∈ portNumbers osPorts
    · rw [mergePorts_present osPorts rest x hx]
      refine ⟨(ih osPorts).1, ?_⟩
      intro p hp
      rcases List.mem_cons.mp hp with rfl | hrest
      · exact (ih osPorts).1 _ hx
      · exact (ih osPorts).2 p hrest
    · rw [mergePorts_absent osPorts rest x hx]
      have hkeep := (ih (osPorts ++ [x])).1
      refine ⟨fun n hn => hkeep n ((portNumbers_append_singleton osPorts x n).mpr (Or.inl hn)), ?_⟩
      intro p hp
      rcases List.mem_cons.mp hp with rfl | hrest
      · exact hkeep _ ((portNumbers_append_singleton osPorts p p.Port).mpr (Or.inr rfl))
      · exact (ih (osPorts ++ [x])).2 p hrest

theorem mergePorts_idempotent (ports osPorts : List Port) :
    mergePorts (mergePorts osPorts ports) ports = mergePorts osPorts ports :=
  mergePorts_absorb ports _ (mergePorts_covers ports osPorts).2

theorem mapStore_self {V : Type} (m : GoMap V) (k : String) (v : V)
    (h : mapLookup m k = some v) : mapStore m k v = m := by
  induction m with
  | nil => simp [mapLookup] at h
  | cons entry rest ih =>
    obtain ⟨k0, v0⟩ := entry
    by_cases h0 : k0 = k
    · simp only [mapLookup, if_pos h0, Option.some.injEq] at h
      simp only [mapStore, if_pos h0, h]
    · simp only [mapLookup, if_neg h0] at h
      simp only [mapStore, if_neg h0, ih h]

theorem entry_unique (st : UnionState) (hinv : UnionInv st) (h : String) (e x : Service)
    (he : entryOf st h = some e) (hx : x ∈ st.services) (hxh : x.Hostname = h) : x = e := by
  have hfilter := filter_hostname_of_nodup st.services h e hinv.nodup he
  have hmem : x ∈ st.services.filter (fun s => s.Hostname = h) :=
    List.mem_filter.mpr ⟨hx, by simp [hxh]⟩
  rw [hfilter] at hmem
  exact List.mem_singleton.mp hmem

/-- Writing to an entry the ports it holds leaves the state as it is. -/
theorem mergeInto_self (st : UnionState) (hinv : UnionInv st) (h : String) (e : Service)
    (he : entryOf st h = some e) : mergeInto st h e e.Ports = st := by
  have hmap : st.services.map (fun x =>
      if x.Hostname = h then { x with Ports := e.Ports } else x) = st.services := by
    conv_rhs => rw [← List.map_id st.services]
    apply List.map_congr_left
    intro x hx
    by_cases hxh : x.Hostname = h
    · rw [if_pos hxh, entry_unique st hinv h e x he hx hxh]
      rfl
    · rw [if_neg hxh]
      rfl
  have hstore : mapStore st.servicesAdded h { e with Ports := e.Ports } = st.servicesAdded :=
    mapStore_self st.servicesAdded h e (by rw [hinv.added]; exact he)
  unfold mergeInto
  rw [hmap, hstore]

/-- The call of `addService` on a service whose hostname is in the union with
the same namespace: the merged port list is written to the entry. -/
theorem addSome_same_namespace (st : UnionState) (hinv : UnionInv st) (s e : Service)
    (he : entryOf st s.Hostname = some e)
    (hns : e.Attributes.Namespace = s.Attributes.Namespace) :
    addSome st s = mergeInto st s.Hostname e (mergePorts e.Ports s.Ports) := by
  have hlook : mapLookup st.servicesAdded s.Hostname = some e := by
    rw [hinv.added]
    exact he
  simp only [addSome, addService, hlook]
  by_cases hp : s.Ports.length > 0
  · rw [if_pos ⟨hns, hp⟩]
  · rw [if_neg (fun hc => hp hc.2)]
    have hnil : s.Ports = [] := List.length_eq_zero.mp (by omega)
    rw [hnil]
    exact (mergeInto_self st hinv s.Hostname e he).symm

/-- A call of `addService` on a service whose hostname is in the union with
another namespace leaves the state as it is. -/
theorem addSome_other_namespace (st : UnionState) (hinv : UnionInv st) (s e : Service)
    (he : entryOf st s.Hostname = some e)
    (hns : e.Attributes.Namespace ≠ s.Attributes.Namespace) : addSome st s = st := by
  have hlook : mapLookup st.servicesAdded s.Hostname = some e := by
    rw [hinv.added]
    exact he
  simp only [addSome, addService, hlook]
  rw [if_neg (fun hc => hns hc.1)]

theorem entryOf_mergeInto (st : UnionState) (h : String) (e os : Service)
    (he : entryOf st h = some e) (ports : List Port) :
    entryOf (mergeInto st h os ports) h = some { e with Ports := ports } ∧
    ∀ k, k ≠ h → entryOf (mergeInto st h os ports) k = entryOf st k := by
  have hf : ∀ x : Service,
      (if x.Hostname = h then { x with Ports := ports } else x).Hostname = x.Hostname := by
    intro x
    split <;> rfl
  constructor
  · show (st.services.map _).find? _ = _
    rw [find_map_hostname _ hf]
    have hfind : st.services.find? (fun s => s.Hostname = h) = some e := he
    rw [hfind]
    simp [entryOf_hostname he]
  · intro k hk
    show (st.services.map _).find? _ = st.services.find? _
    rw [find_map_hostname _ hf]
    cases hfind : st.services.find? (fun s => s.Hostname = k) with
    | none => rfl
    | some x =>
      have hxk : x.Hostname = k := by
        have := List.find?_some hfind
        simpa using this
      have hxh : ¬ x.Hostname = h := fun hh => hk (hxk.symm.trans hh)
      simp [hxh]

/-- C24. Port merge on a duplicate of the same namespace: when `addService` is
called on a service whose hostname is in the union with the same namespace, no
entry is added and the entry of that hostname keeps its fields but the port
list, which becomes its previous ports followed by the appended ports: a
sublist of the ports of the later service, in their order, holding each port
whose number is not among the previous ports and that is the first port of
the later service with its number (when the later service has no two ports of
one number: each of its ports whose number is not among the previous ports).
The other entries and the namespace dependencies stay as they are, and a
second call on the same service changes nothing. Two listeners on the ports 80
and 443 that import one service exposing both ports give a union of one entry
with the ports 80 and 443. -/
theorem port_merge_same_namespace (st : UnionState) (s e : Service) (hinv : UnionInv st)
    (he : entryOf st s.Hostname = some e)
    (hns : e.Attributes.Namespace = s.Attributes.Namespace) :
    (∃ extra,
      (addSome st s).services = st.services.map (fun x =>
          if x.Hostname = s.Hostname then { x with Ports := e.Ports ++ extra } else x) ∧
      entryOf (addSome st s) s.Hostname = some { e with Ports := e.Ports ++ extra } ∧
      extra.Sublist s.Ports ∧
      (portNumbers extra).Nodup ∧
      (∀ p, p ∈ extra ↔ p.Port ∉ portNumbers e.Ports ∧
        s.Ports.find? (fun q => q.Port = p.Port) = some p) ∧
      ((portNumbers s.Ports).Nodup →
        extra = s.Ports.filter (fun p => p.Port ∉ portNumbers e.Ports))) ∧
    (addSome st s).services.length = st.services.length ∧
    (addSome st s).services.map (fun x => x.Hostname) =
      st.services.map (fun x => x.Hostname) ∧
    (∀ h, h ≠ s.Hostname → entryOf (addSome st s) h = entryOf st h) ∧
    (addSome st s).namespaceDependencies = st.namespaceDependencies ∧
    addSome (addSome st s) s = addSome st s ∧
    (ConvertToSidecarScope exampleDeps bothPortsMesh (some twoPortsConfig) "ns1").map
        (fun sc => sc.services) = some [exampleService "a.com" "ns1" [80, 443]] := by
  have heq := addSome_same_namespace st hinv s e he hns
  have hf : ∀ (ports : List Port) (x : Service),
      (if x.Hostname = s.Hostname then { x with Ports := ports } else x).Hostname =
        x.Hostname := by
    intro ports x
    split <;> rfl
  obtain ⟨extra, hmerge, hsub, hnd, hiff, hfilter⟩ := mergePorts_spec s.Ports e.Ports
  have hentry := entryOf_mergeInto st s.Hostname e e he (mergePorts e.Ports s.Ports)
  refine ⟨⟨extra, ?_, ?_, hsub, hnd, hiff, hfilter⟩, ?_, ?_, ?_, ?_, ?_, by decide⟩
  · rw [heq, ← hmerge]
    rfl
  · rw [heq, ← hmerge]
    exact hentry.1
  · rw [heq]
    exact List.length_map _ _
  · rw [heq]
    show (st.services.map _).map _ = _
    rw [List.map_map]
    apply List.map_congr_left
    intro x _
    exact hf _ x
  · intro h hh
    rw [heq]
    exact hentry.2 h hh
  · rw [heq]
    rfl
  · have hinv2 : UnionInv (addSome st s) := UnionInv_addSome st hinv s
    have he2 : entryOf (addSome st s) s.Hostname =
        some { e with Ports := mergePorts e.Ports s.Ports } := by
      rw [heq]
      exact hentry.1
    rw [addSome_same_namespace (addSome st s) hinv2 s _ he2 hns]
    show mergeInto (addSome st s) s.Hostname _
      (mergePorts (mergePorts e.Ports s.Ports) s.Ports) = _
    rw [mergePorts_idempotent]
    exact mergeInto_self (addSome st s) hinv2 s.Hostname _ he2

/-- Witness of C24: the union holds `a.com` of `ns1` with port 80 and
`addService` is called on `a.com` of `ns1` with the ports 443 and 80. -/
theorem port_merge_same_namespace_witness :
    entryOf (addSome emptyUnion (exampleService "a.com" "ns1" [80]))
        (exampleService "a.com" "ns1" [443, 80]).Hostname =
      some (exampleService "a.com" "ns1" [80]) ∧
    (addSome (addSome emptyUnion (exampleService "a.com" "ns1" [80]))
        (exampleService "a.com" "ns1" [443, 80])).services =
      [exampleService "a.com" "ns1" [80, 443]] ∧
    addSome (addSome (addSome emptyUnion (exampleService "a.com" "ns1" [80]))
        (exampleService "a.com" "ns1" [443, 80])) (exampleService "a.com" "ns1" [443, 80]) =
      addSome (addSome emptyUnion (exampleService "a.com" "ns1" [80]))
        (exampleService "a.com" "ns1" [443, 80]) :=
  ⟨by decide, by decide,
   (port_merge_same_namespace (addSome emptyUnion (exampleService "a.com" "ns1" [80]))
      (exampleService "a.com" "ns1" [443, 80]) (exampleService "a.com" "ns1" [80])
      (UnionInv_addSome emptyUnion UnionInv_empty _) (by decide) rfl).2.2.2.2.2.1⟩

/-! ## Duplicates of a hostname from several namespaces -/

theorem extendsPorts_namespace {c e : Service} (h : extendsPorts c e) :
    e.Attributes.Namespace = c.Attributes.Namespace ∧ e.Hostname = c.Hostname := by
  obtain ⟨extra, rfl⟩ := h
  exact ⟨rfl, rfl⟩

/-- C25. First inserted wins across namespaces: in the union built by
`ConvertToSidecarScope` from an explicit resource, a hostname has an entry
exactly when some service offered to the union has it, the entry is the only
one of its hostname, and its namespace is that of the first service with the
hostname in fold order (listeners in the order of their declaration; for each
listener its selected services, then the services resolved from the
destinations of its virtual services). A later service of the hostname from
another namespace leaves the state of the fold as it is, so the union and the
namespace dependencies are those built without it. -/
theorem first_inserted_wins (d : Deps) (ps : PushContext) (cfg : SidecarConfig)
    (configNamespace : String) (sc : SidecarScope)
    (h : ConvertToSidecarScope d ps (some cfg) configNamespace = some sc) :
    (∀ hostname, (unionCandidates d ps configNamespace sc.EgressListeners).find?
        (fun c => c.Hostname = hostname) = none →
      sc.services.find? (fun s => s.Hostname = hostname) = none) ∧
    (∀ hostname c, (unionCandidates d ps configNamespace sc.EgressListeners).find?
        (fun c => c.Hostname = hostname) = some c →
      ∃ e, sc.services.find? (fun s => s.Hostname = hostname) = some e ∧
        sc.services.filter (fun s => s.Hostname = hostname) = [e] ∧
        e.Attributes.Namespace = c.Attributes.Namespace) ∧
    (∀ pre s post c,
      unionCandidates d ps configNamespace sc.EgressListeners = pre ++ s :: post →
      pre.find? (fun x => x.Hostname = s.Hostname) = some c →
      c.Attributes.Namespace ≠ s.Attributes.Namespace →
      addService (pre.foldl addSome emptyUnion) (some s) = pre.foldl addSome emptyUnion ∧
      sc.services = ((pre ++ post).foldl addSome emptyUnion).services ∧
      sc.namespaceDependencies =
        ((pre ++ post).foldl addSome emptyUnion).namespaceDependencies) := by
  obtain ⟨listeners, _, hl, hs, hdeps, _⟩ :=
    ConvertToSidecarScope_explicit d ps cfg configNamespace sc h
  have hnodup : (sc.services.map (fun s => s.Hostname)).Nodup := by
    rw [hs]
    exact (UnionInv_listeners d ps configNamespace listeners).nodup
  refine ⟨?_, ?_, ?_⟩
  · intro hostname hc
    have key := entryOf_explicit d ps cfg configNamespace sc h hostname
    rw [hc] at key
    exact key
  · intro hostname c hc
    have key := entryOf_explicit d ps cfg configNamespace sc h hostname
    rw [hc] at key
    obtain ⟨e, he, hx⟩ := key
    exact ⟨e, he, filter_hostname_of_nodup sc.services hostname e hnodup he,
      (extendsPorts_namespace hx).1⟩
  · intro pre s post c hsplit hc hns
    have hinv : UnionInv (pre.foldl addSome emptyUnion) :=
      UnionInv_foldl_addSome pre emptyUnion UnionInv_empty
    have key := entryOf_foldl_of_none pre emptyUnion UnionInv_empty s.Hostname rfl
    rw [hc] at key
    obtain ⟨e, he, hx⟩ := key
    have hne : e.Attributes.Namespace ≠ s.Attributes.Namespace := by
      rw [(extendsPorts_namespace hx).1]
      exact hns
    have hstep : addSome (pre.foldl addSome emptyUnion) s = pre.foldl addSome emptyUnion :=
      addSome_other_namespace _ hinv s e he hne
    have hfold : (pre ++ s :: post).foldl addSome emptyUnion =
        (pre ++ post).foldl addSome emptyUnion := by
      rw [List.foldl_append, List.foldl_cons, hstep, List.foldl_append]
    refine ⟨hstep, ?_, ?_⟩
    · rw [hs, ← hl, foldl_addListener, hsplit, hfold]
    · rw [hdeps, ← hl, foldl_addListener, hsplit, hfold]

/-- Witness of C25: the first listener of `twoListenerConfig` selects `a.com`
of `ns2` and the second `a.com` of `ns1`; the union and the namespace
dependencies are those built from the first alone. -/
theorem first_inserted_wins_witness :
    ConvertToSidecarScope exampleDeps twoNamespacePush (some twoListenerConfig) "ns1" =
      some twoListenerScope ∧
    unionCandidates exampleDeps twoNamespacePush "ns1" twoListenerScope.EgressListeners =
      [exampleService "a.com" "ns2" [80]] ++ exampleService "a.com" "ns1" [80, 443] :: [] ∧
    (addService ([exampleService "a.com" "ns2" [80]].foldl addSome emptyUnion)
        (some (exampleService "a.com" "ns1" [80, 443])) =
      [exampleService "a.com" "ns2" [80]].foldl addSome emptyUnion ∧
    twoListenerScope.services =
      (([exampleService "a.com" "ns2" [80]] ++ []).foldl addSome emptyUnion).services ∧
    twoListenerScope.namespaceDependencies =
      (([exampleService "a.com" "ns2" [80]] ++ []).foldl addSome
        emptyUnion).namespaceDependencies) :=
  ⟨by decide, by decide,
   (first_inserted_wins exampleDeps twoNamespacePush twoListenerConfig "ns1" twoListenerScope
      (by decide)).2.2 [exampleService "a.com" "ns2" [80]]
      (exampleService "a.com" "ns1" [80, 443]) [] (exampleService "a.com" "ns2" [80])
      (by decide) (by decide) (by decide)⟩

/-! ## Selected services and inferred destinations of one listener -/

theorem entryOf_foldl_of_mem (cands : List Service) (st : UnionState) (hinv : UnionInv st)
    (s : Service) (hs : s ∈ cands) :
    ∃ e, entryOf (cands.foldl addSome st) s.Hostname = some e := by
  cases he : entryOf st s.Hostname with
  | some e0 =>
    obtain ⟨e, h, _⟩ := entryOf_foldl_of_some cands st hinv s.Hostname e0 he
    exact ⟨e, h⟩
  | none =>
    have key := entryOf_foldl_of_none cands st hinv s.Hostname he
    cases hf : cands.find? (fun c => c.Hostname = s.Hostname) with
    | none =>
      have := List.find?_eq_none.mp hf s hs
      simp at this
    | some c =>
      rw [hf] at key
      obtain ⟨e, h, _⟩ := key
      exact ⟨e, h⟩

/-- C26. Inference never overrides an explicit import: for a hostname among the
selected services of a listener, the union holds an entry once the services of
the listener are added, and after the destinations of the virtual services of
that listener are added it holds for the hostname that same entry, with
further ports at most, and no second entry. In every scope built the hostname
of a selected service has exactly one entry. With the hosts `*/*.svc`,
`api.svc` in `ns1` and a rule of `ns2` for the host `other.svc` that routes to
`api.svc`, the rule is imported and the union is `api.svc` once. -/
theorem inference_keeps_selected (d : Deps) (ps : PushContext) (configNamespace : String)
    (st : UnionState) (w : IstioEgressListenerWrapper) (s : Service)
    (hinv : UnionInv st) (hs : s ∈ w.services) :
    (∃ e1 e2,
      entryOf (w.services.foldl (fun acc x => addService acc (some x)) st) s.Hostname =
        some e1 ∧
      entryOf (addListener d ps configNamespace st w) s.Hostname = some e2 ∧
      extendsPorts e1 e2 ∧
      (addListener d ps configNamespace st w).services.filter
        (fun x => x.Hostname = s.Hostname) = [e2]) ∧
    (∀ cfg sc, ConvertToSidecarScope d ps (some cfg) configNamespace = some sc →
      w ∈ sc.EgressListeners →
      ∃ e, sc.services.filter (fun x => x.Hostname = s.Hostname) = [e]) ∧
    (ConvertToSidecarScope exampleDeps inferencePush (some inferenceConfig) "ns1").map
        (fun sc => (sc.EgressListeners, sc.services)) =
      some ([inferenceWrapper], [exampleService "api.svc" "ns1" [80]]) := by
  refine ⟨?_, ?_, by decide⟩
  · have hinv1 : UnionInv (w.services.foldl addSome st) :=
      UnionInv_foldl_addSome w.services st hinv
    obtain ⟨e1, he1⟩ := entryOf_foldl_of_mem w.services st hinv s hs
    have hstate : addListener d ps configNamespace st w =
        ((w.virtualServices.flatMap d.virtualServiceDestinations).filterMap
          (resolveDestination ps configNamespace)).foldl addSome
          (w.services.foldl addSome st) := by
      rw [addListener_eq]
      unfold listenerCandidates
      rw [List.foldl_append]
    obtain ⟨e2, he2, hx⟩ := entryOf_foldl_of_some
      ((w.virtualServices.flatMap d.virtualServiceDestinations).filterMap
        (resolveDestination ps configNamespace)) _ hinv1 s.Hostname e1 he1
    have hinv2 : UnionInv (addListener d ps configNamespace st w) :=
      UnionInv_addListener d ps configNamespace st w hinv
    rw [← hstate] at he2
    exact ⟨e1, e2, he1, he2, hx, filter_hostname_of_nodup _ s.Hostname e2 hinv2.nodup he2⟩
  · intro cfg sc h hw
    obtain ⟨listeners, _, hl, hsvc, _, _⟩ :=
      ConvertToSidecarScope_explicit d ps cfg configNamespace sc h
    have hnodup : (sc.services.map (fun s => s.Hostname)).Nodup := by
      rw [hsvc]
      exact (UnionInv_listeners d ps configNamespace listeners).nodup
    have hmem : s ∈ unionCandidates d ps configNamespace sc.EgressListeners := by
      unfold unionCandidates
      rw [List.mem_flatMap]
      refine ⟨w, hw, ?_⟩
      unfold listenerCandidates
      exact List.mem_append_left _ hs
    have key := entryOf_explicit d ps cfg configNamespace sc h s.Hostname
    cases hf : (unionCandidates d ps configNamespace sc.EgressListeners).find?
        (fun c => c.Hostname = s.Hostname) with
    | none =>
      have := List.find?_eq_none.mp hf s hmem
      simp at this
    | some c =>
      rw [hf] at key
      obtain ⟨e, he, _⟩ := key
      exact ⟨e, filter_hostname_of_nodup sc.services s.Hostname e hnodup he⟩

/-- Witness of C26: the listener of `inferenceConfig` selects `api.svc` and
imports a rule that routes to `api.svc`. -/
theorem inference_keeps_selected_witness :
    exampleService "api.svc" "ns1" [80] ∈ inferenceWrapper.services ∧
    (addListener exampleDeps inferencePush "ns1" emptyUnion inferenceWrapper).services =
      [exampleService "api.svc" "ns1" [80]] ∧
    ∃ e1 e2,
      entryOf (inferenceWrapper.services.foldl (fun acc x => addService acc (some x))
        emptyUnion) (exampleService "api.svc" "ns1" [80]).Hostname = some e1 ∧
      entryOf (addListener exampleDeps inferencePush "ns1" emptyUnion inferenceWrapper)
        (exampleService "api.svc" "ns1" [80]).Hostname = some e2 ∧
      extendsPorts e1 e2 ∧
      (addListener exampleDeps inferencePush "ns1" emptyUnion inferenceWrapper).services.filter
        (fun x => x.Hostname = (exampleService "api.svc" "ns1" [80]).Hostname) = [e2] :=
  ⟨by decide, by decide,
   (inference_keeps_selected exampleDeps inferencePush "ns1" emptyUnion inferenceWrapper
      (exampleService "api.svc" "ns1" [80]) UnionInv_empty (by decide)).1⟩

end Model
